import Mathlib

/-!
# tinychain: the Nakamoto block DAG, shallow embedding

The Go sources embedded here are

* `core/nakamoto/blockdag.go`  (`NewBlockDAGFromDB`, `initialiseBlockDAG`, `IngestBlock`,
  `GetEpochForBlockHash`, `GetBlockByHash`, `GetCurrentTip`),
* `core/nakamoto/types.go`     (`ConsensusConfig`, `RawBlock`, `Block`, `Epoch`, `BlockDAG`,
  `GetIdForEpoch`),
* `core/nakamoto/tx.go`        (`RawTransaction`, `Bytes`, `Envelope`,
  `GetMerkleRootForTxs`),
* `tinychain-go/core/nakamoto/consensus.go` (`RawBlock.Envelope`, `RawBlock.Hash`,
  `RawBlock.SetNonce`, `VerifyPOW`, `SolvePOW`),
* `core/nakamoto/node.go`      (`sync_computeCommonAncestorWithPeer`, the two loops of
  `sync_getBestTipFromPeers`, the handler `OnGetBlocks` of `Node.setup`),
* `core/bitset.go`             (`Bitset`, `Size`, `Count`, `Insert`, `Remove`, `Contains`,
  `Indices`, `Ranges`, `findOnesRanges`).

Conventions.

* A Go `byte` is a `Fin 256`, a `[]byte` a list of bytes, a `[n]byte` a list of
  bytes of length `n`, a `uint64` a `Fin (2^64)` with explicit wrapping, a
  `big.Int` that is never negative a `Nat`, any other `big.Int` (the target of
  `VerifyPOW`, the nonce and target of `SolvePOW`) an `Int`.
* The SQLite database is the three tables `epochs`, `blocks`, `transactions`,
  each a list of rows in insertion (rowid) order.  A statement fails only when it
  violates a `PRIMARY KEY`; foreign keys are not enforced (the SQLite default);
  an integer column holds the `uint64` that was bound to it.  The commit of a
  transaction is not a statement of this kind: whether it takes effect is up to the
  driver (`Env.Commit`), and `IngestBlock` does not look at the error it returns.
* A database call returns its result together with the database afterwards; a
  call ends with `nil`, with an error, or with a Go run-time panic (`Outcome`).
* A loop without a bound in the source takes a `fuel` argument, the number of
  times the loop body may be entered, and returns `none` when that is not enough.
  The loop that waits on channels takes the list of the events it receives instead.
  A counted loop `for i := 0; i < n; i++` over a fixed `n` takes the number of passes left.
* A Go `int` is an `Int`, with `/` and `%` truncated toward zero; a `nil` slice is
  the empty list.
* Library code that is not part of the repository (SHA-256, the ECDSA check
  behind `core.VerifySignature`, the application state machine) is a field of
  `Env`.  Functions of the repository that the embedded files call but do not
  declare are either modelled from the spec, under a doc comment that says so,
  or fields of `Env` as well.
-/

namespace Tinychain

/-! ## Bytes and integers -/

/-- A Go `byte`. -/
abbrev Byte := Fin 256

/-- A Go `[]byte`. -/
abbrev ByteSeq := List Byte

/-- A Go `[n]byte`. -/
abbrev FixedBytes (n : Nat) := { l : List Byte // l.length = n }

/-- A Go `[32]byte`. -/
abbrev Bytes32 := FixedBytes 32

/-- A Go `uint64`. -/
abbrev U64 := Fin (2 ^ 64)

/-- Conversion to `uint64`, wrapping modulo `2^64`. -/
def U64.wrap (n : Nat) : U64 := ⟨n % 2 ^ 64, Nat.mod_lt _ (by decide)⟩

/-- The zero value of `[n]byte`. -/
def FixedBytes.zero (n : Nat) : FixedBytes n := ⟨List.replicate n 0, List.length_replicate n 0⟩

/-- The value `[32]byte{}`. -/
def zero32 : Bytes32 := FixedBytes.zero 32

/-- The unsigned integer a byte string denotes in big-endian order (`big.Int.SetBytes`). -/
def bigEndian (bs : ByteSeq) : Nat := bs.foldl (fun acc b => acc * 256 + b.val) 0

/-- The base-256 digits of `n`, least significant first and without leading zeros; `fuel`
bounds the number of digits produced. -/
def digitsLE : Nat → Nat → List Byte
  | 0, _ => []
  | fuel + 1, n =>
    if n = 0 then [] else ⟨n % 256, Nat.mod_lt _ (by decide)⟩ :: digitsLE fuel (n / 256)

/-- The method `big.Int.Bytes`: the big-endian bytes of `n` without leading zeros
(the empty slice for `0`). -/
def bigBytes (n : Nat) : ByteSeq := (digitsLE n n).reverse

/-- The fixed-width big-endian encoding of `n` on `k` bytes, most significant first
(the low `k` base-256 digits of `n`). -/
def fixedBE : (k : Nat) → Nat → FixedBytes k
  | 0, _ => ⟨[], rfl⟩
  | k + 1, n =>
    ⟨(fixedBE k (n / 256)).val ++ [⟨n % 256, Nat.mod_lt _ (by decide)⟩], by
      simp [(fixedBE k (n / 256)).property]⟩

/-- The method `big.Int.FillBytes` on a 32-byte buffer: the 32-byte big-endian encoding;
Go panics (`none`) when the integer does not fit. -/
def fillBytes32 (n : Nat) : Option Bytes32 :=
  if n < 2 ^ 256 then some (fixedBE 32 n) else none

/-- The Go idiom `var dst [n]byte; copy(dst[:], src)`: the first `n` bytes of `src`, padded on
the right with zero bytes when `src` is shorter. -/
def copyInto (n : Nat) (src : ByteSeq) : FixedBytes n :=
  ⟨src.take n ++ List.replicate (n - src.length) 0, by
    simp only [List.length_append, List.length_take, List.length_replicate]; omega⟩

/-- Big-endian encoding of a `uint64` on 8 bytes (`binary.BigEndian.PutUint64`). -/
def putUint64 (x : U64) : ByteSeq := (fixedBE 8 x.val).val

/-- Modelled from the spec: `Bytes32ToBigInt`, which the embedded files call but do not declare;
"big integers as 32-byte big-endian BLOB", so the 32 bytes are read as a big-endian unsigned
integer. -/
def Bytes32ToBigInt (b : Bytes32) : Nat := bigEndian b.val

/-- Modelled from the spec: `BigIntToBytes32`, which the embedded files call but do not declare;
"big integers as 32-byte big-endian BLOB", written with `FillBytes` as `RawBlock.SetNonce`
does, hence a panic (`none`) for an integer of more than 256 bits. -/
def BigIntToBytes32 (n : Nat) : Option Bytes32 := fillBytes32 n

/-- Modelled from the spec: `PadBytes`, which the embedded files call but do not declare; the
blob of an accumulated work is "32-byte big-endian", so a shorter big-endian string is extended
with leading zero bytes up to `n` and a string of `n` bytes or more is returned as it is. -/
def PadBytes (src : ByteSeq) (n : Nat) : ByteSeq := List.replicate (n - src.length) 0 ++ src

/-- Lower-case hexadecimal digit of a value below 16. -/
def hexDigit (n : Nat) : Char :=
  if n < 10 then Char.ofNat (48 + n) else Char.ofNat (87 + n)

/-- The function `hex.EncodeToString`. -/
def hexEncode (bs : ByteSeq) : String :=
  String.mk (bs.flatMap fun b => [hexDigit (b.val / 16), hexDigit (b.val % 16)])

/-! ## Data model (`types.go`, `tx.go`) -/

/-- The struct `RawTransaction` of `tx.go`. -/
structure RawTransaction where
  Version : Byte
  Sig : FixedBytes 64
  FromPubkey : FixedBytes 65
  ToPubkey : FixedBytes 65
  Amount : U64
  Fee : U64
  Nonce : U64
deriving DecidableEq

/-- The struct `RawBlock` of `types.go`. -/
structure RawBlock where
  ParentHash : Bytes32
  ParentTotalWork : Bytes32
  Difficulty : Bytes32
  Timestamp : U64
  NumTransactions : U64
  TransactionsMerkleRoot : Bytes32
  Nonce : Bytes32
  Graffiti : Bytes32
  Transactions : List RawTransaction
deriving DecidableEq

/-- The struct `Block` of `types.go`. -/
structure Block where
  ParentHash : Bytes32
  ParentTotalWork : Nat
  Timestamp : U64
  NumTransactions : U64
  TransactionsMerkleRoot : Bytes32
  Nonce : Bytes32
  Graffiti : Bytes32
  Transactions : List RawTransaction
  Height : U64
  Epoch : String
  Work : Nat
  SizeBytes : U64
  Hash : Bytes32
  AccumulatedWork : Nat
deriving DecidableEq

/-- The struct `Epoch` of `types.go`. -/
structure Epoch where
  Number : U64
  Id : String
  StartBlockHash : Bytes32
  StartTime : U64
  StartHeight : U64
  Difficulty : Nat
deriving DecidableEq

/-- The struct `ConsensusConfig` of `types.go`; `blockdag.go` reads the genesis hash as
`GenesisBlockHash`. -/
structure ConsensusConfig where
  EpochLengthBlocks : U64
  TargetEpochLengthMillis : U64
  GenesisDifficulty : Nat
  GenesisBlockHash : Bytes32
  MaxBlockSizeBytes : U64
deriving DecidableEq

/-! ## The database (`OpenDB`) -/

/-- A row of table `epochs (id TEXT PRIMARY KEY, start_block_hash blob, start_time integer,
start_height integer, difficulty blob)`. -/
structure EpochRow where
  id : String
  start_block_hash : ByteSeq
  start_time : U64
  start_height : U64
  difficulty : ByteSeq
deriving DecidableEq

/-- A row of table `blocks (hash blob primary key, parent_hash blob, difficulty blob,
timestamp integer, num_transactions integer, transactions_merkle_root blob, nonce blob,
height integer, epoch TEXT, size_bytes integer, acc_work blob)`. The column `difficulty` is
`NULL` (`none`) in the rows that `IngestBlock` writes. -/
structure BlockRow where
  hash : ByteSeq
  parent_hash : ByteSeq
  difficulty : Option ByteSeq
  timestamp : U64
  num_transactions : U64
  transactions_merkle_root : ByteSeq
  nonce : ByteSeq
  height : U64
  epoch : String
  size_bytes : U64
  acc_work : ByteSeq
deriving DecidableEq

/-- A row of table `transactions (hash blob, block_hash blob, sig blob, from_pubkey blob,
data blob)`. -/
structure TransactionRow where
  hash : ByteSeq
  block_hash : ByteSeq
  sig : ByteSeq
  from_pubkey : ByteSeq
  data : ByteSeq
deriving DecidableEq

/-- The contents of the database behind `BlockDAG.db`. -/
structure Store where
  epochs : List EpochRow
  blocks : List BlockRow
  transactions : List TransactionRow
deriving DecidableEq

/-- The functions `blockdag.go` calls that are declared outside the embedded files.

* `sha256` is `crypto/sha256.Sum256`.
* `VerifySignature` is `core.VerifySignature(pubkeyHex, sig, msg)`.
* `VerifyTx` is the state machine: `true` when `stateMachine.VerifyTx` returns no error.
* `ComputeMerkleHash` is `core.ComputeMerkleHash`; of its definition only "empty sequence
  hashes to the all-zero hash" is used.
* `SizeBytes` is `RawBlock.SizeBytes`.
* `TxData` is the expression `block_tx.Data[:]` written to the `data` column; the struct
  `RawTransaction` of `tx.go` has no such field.
* `Commit` is `tx.Commit()` of `database/sql`, applied to the database with the writes of the
  transaction pending: `true` when the commit takes effect, `false` when it returns an error
  and the writes of the transaction are rolled back.  The driver decides; a commit is refused,
  for one, while a cursor is open on the database, and `initialiseBlockDAG` leaves the cursor
  `rows` open when it returns early (`return nil` comes before `rows.Close()`). -/
structure Env where
  sha256 : ByteSeq → Bytes32
  VerifySignature : String → ByteSeq → ByteSeq → Bool
  VerifyTx : RawTransaction → Bool
  ComputeMerkleHash : List ByteSeq → Bytes32
  ComputeMerkleHash_nil : ComputeMerkleHash [] = zero32
  SizeBytes : RawBlock → U64
  TxData : RawTransaction → ByteSeq
  Commit : Store → Bool

/-! ## Canonical encodings (`tx.go`, `consensus.go`) -/

/-- The method `RawTransaction.SizeBytes`. -/
def RawTransaction.SizeBytes (_tx : RawTransaction) : U64 := U64.wrap (1 + 65 + 65 + 8 + 8 + 8)

/-- The method `RawTransaction.Bytes`. -/
def RawTransaction.Bytes (tx : RawTransaction) : ByteSeq :=
  [tx.Version] ++ tx.Sig.val ++ tx.FromPubkey.val ++ tx.ToPubkey.val
    ++ putUint64 tx.Amount ++ putUint64 tx.Fee ++ putUint64 tx.Nonce

/-- The method `RawTransaction.Envelope`. -/
def RawTransaction.Envelope (tx : RawTransaction) : ByteSeq :=
  [tx.Version] ++ tx.FromPubkey.val ++ tx.ToPubkey.val
    ++ putUint64 tx.Amount ++ putUint64 tx.Fee ++ putUint64 tx.Nonce

/-- The method `RawTransaction.Hash`. -/
def RawTransaction.Hash (env : Env) (tx : RawTransaction) : Bytes32 :=
  env.sha256 (env.sha256 tx.Bytes).val

/-- The list `envs` that the loop of `GetMerkleRootForTxs` builds. -/
def GetMerkleRootForTxs.envs (txs : List RawTransaction) : List ByteSeq :=
  txs.map RawTransaction.Bytes

/-- The function `GetMerkleRootForTxs`. -/
def GetMerkleRootForTxs (env : Env) (txs : List RawTransaction) : Bytes32 :=
  env.ComputeMerkleHash (GetMerkleRootForTxs.envs txs)

/-- The method `RawBlock.Envelope` (`consensus.go`). -/
def RawBlock.Envelope (b : RawBlock) : ByteSeq :=
  b.ParentHash.val ++ putUint64 b.Timestamp ++ putUint64 b.NumTransactions
    ++ b.TransactionsMerkleRoot.val ++ b.Nonce.val

/-- The method `RawBlock.Hash` (`consensus.go`): SHA-256 of the SHA-256 of the envelope. -/
def RawBlock.Hash (env : Env) (b : RawBlock) : Bytes32 :=
  env.sha256 (env.sha256 b.Envelope).val

/-- The method `big.Int.Cmp`: `-1` if `x < y`, `0` if `x == y`, `+1` if `x > y`. -/
def bigCmp (x y : Int) : Int := if x < y then -1 else if x = y then 0 else 1

/-- The function `VerifyPOW` (`consensus.go`): `hash.Cmp(&target) == -1`, the hash being
`new(big.Int).SetBytes(blockhash[:])` and the target any `big.Int`. -/
def VerifyPOW (blockhash : Bytes32) (target : Int) : Bool :=
  let hash : Int := bigEndian blockhash.val
  decide (bigCmp hash target = -1)

/-- The function `GetIdForEpoch`. -/
def GetIdForEpoch (startBlockHash : Bytes32) (startHeight : U64) : String :=
  toString startHeight.val ++ "_" ++ hexEncode startBlockHash.val

/-- The method `Epoch.GetId`. -/
def Epoch.GetId (e : Epoch) : String := GetIdForEpoch e.StartBlockHash e.StartHeight

/-- Modelled from the spec: `CalculateWork`, which the embedded files call but do not declare;
"work(h) = 2^256 / (h + 1)" in integer arithmetic. -/
def CalculateWork (h : Nat) : Nat := 2 ^ 256 / (h + 1)

/-- Subtraction of two `uint64` values, wrapping modulo `2^64`. -/
def U64.sub (a b : U64) : U64 := U64.wrap (a.val + 2 ^ 64 - b.val)

/-- Modelled from the spec: `RecomputeDifficulty`, which the embedded files call but do not
declare. "actual = new_block.timestamp - prev_epoch.start_time, clamp to 1 if zero;
target = TargetEpochLengthMillis * EpochLengthBlocks;
new_difficulty = prev_epoch.difficulty * actual / target". The two times are `uint64` and are
subtracted as such; the difficulty is a `big.Int`, whose division panics (`none`) on a zero
divisor. -/
def RecomputeDifficulty (epochStart epochEnd : U64) (currDifficulty : Nat)
    (targetEpochLengthMillis epochLengthBlocks : U64) (_height : U64) : Option Nat :=
  let duration := (U64.sub epochEnd epochStart).val
  let actual := if duration = 0 then 1 else duration
  let target := targetEpochLengthMillis.val * epochLengthBlocks.val
  if target = 0 then none else some (currDifficulty * actual / target)

/-! ## Statements on the database -/

/-- The database right after `OpenDB` has created the tables. -/
def Store.empty : Store := ⟨[], [], []⟩

/-- The statement `insert into epochs ...`: fails (`none`) on a duplicate primary key `id`. -/
def Store.insertEpoch (db : Store) (r : EpochRow) : Option Store :=
  if db.epochs.any (fun e => decide (e.id = r.id)) then none
  else some { db with epochs := db.epochs ++ [r] }

/-- The statement `insert into blocks ...`: fails (`none`) on a duplicate primary key `hash`. -/
def Store.insertBlock (db : Store) (r : BlockRow) : Option Store :=
  if db.blocks.any (fun b => decide (b.hash = r.hash)) then none
  else some { db with blocks := db.blocks ++ [r] }

/-- The statements `insert into transactions ...`, one per row; the table has no constraint. -/
def Store.insertTransactions (db : Store) (rs : List TransactionRow) : Store :=
  { db with transactions := db.transactions ++ rs }

/-! ## Results -/

/-- The errors `IngestBlock` and `initialiseBlockDAG` return, one constructor per
`fmt.Errorf` or propagated `err`. -/
inductive DagError where
  /-- Message "Unknown parent block." -/
  | unknownParent
  /-- Message "Num transactions does not match length of transactions list." -/
  | numTransactionsMismatch
  /-- Message "Transaction %d is invalid: signature invalid." -/
  | signatureInvalid (i : Nat)
  /-- Message "Transaction %d is invalid." -/
  | transactionInvalid (i : Nat)
  /-- Message "Merkle root does not match computed merkle root." -/
  | merkleRootMismatch
  /-- Message "Parent block not found." (from `GetEpochForBlockHash`) -/
  | parentBlockNotFound
  /-- Message "Epoch not found." (from `GetEpochForBlockHash`) -/
  | epochNotFound
  /-- Message "Parent block epoch not found." -/
  | parentEpochNotFound
  /-- The error of a failed `insert` (primary key violation). -/
  | constraintFailed
  /-- Message "POW solution is invalid." -/
  | powInvalid
  /-- Message "Block size exceeds maximum block size." -/
  | blockTooLarge
  /-- Message "No blocks found." (from `GetCurrentTip`) -/
  | noBlocksFound
deriving DecidableEq

/-- How a call ends: `nil`, an `error`, or a Go run-time panic. -/
inductive Outcome where
  | ok
  | error (e : DagError)
  | panic
deriving DecidableEq

/-! ## Reads (`blockdag.go`) -/

/-- The method `BlockDAG.GetBlockByHash`: `nil` (`none`) when no row has the hash. -/
def GetBlockByHash (db : Store) (hash : Bytes32) : Option Block :=
  match db.blocks.find? (fun r => decide (r.hash = hash.val)) with
  | none => none
  | some r =>
    some {
      ParentHash := copyInto 32 r.parent_hash
      ParentTotalWork := 0
      Timestamp := r.timestamp
      NumTransactions := r.num_transactions
      TransactionsMerkleRoot := copyInto 32 r.transactions_merkle_root
      Nonce := copyInto 32 r.nonce
      Graffiti := zero32
      Transactions := []
      Height := r.height
      Epoch := r.epoch
      Work := 0
      SizeBytes := r.size_bytes
      Hash := copyInto 32 r.hash
      AccumulatedWork := Bytes32ToBigInt (copyInto 32 r.acc_work) }

/-- The method `BlockDAG.GetEpochForBlockHash`. -/
def GetEpochForBlockHash (db : Store) (blockhash : Bytes32) : Except DagError Epoch :=
  match db.blocks.find? (fun r => decide (r.hash = blockhash.val)) with
  | none => .error .parentBlockNotFound
  | some b =>
    match db.epochs.find? (fun e => decide (e.id = b.epoch)) with
    | none => .error .epochNotFound
    | some e =>
      .ok {
        Number := 0
        Id := e.id
        StartBlockHash := copyInto 32 e.start_block_hash
        StartTime := e.start_time
        StartHeight := e.start_height
        Difficulty := Bytes32ToBigInt (copyInto 32 e.difficulty) }

/-! ## Writes (`blockdag.go`) -/

/-- The values bound by `insert into epochs (id, start_block_hash, start_time, start_height,
difficulty)` for an epoch `e`: `e.GetId()`, `e.StartBlockHash[:]`, `e.StartTime`,
`e.StartHeight` and `Difficulty.Bytes()`. -/
def Epoch.toRow (e : Epoch) : EpochRow :=
  { id := e.GetId
    start_block_hash := e.StartBlockHash.val
    start_time := e.StartTime
    start_height := e.StartHeight
    difficulty := bigBytes e.Difficulty }

/-- The method `BlockDAG.initialiseBlockDAG`. -/
def initialiseBlockDAG (env : Env) (cfg : ConsensusConfig) (db : Store) : Outcome × Store :=
  let genesisBlockHash := cfg.GenesisBlockHash
  match BigIntToBytes32 cfg.GenesisDifficulty with
  | none => (.panic, db)
  | some difficulty =>
    let genesisBlock : RawBlock := {
      ParentHash := zero32
      ParentTotalWork := zero32
      Difficulty := difficulty
      Timestamp := 0
      NumTransactions := 0
      TransactionsMerkleRoot := zero32
      Nonce := zero32
      Graffiti := zero32
      Transactions := [] }
    let genesisHeight : U64 := 0
    -- Check if we have already initialised the database.
    -- (`count > 0`: returns before `rows.Close()`; the rows of the database are as they were)
    if db.blocks.any (fun b => decide (b.hash = genesisBlockHash.val)) then (.ok, db)
    else
      -- Insert the genesis epoch.
      let epoch0 : Epoch := {
        Number := 0
        Id := ""
        StartBlockHash := genesisBlockHash
        StartTime := genesisBlock.Timestamp
        StartHeight := genesisHeight
        Difficulty := cfg.GenesisDifficulty }
      match db.insertEpoch epoch0.toRow with
      | none => (.error .constraintFailed, db)
      | some db1 =>
        match BigIntToBytes32 1 with
        | none => (.panic, db1)
        | some accWorkBuf =>
          -- Insert the genesis block.
          match db1.insertBlock {
              hash := genesisBlockHash.val
              parent_hash := genesisBlock.ParentHash.val
              difficulty := some (bigBytes cfg.GenesisDifficulty)
              timestamp := genesisBlock.Timestamp
              num_transactions := genesisBlock.NumTransactions
              transactions_merkle_root := genesisBlock.TransactionsMerkleRoot.val
              nonce := genesisBlock.Nonce.val
              height := genesisHeight
              epoch := epoch0.GetId
              size_bytes := env.SizeBytes genesisBlock
              acc_work := PadBytes accWorkBuf.val 32 } with
          | none => (.error .constraintFailed, db1)
          | some db2 => (.ok, db2)

/-- Step 4 of `IngestBlock`: the loop over the transactions, from index `i`; the first failure
is returned. -/
def verifyTransactions (env : Env) : Nat → List RawTransaction → Option DagError
  | _, [] => none
  | i, block_tx :: rest =>
    if !env.VerifySignature (hexEncode block_tx.FromPubkey.val) block_tx.Sig.val
        block_tx.Envelope then
      some (.signatureInvalid i)
    else if !env.VerifyTx block_tx then some (.transactionInvalid i)
    else verifyTransactions env (i + 1) rest

/-- The row `IngestBlock` writes to `transactions` for one transaction of the block. -/
def transactionRow (env : Env) (blockhash : Bytes32) (block_tx : RawTransaction) :
    TransactionRow :=
  { hash := (block_tx.Hash env).val
    block_hash := blockhash.val
    sig := block_tx.Sig.val
    from_pubkey := block_tx.FromPubkey.val
    data := env.TxData block_tx }

/-- The values bound by `insert into blocks (hash, parent_hash, timestamp, num_transactions,
transactions_merkle_root, nonce, height, epoch, size_bytes, acc_work)` in `IngestBlock`. -/
def blockRow (env : Env) (raw : RawBlock) (height : U64) (epoch : Epoch)
    (acc_work_buf : Bytes32) : BlockRow :=
  { hash := (raw.Hash env).val
    parent_hash := raw.ParentHash.val
    difficulty := none
    timestamp := raw.Timestamp
    num_transactions := raw.NumTransactions
    transactions_merkle_root := raw.TransactionsMerkleRoot.val
    nonce := raw.Nonce.val
    height := height
    epoch := epoch.GetId
    size_bytes := env.SizeBytes raw
    acc_work := acc_work_buf.val }

/-- Steps 6b, 7 and 8 of `IngestBlock`, entered with the database `db` as step 6a left it and
the `epoch` step 6a selected.  Step 8 writes the block row and the transaction rows in a
transaction and ends with the statement `tx.Commit()`, whose result is not looked at: when the
commit does not take effect the database is left as step 6a left it and the call returns `nil`
all the same. -/
def ingestTail (env : Env) (cfg : ConsensusConfig) (db : Store) (raw : RawBlock)
    (parentBlock : Block) (height : U64) (epoch : Epoch) : Outcome × Store :=
  -- 6b. Verify POW solution.
  let blockHash := raw.Hash env
  if !VerifyPOW blockHash epoch.Difficulty then (.error .powInvalid, db)
  -- 7. Verify block size is within bounds.
  else if cfg.MaxBlockSizeBytes < env.SizeBytes raw then (.error .blockTooLarge, db)
  else
    -- 8. Ingest block into database store.
    let work := CalculateWork (Bytes32ToBigInt blockHash)
    let acc_work := parentBlock.AccumulatedWork + work
    match BigIntToBytes32 acc_work with
    | none => (.panic, db)
    | some acc_work_buf =>
      let blockhash := raw.Hash env
      match db.insertBlock (blockRow env raw height epoch acc_work_buf) with
      | none => (.error .constraintFailed, db)  -- tx.Rollback()
      | some db2 =>
        let db3 := db2.insertTransactions (raw.Transactions.map (transactionRow env blockhash))
        -- tx.Commit(): the error it returns is dropped and `nil` is returned either way
        if env.Commit db3 then (.ok, db3) else (.ok, db)

/-- The epoch `IngestBlock` creates for a block on an epoch boundary. -/
def newEpoch (env : Env) (cfg : ConsensusConfig) (raw : RawBlock) (height : U64)
    (newDifficulty : Nat) : Epoch :=
  { Number := U64.wrap (height.val / cfg.EpochLengthBlocks.val)
    Id := ""
    StartBlockHash := raw.Hash env
    StartTime := raw.Timestamp
    StartHeight := height
    Difficulty := newDifficulty }

/-- The method `BlockDAG.IngestBlock`: the outcome and the database afterwards. -/
def IngestBlock (env : Env) (cfg : ConsensusConfig) (db : Store) (raw : RawBlock) :
    Outcome × Store :=
  -- 1. Verify parent is known.
  match GetBlockByHash db raw.ParentHash with
  | none => (.error .unknownParent, db)
  | some parentBlock =>
    -- 3. Verify num transactions is the same as the length of the transactions list.
    if raw.NumTransactions.val ≠ raw.Transactions.length then
      (.error .numTransactionsMismatch, db)
    else
      -- 4. Verify transactions are valid.
      match verifyTransactions env 0 raw.Transactions with
      | some e => (.error e, db)
      | none =>
        -- 5. Verify transaction merkle root is valid.
        let txlist := raw.Transactions.map RawTransaction.Envelope
        let expectedMerkleRoot := env.ComputeMerkleHash txlist
        if expectedMerkleRoot ≠ raw.TransactionsMerkleRoot then
          (.error .merkleRootMismatch, db)
        else
          -- 6. Verify POW solution is valid.
          let height := U64.wrap (parentBlock.Height.val + 1)
          -- 6a. Compute the current difficulty epoch.
          if cfg.EpochLengthBlocks.val = 0 then (.panic, db)  -- integer divide by zero
          else if height.val % cfg.EpochLengthBlocks.val = 0 then
            -- Recompute difficulty and create new epoch.
            match GetEpochForBlockHash db raw.ParentHash with
            | .error e => (.error e, db)
            | .ok prev =>
              match RecomputeDifficulty prev.StartTime raw.Timestamp prev.Difficulty
                  cfg.TargetEpochLengthMillis cfg.EpochLengthBlocks height with
              | none => (.panic, db)
              | some newDifficulty =>
                let epoch := newEpoch env cfg raw height newDifficulty
                match db.insertEpoch epoch.toRow with
                | none => (.error .constraintFailed, db)
                | some db1 => ingestTail env cfg db1 raw parentBlock height epoch
          else
            -- Lookup current epoch.
            match GetEpochForBlockHash db raw.ParentHash with
            | .error _ => (.error .parentEpochNotFound, db)
            | .ok epoch => ingestTail env cfg db raw parentBlock height epoch

/-! ## The chain tip (`blockdag.go`, `types.go`) -/

/-- The order of SQLite on blobs (`memcmp`, and a proper prefix comes first): `true` when `a`
sorts strictly before `b`. -/
def blobLt : ByteSeq → ByteSeq → Bool
  | [], [] => false
  | [], _ :: _ => true
  | _ :: _, [] => false
  | a :: as, b :: bs => if a < b then true else if b < a then false else blobLt as bs

/-- The row that `select ... from blocks order by acc_work desc limit 1` returns: a row of
maximal `acc_work` in the blob order; SQLite keeps rows with equal keys in scan (rowid) order,
so among several rows of maximal `acc_work` it is the one inserted first. -/
def topAccWork : List BlockRow → Option BlockRow
  | [] => none
  | r :: rest =>
    match topAccWork rest with
    | none => some r
    | some m => if blobLt r.acc_work m.acc_work then some m else some r

/-- How a call that returns `(Block, error)` ends: a block, an error, or a Go run-time panic. -/
inductive TipResult where
  | ok (block : Block)
  | error (e : DagError)
  | panic
deriving DecidableEq

/-- The method `BlockDAG.GetCurrentTip`; `*block` panics when `GetBlockByHash` returned `nil`. -/
def GetCurrentTip (db : Store) : TipResult :=
  -- Query the highest accumulated work block in the database.
  match topAccWork db.blocks with
  | none => .error .noBlocksFound
  | some r =>
    let fhash := copyInto 32 r.hash
    -- Get the block.
    match GetBlockByHash db fhash with
    | none => .panic
    | some block => .ok block

/-- The value `Block{}`. -/
def Block.zero : Block :=
  { ParentHash := zero32
    ParentTotalWork := 0
    Timestamp := 0
    NumTransactions := 0
    TransactionsMerkleRoot := zero32
    Nonce := zero32
    Graffiti := zero32
    Transactions := []
    Height := 0
    Epoch := ""
    Work := 0
    SizeBytes := 0
    Hash := zero32
    AccumulatedWork := 0 }

/-- The mutable fields of the struct `BlockDAG` of `types.go`: the database behind `db` and the
cached `Tip`. The fields `stateMachine` and `consensus` are the arguments `env` and `cfg` of the
methods; the calls of the handler `OnNewTip` are part of the result of a method. -/
structure BlockDAG where
  db : Store
  Tip : Block
deriving DecidableEq

/-- The function `NewBlockDAGFromDB`: the struct is built with `db`, `stateMachine` and
`consensus` only, so `Tip` is `Block{}`; `panic(err)` when `initialiseBlockDAG` fails. -/
def NewBlockDAGFromDB (env : Env) (cfg : ConsensusConfig) (db : Store) : Outcome × BlockDAG :=
  let r := initialiseBlockDAG env cfg db
  match r.1 with
  | .ok => (.ok, { db := r.2, Tip := Block.zero })
  | _ => (.panic, { db := r.2, Tip := Block.zero })

/-- The method `BlockDAG.IngestBlock` as it acts on the struct: the outcome, the struct
afterwards and the calls `OnNewTip(tip, prevTip)` made, in order. The body of the method
(`blockdag.go`, lines 174 to 328) reads and writes `dag.db` only: it holds no assignment to
`dag.Tip` and no call of `dag.OnNewTip`. -/
def BlockDAG.IngestBlock (env : Env) (cfg : ConsensusConfig) (dag : BlockDAG) (raw : RawBlock) :
    Outcome × BlockDAG × List (Block × Block) :=
  let r := Tinychain.IngestBlock env cfg dag.db raw
  (r.1, { dag with db := r.2 }, [])

/-! ## Proof-of-work search (`consensus.go`) -/

/-- The method `RawBlock.SetNonce`: `i.FillBytes` writes the absolute value of `i` to a 32-byte
buffer and panics (`none`) when it does not fit; the nonce of the block is the SHA-256 of the
buffer. -/
def RawBlock.SetNonce (env : Env) (b : RawBlock) (i : Int) : Option RawBlock :=
  match fillBytes32 i.natAbs with
  | none => none
  | some nonce => some { b with Nonce := env.sha256 nonce.val }

/-- How a call of `SolvePOW` ends: a nonce, the error "Solution not found in %d iterations",
or a Go run-time panic. -/
inductive SolveResult where
  | solved (nonce : Int)
  | notFound
  | panic
deriving DecidableEq

/-- The loop of `SolvePOW`, entered with the local variables `block`, `nonce` and `i`. -/
def SolvePOW.loop (env : Env) (target : Int) (maxIterations : U64) :
    Nat → RawBlock → Int → U64 → Option SolveResult
  | 0, _, _, _ => none
  | fuel + 1, block, nonce, i =>
    let i := U64.wrap (i.val + 1)
    -- Exit if iterations is reached.
    if maxIterations < i then some .notFound
    else
      -- Increment nonce.
      let nonce := nonce + 1
      match block.SetNonce env nonce with
      | none => some .panic
      | some block =>
        -- Hash.
        let h := block.Hash env
        let hash : Int := bigEndian h.val
        -- Check solution: hash < target.
        if bigCmp hash target = -1 then some (.solved nonce)
        else SolvePOW.loop env target maxIterations fuel block nonce i

/-- The function `SolvePOW`. -/
def SolvePOW (env : Env) (b : RawBlock) (startNonce : Int) (target : Int) (maxIterations : U64)
    (fuel : Nat) : Option SolveResult :=
  SolvePOW.loop env target maxIterations fuel b startNonce 0

/-! ## Common ancestor search (`node.go`) -/

/-- How a call of `sync_computeCommonAncestorWithPeer` ends: the ancestor, together with the
indices `guess_idx` whose hash was sent to the peer, in order (their number is `n_iterations`),
or an index-out-of-range panic. -/
inductive SearchResult where
  | found (ancestor : Bytes32) (queries : List Nat)
  | panic
deriving DecidableEq

/-- The loop of `sync_computeCommonAncestorWithPeer` and the read of the ancestor after it,
entered with the local variables `floor` and `ceil` and the queries made so far. `HasBlock` is
the answer of the peer, `n.Peer.HasBlock(peer, guess_value)`. -/
def sync_computeCommonAncestorWithPeer.loop (HasBlock : Bytes32 → Bool)
    (local_chainhashes : List Bytes32) : Nat → Nat → Nat → List Nat → Option SearchResult
  | 0, floor, ceil, queries =>
    if floor + 1 < ceil then none
    else
      match local_chainhashes[floor]? with
      | none => some .panic
      | some ancestor => some (.found ancestor queries)
  | fuel + 1, floor, ceil, queries =>
    if floor + 1 < ceil then
      let guess_idx := (floor + ceil) / 2
      match local_chainhashes[guess_idx]? with
      | none => some .panic
      | some guess_value =>
        if HasBlock guess_value then
          -- Move to the right half.
          sync_computeCommonAncestorWithPeer.loop HasBlock local_chainhashes fuel
            guess_idx ceil (queries ++ [guess_idx])
        else
          -- Move to the left half.
          sync_computeCommonAncestorWithPeer.loop HasBlock local_chainhashes fuel
            floor guess_idx (queries ++ [guess_idx])
    else
      match local_chainhashes[floor]? with
      | none => some .panic
      | some ancestor => some (.found ancestor queries)

/-- The method `Node.sync_computeCommonAncestorWithPeer`. -/
def sync_computeCommonAncestorWithPeer (HasBlock : Bytes32 → Bool)
    (local_chainhashes : List Bytes32) (fuel : Nat) : Option SearchResult :=
  sync_computeCommonAncestorWithPeer.loop HasBlock local_chainhashes fuel
    0 local_chainhashes.length []

/-! ## Best-tip poll (`node.go`, `types.go`) -/

/-- The struct `BlockHeader` of `types.go`. -/
structure BlockHeader where
  ParentHash : Bytes32
  ParentTotalWork : Nat
  Timestamp : U64
  NumTransactions : U64
  TransactionsMerkleRoot : Bytes32
  Nonce : Bytes32
  Graffiti : Bytes32
deriving DecidableEq

/-- What one execution of the `select` statement in the collection loop of
`sync_getBestTipFromPeers` receives. -/
inductive TipEvent where
  /-- A header received from `tipsChan` (`ok` is true). -/
  | tip (t : BlockHeader)
  /-- The receive from `tipsChan` once it is closed and drained (`ok` is false). -/
  | closed
  /-- The receive from the channel `timeout`, five seconds after the start. -/
  | timeout
deriving DecidableEq

/-- How a Go statement ends: normally, or by a `break` statement that has not yet reached the
statement it terminates. -/
inductive Flow where
  | normal
  | brk
deriving DecidableEq

/-- The body of the case of the `select` statement that the event selects, run with the slice
`tips`: the slice afterwards and how the body ends. -/
def sync_getBestTipFromPeers.selectCase (tips : List BlockHeader) :
    TipEvent → List BlockHeader × Flow
  | .tip t => (tips ++ [t], .normal)
  -- if !ok { break }
  | .closed => (tips, .brk)
  -- syncLog.Printf("Timed out getting tips from peers\n")
  | .timeout => (tips, .normal)

/-- The `select` statement of the collection loop. A `break` statement "terminates execution
of the innermost for, switch, or select statement" (the Go specification); the `break` of the
first case has no label and stands in the `select`, so it terminates the `select`, which then
ends normally. -/
def sync_getBestTipFromPeers.selectStmt (tips : List BlockHeader) (ev : TipEvent) :
    List BlockHeader × Flow :=
  ((sync_getBestTipFromPeers.selectCase tips ev).1, .normal)

/-- The collection loop `for { select { ... } }` of `sync_getBestTipFromPeers`, run on the
events its `select` receives, in order: `some tips` when the loop has ended, with the slice
`tips` the rest of the function goes on with, and `none` when the loop is still running after
the last event. A `for` statement without condition ends only when its body ends by `break`. -/
def sync_getBestTipFromPeers.collect :
    List TipEvent → List BlockHeader → Option (List BlockHeader)
  | [], _ => none
  | ev :: rest, tips =>
    match sync_getBestTipFromPeers.selectStmt tips ev with
    | (tips, .brk) => some tips
    | (tips, .normal) => sync_getBestTipFromPeers.collect rest tips

/-- The selection loop `for _, tip := range tips` of `sync_getBestTipFromPeers`, entered with
`highestWork` and `bestTipHash`; the result is `bestTipHash` after the loop. `Hash` is the
method `BlockHeader.Hash`, which the embedded files call but do not declare. The maps
`numPeersOnTip` and `tipWork` are written and never read. -/
def sync_getBestTipFromPeers.select (Hash : BlockHeader → Bytes32) :
    List BlockHeader → Nat → Bytes32 → Bytes32
  | [], _, bestTipHash => bestTipHash
  | tip :: rest, highestWork, bestTipHash =>
    let hash := Hash tip
    let work := CalculateWork (Bytes32ToBigInt hash)
    -- highestWork < work
    if bigCmp highestWork work = -1 then
      sync_getBestTipFromPeers.select Hash rest work hash
    else
      sync_getBestTipFromPeers.select Hash rest highestWork bestTipHash

/-- The selection of `sync_getBestTipFromPeers` from its start: `highestWork := big.NewInt(0)`,
`bestTipHash := [32]byte{}`. -/
def sync_getBestTipFromPeers.best (Hash : BlockHeader → Bytes32) (tips : List BlockHeader) :
    Bytes32 :=
  sync_getBestTipFromPeers.select Hash tips 0 zero32

/-! ## Upload of blocks (`node.go`, `types.go`) -/

/-- The struct `GetBlocksMessage` of `types.go`; the field `Type` is written `Type_`. -/
structure GetBlocksMessage where
  Type_ : String
  BlockHashes : List String
deriving DecidableEq

/-- The errors of the handlers of `Node.setup`. -/
inductive NodeError where
  /-- Message "Too many hashes requested. Max is 10" -/
  | tooManyHashes
deriving DecidableEq

/-- The loop `for _, hash := range msg.BlockHashes` of the handler `OnGetBlocks`, entered with
the slice `reply`; the result is `reply` after the loop. `HexStringToBytes32` and
`GetRawBlockDataByHash` are called by the handler but declared in none of the embedded files
(the second is a method of `BlockDAGInterface`); `GetRawBlockDataByHash` gives `none` when it
returns an error. -/
def OnGetBlocks.loop (HexStringToBytes32 : String → Bytes32)
    (GetRawBlockDataByHash : Bytes32 → Option ByteSeq) :
    List String → List ByteSeq → List ByteSeq
  | [], reply => reply
  | hash :: rest, reply =>
    let blockhash := HexStringToBytes32 hash
    -- Get the raw block.
    match GetRawBlockDataByHash blockhash with
    | none =>
      -- If there is an error getting the block hash, skip it.
      OnGetBlocks.loop HexStringToBytes32 GetRawBlockDataByHash rest reply
    | some rawBlockData =>
      OnGetBlocks.loop HexStringToBytes32 GetRawBlockDataByHash rest (reply ++ [rawBlockData])

/-- The handler `n.Peer.OnGetBlocks` that `Node.setup` installs: the two results
`([][]byte, error)`, a `nil` slice being the empty list and a `nil` error `none`. The handler
ends with `// return reply, nil` and `return nil, nil`. -/
def OnGetBlocks (HexStringToBytes32 : String → Bytes32)
    (GetRawBlockDataByHash : Bytes32 → Option ByteSeq) (msg : GetBlocksMessage) :
    List ByteSeq × Option NodeError :=
  -- Assert hashes length.
  let MAX_GET_BLOCKS_LEN := 10
  if MAX_GET_BLOCKS_LEN < msg.BlockHashes.length then ([], some .tooManyHashes)
  else
    let _reply := OnGetBlocks.loop HexStringToBytes32 GetRawBlockDataByHash msg.BlockHashes []
    ([], none)

/-! ## Bit sets (`core/bitset.go`) -/

/-- The type `Bitset`, a `[]byte`. -/
abbrev Bitset := List Byte

/-- The conversion `uint(x)` of an `int`, both of 64 bits: the value modulo `2^64`. -/
def uintOfInt (x : Int) : Nat := (x % 2 ^ 64).toNat

/-- The byte `1 << s` for a shift count `s` of type `uint`: the bits shifted out of the byte are
lost, so the result is 0 for `s ≥ 8`. -/
def Byte.shl1 (s : Nat) : Byte :=
  if s < 8 then ⟨1 <<< s % 256, Nat.mod_lt _ (by decide)⟩ else 0

/-- The operator `&^` (bit clear, AND NOT) on bytes. -/
def Byte.andNot (x y : Byte) : Byte := x &&& (y ^^^ 255)

/-- The expression `1 << uint(i%8)` of type `byte`; `%` on `int` truncates toward zero. -/
def Bitset.bit (i : Int) : Byte := Byte.shl1 (uintOfInt (Int.tmod i 8))

/-- The index expression `(*b)[i/8]` for an `int` `i`: `/` truncates toward zero, and an index
below 0 or not below `len(*b)` is a run-time panic (`none`). -/
def Bitset.at (b : Bitset) (i : Int) : Option Byte :=
  if Int.tdiv i 8 < 0 then none else b[(Int.tdiv i 8).toNat]?

/-- The method `Bitset.Size`. -/
def Bitset.Size (b : Bitset) : Int := (b.length : Int) * 8

/-- The method `Bitset.Insert`: `(*b)[i/8] |= 1 << uint(i%8)`; the bit set afterwards, `none`
for a panic. -/
def Bitset.Insert (b : Bitset) (i : Int) : Option Bitset :=
  match b.at i with
  | none => none
  | some x => some (b.set (Int.tdiv i 8).toNat (x ||| Bitset.bit i))

/-- The method `Bitset.Remove`: `(*b)[i/8] &^= 1 << uint(i%8)`; the bit set afterwards, `none`
for a panic. -/
def Bitset.Remove (b : Bitset) (i : Int) : Option Bitset :=
  match b.at i with
  | none => none
  | some x => some (b.set (Int.tdiv i 8).toNat (Byte.andNot x (Bitset.bit i)))

/-- The method `Bitset.Contains`: `(*b)[i/8]&(1<<uint(i%8)) != 0`; `none` for a panic. -/
def Bitset.Contains (b : Bitset) (i : Int) : Option Bool :=
  match b.at i with
  | none => none
  | some x => some (decide (x &&& Bitset.bit i ≠ 0))

/-- The function `bits.OnesCount8` of the Go library (`math/bits`): the number of one bits of
the byte. -/
def bits.OnesCount8 (x : Byte) : Nat := ((List.range 8).filter fun k => x.val.testBit k).length

/-- The method `Bitset.Count`. -/
def Bitset.Count (b : Bitset) : Int :=
  b.foldl (fun count x => count + (bits.OnesCount8 x : Int)) 0

/-- The loop `for i := 0; i < len(*b)*8; i++` of `Bitset.Indices`, with the number of passes
left, the counter `i` and the slice `indices`; `none` for a panic in `Contains`. -/
def Bitset.Indices.loop (b : Bitset) : Nat → Int → List Int → Option (List Int)
  | 0, _, indices => some indices
  | n + 1, i, indices =>
    match b.Contains i with
    | none => none
    | some true => Bitset.Indices.loop b n (i + 1) (indices ++ [i])
    | some false => Bitset.Indices.loop b n (i + 1) indices

/-- The method `Bitset.Indices`. -/
def Bitset.Indices (b : Bitset) : Option (List Int) :=
  Bitset.Indices.loop b (b.length * 8) 0 []

/-- The loop `for i := 0; i < len(data)*8; i++` of `findOnesRanges`, with the number of passes
left, the counter `i`, the variable `start` and the slice `ranges`; the result is `start` and
`ranges` after the loop, `none` for a panic in the index expression. A `[2]int` is a pair. -/
def findOnesRanges.loop (data : ByteSeq) :
    Nat → Int → Int → List (Int × Int) → Option (Int × List (Int × Int))
  | 0, _, start, ranges => some (start, ranges)
  | n + 1, i, start, ranges =>
    match Bitset.at data i with
    | none => none
    | some x =>
      let bit := decide (x &&& Bitset.bit i ≠ 0)
      if bit then
        if start = -1 then findOnesRanges.loop data n (i + 1) i ranges
        else findOnesRanges.loop data n (i + 1) start ranges
      else
        if start ≠ -1 then
          findOnesRanges.loop data n (i + 1) (-1) (ranges ++ [(start, i - 1)])
        else findOnesRanges.loop data n (i + 1) start ranges

/-- The function `findOnesRanges`. -/
def findOnesRanges (data : ByteSeq) : Option (List (Int × Int)) :=
  match findOnesRanges.loop data (data.length * 8) 0 (-1) [] with
  | none => none
  | some (start, ranges) =>
    if start ≠ -1 then some (ranges ++ [(start, (data.length : Int) * 8 - 1)])
    else some ranges

/-- The method `Bitset.Ranges`. -/
def Bitset.Ranges (b : Bitset) : Option (List (Int × Int)) := findOnesRanges b

/-! ## Derived notions used in the statements -/

/-- The database after a commit of step 8 of `IngestBlock` that takes effect, step 6b being
entered with database `db`: one block row and the transaction rows of the block appended. -/
def committed (env : Env) (db : Store) (raw : RawBlock) (height : U64) (epoch : Epoch)
    (buf : Bytes32) : Store :=
  { epochs := db.epochs
    blocks := db.blocks ++ [blockRow env raw height epoch buf]
    transactions :=
      db.transactions ++ raw.Transactions.map (transactionRow env (raw.Hash env)) }

/-- The database with the writes of the transaction of step 8 of `IngestBlock` pending, the
argument of `Env.Commit`, in terms of the database `db` before the call and the database `db2`
after it: the epoch rows are those of `db2` (an epoch row is written before the transaction
begins), the block row `row` and the transaction rows of `raw` are appended to those of `db`. -/
def pendingStore (env : Env) (db db2 : Store) (raw : RawBlock) (row : BlockRow) : Store :=
  { epochs := db2.epochs
    blocks := db.blocks ++ [row]
    transactions :=
      db.transactions ++ raw.Transactions.map (transactionRow env (raw.Hash env)) }

/-- The facts established along the path of `IngestBlock` that ends in `tx.Commit()`:
`parent` is the parent block read in step 1, `prev` the parent's epoch read in step 6a,
`epoch` the epoch selected in step 6a, `db1` the database when step 6b is entered and `buf` the
encoded accumulated work. -/
structure Accepted (env : Env) (cfg : ConsensusConfig) (db : Store) (raw : RawBlock)
    (parent : Block) (prev epoch : Epoch) (db1 : Store) (buf : Bytes32) : Prop where
  parent_known : GetBlockByHash db raw.ParentHash = some parent
  count : raw.NumTransactions.val = raw.Transactions.length
  txs_valid : verifyTransactions env 0 raw.Transactions = none
  merkle : env.ComputeMerkleHash (raw.Transactions.map RawTransaction.Envelope)
    = raw.TransactionsMerkleRoot
  epochLength : cfg.EpochLengthBlocks.val ≠ 0
  prev_epoch : GetEpochForBlockHash db raw.ParentHash = .ok prev
  select :
    ((U64.wrap (parent.Height.val + 1)).val % cfg.EpochLengthBlocks.val ≠ 0 ∧
      epoch = prev ∧ db1 = db) ∨
    ((U64.wrap (parent.Height.val + 1)).val % cfg.EpochLengthBlocks.val = 0 ∧
      ∃ newD,
        RecomputeDifficulty prev.StartTime raw.Timestamp prev.Difficulty
          cfg.TargetEpochLengthMillis cfg.EpochLengthBlocks
          (U64.wrap (parent.Height.val + 1)) = some newD ∧
        epoch = newEpoch env cfg raw (U64.wrap (parent.Height.val + 1)) newD ∧
        (∀ e ∈ db.epochs, e.id ≠ epoch.GetId) ∧
        db1 = { db with epochs := db.epochs ++ [epoch.toRow] })
  pow : bigEndian (raw.Hash env).val < epoch.Difficulty
  size : env.SizeBytes raw ≤ cfg.MaxBlockSizeBytes
  fresh : ∀ b ∈ db.blocks, b.hash ≠ (raw.Hash env).val
  acc : BigIntToBytes32
    (parent.AccumulatedWork + CalculateWork (Bytes32ToBigInt (raw.Hash env))) = some buf

/-- The nonce `n` can be sealed: its absolute value fits the 32-byte buffer of `SetNonce`. -/
def Sealable (n : Int) : Prop := n.natAbs < 2 ^ 256

/-- The nonce `n` solves the template `b`: the block `b.SetNonce(n)` has a hash that passes
`VerifyPOW` against the target. -/
def Solves (env : Env) (b : RawBlock) (target : Int) (n : Int) : Prop :=
  ∃ blk, b.SetNonce env n = some blk ∧ VerifyPOW (blk.Hash env) target = true

/-- An iteration of the loop of `SolvePOW` that goes on to the next one: the counter `i`, which
holds `c` modulo `2^64`, does not exceed `maxIterations`, and the nonce `n` is sealed and does
not solve the block. -/
def SolvePOW.Continues (env : Env) (b : RawBlock) (target : Int) (maxIterations : U64)
    (c : Nat) (n : Int) : Prop :=
  ¬ maxIterations < U64.wrap c ∧ Sealable n ∧ ¬ Solves env b target n

/-- An iteration of the loop of `SolvePOW` that ends the call with the result `r`, the counter
holding `c` modulo `2^64` and the nonce being `n`. -/
def SolvePOW.EndsWith (env : Env) (b : RawBlock) (target : Int) (maxIterations : U64)
    (r : SolveResult) (c : Nat) (n : Int) : Prop :=
  match r with
  | .solved m => m = n ∧ ¬ maxIterations < U64.wrap c ∧ Solves env b target n
  | .notFound => maxIterations < U64.wrap c
  | .panic => ¬ maxIterations < U64.wrap c ∧ ¬ Sealable n

/-- The database of a node that has just been created on an empty database
(`NewBlockDAGFromDB` after `OpenDB`). -/
def genesisStore (env : Env) (cfg : ConsensusConfig) : Store :=
  (initialiseBlockDAG env cfg Store.empty).2

/-- The databases a node can hold: the one `initialiseBlockDAG` leaves when it succeeds on an
empty database, and every database left by a call of `IngestBlock`, whatever its outcome. -/
inductive Reachable (env : Env) (cfg : ConsensusConfig) : Store → Prop where
  | init {db : Store} (h : initialiseBlockDAG env cfg Store.empty = (.ok, db)) :
      Reachable env cfg db
  | ingest {db : Store} (h : Reachable env cfg db) (raw : RawBlock) :
      Reachable env cfg (IngestBlock env cfg db raw).2

/-- Every epoch row carries the id that `GetIdForEpoch` gives to its start block and height. -/
def EpochIdsCanonical (db : Store) : Prop :=
  ∀ e ∈ db.epochs, e.id = GetIdForEpoch (copyInto 32 e.start_block_hash) e.start_height

/-- The Merkle root of a transaction list as the spec defines it,
"merkle(B.transactions.envelope())": `ComputeMerkleHash` over the envelopes of the
transactions, in order. -/
def GetMerkleRootForTxs_spec (env : Env) (txs : List RawTransaction) : Bytes32 :=
  env.ComputeMerkleHash (txs.map RawTransaction.Envelope)

/-- The invariant of the databases a node can hold: every block other than the genesis block
has its parent in table `blocks`, one height below it (in `uint64` arithmetic); block hashes
are pairwise distinct; epoch ids are canonical. -/
structure StoreInv (cfg : ConsensusConfig) (db : Store) : Prop where
  parents : ∀ b ∈ db.blocks, b.hash ≠ cfg.GenesisBlockHash.val →
    ∃ p ∈ db.blocks, p.hash = b.parent_hash ∧ b.height = U64.wrap (p.height.val + 1)
  nodup : (db.blocks.map BlockRow.hash).Nodup
  canonical : EpochIdsCanonical db

/-- The accumulated work that a row of table `blocks` denotes, as `GetBlockByHash` decodes the
column `acc_work`. -/
def BlockRow.accWork (r : BlockRow) : Nat := Bytes32ToBigInt (copyInto 32 r.acc_work)

/-- The rows of table `blocks` are as `initialiseBlockDAG` and `IngestBlock` write them: `hash`
and `acc_work` are 32-byte blobs, and no two rows share a `hash` (the primary key). -/
structure BlocksWellFormed (db : Store) : Prop where
  hash_len : ∀ r ∈ db.blocks, r.hash.length = 32
  acc_len : ∀ r ∈ db.blocks, r.acc_work.length = 32
  nodup : (db.blocks.map BlockRow.hash).Nodup

/-- The number that a string of decimal digits denotes. -/
def decimalValue (cs : List Char) : Nat := cs.foldl (fun a c => 10 * a + (c.toNat - 48)) 0

/-- The bit of index `k` is set: `Contains(k)` returns true. -/
def Bitset.test (b : Bitset) (k : Nat) : Bool := decide (b.Contains (k : Int) = some true)

/-- The indices below `n` whose bit is set, in increasing order. -/
def Bitset.setBelow (b : Bitset) (n : Nat) : List Nat := (List.range n).filter b.test

/-- The invariant of the loop of `findOnesRanges` before the pass with counter `i`: the ranges
closed so far are maximal runs of set bits that end before `i - 1`, in increasing order and
apart from each other; when `start` is not `-1` the bits `start .. i-1` are set and form a run
that begins at `start`; every set bit below `i` is in a closed range or in the open run; the
lengths add up to the number of set bits below `i`. -/
structure RunsInv (b : Bitset) (i : Nat) (start : Int) (ranges : List (Int × Int)) : Prop where
  start_range : start = -1 ∨ (0 ≤ start ∧ start < (i : Int))
  open_set : start ≠ -1 → ∀ k : Nat, start ≤ (k : Int) → k < i → b.test k = true
  open_max : start ≠ -1 → start = 0 ∨ ∃ k : Nat, (k : Int) + 1 = start ∧ b.test k = false
  closed_prev : start = -1 → i = 0 ∨ ∃ k : Nat, k + 1 = i ∧ b.test k = false
  wf : ∀ r ∈ ranges, 0 ≤ r.1 ∧ r.1 ≤ r.2 ∧ r.2 + 1 < (i : Int) ∧
    (∀ k : Nat, r.1 ≤ (k : Int) → (k : Int) ≤ r.2 → b.test k = true) ∧
    (r.1 = 0 ∨ ∃ k : Nat, (k : Int) + 1 = r.1 ∧ b.test k = false) ∧
    (∃ k : Nat, (k : Int) = r.2 + 1 ∧ b.test k = false) ∧
    (start ≠ -1 → r.2 + 1 < start)
  sorted : ranges.Pairwise (fun r1 r2 => r1.2 + 1 < r2.1)
  cover : ∀ k : Nat, k < i → b.test k = true →
    (∃ r ∈ ranges, r.1 ≤ (k : Int) ∧ (k : Int) ≤ r.2) ∨ (start ≠ -1 ∧ start ≤ (k : Int))
  count : (ranges.map (fun r => r.2 - r.1 + 1)).sum
      + (if start = -1 then 0 else (i : Int) - start)
    = ((b.setBelow i).length : Int)

/-- The parent link between two rows of table `blocks`: `c` is not the genesis block and its
`parent_hash` is the hash of `p`. The genesis block is left out because its `parent_hash`, 32
zero bytes, is its own hash when the configured genesis hash is all zero. -/
def ChildOf (cfg : ConsensusConfig) (p c : BlockRow) : Prop :=
  c.hash ≠ cfg.GenesisBlockHash.val ∧ c.parent_hash = p.hash

/-- A check that each element of a list stands in the relation `R` to the next. -/
def isChain {α : Type} (R : α → α → Bool) : List α → Bool
  | [] => true
  | [_] => true
  | a :: b :: l => R a b && isChain R (b :: l)

/-- Every block other than the genesis block has a stored parent of strictly less accumulated
work, one height below it (in `uint64` arithmetic). -/
def WorkInv (cfg : ConsensusConfig) (db : Store) : Prop :=
  ∀ b ∈ db.blocks, b.hash ≠ cfg.GenesisBlockHash.val →
    ∃ p ∈ db.blocks, p.hash = b.parent_hash ∧ p.accWork < b.accWork ∧
      b.height = U64.wrap (p.height.val + 1)

/-! ## Test doubles and scenarios -/

/-- A stand-in for SHA-256 in executable examples: the input read as a big-endian integer,
reduced modulo 251, on 32 bytes. -/
def testHash (bs : ByteSeq) : Bytes32 := fixedBE 32 (bigEndian bs % 251)

/-- An environment for executable examples: every signature and transaction is valid, a block
of `n` transactions has size `208 + 155 * n`, every commit takes effect. -/
def testEnv : Env where
  sha256 := testHash
  VerifySignature := fun _ _ _ => true
  VerifyTx := fun _ => true
  ComputeMerkleHash := fun items => if items = [] then zero32 else testHash items.flatten
  ComputeMerkleHash_nil := by simp
  SizeBytes := fun b => U64.wrap (208 + 155 * b.Transactions.length)
  TxData := fun _ => []
  Commit := fun _ => true

/-- The environment `testEnv` with a database on which no commit takes effect, as when a cursor
is left open on it. -/
def noCommitEnv : Env := { testEnv with Commit := fun _ => false }

/-- A block without transactions, all header fields zero except the given ones. -/
def emptyBlock (parentHash : Bytes32) (timestamp : U64) (nonce : Bytes32) : RawBlock :=
  { ParentHash := parentHash
    ParentTotalWork := zero32
    Difficulty := zero32
    Timestamp := timestamp
    NumTransactions := 0
    TransactionsMerkleRoot := zero32
    Nonce := nonce
    Graffiti := zero32
    Transactions := [] }

/-- A transfer of 5 with fee 1, version 1, all key and signature bytes zero. -/
def txS : RawTransaction :=
  { Version := 1
    Sig := FixedBytes.zero 64
    FromPubkey := FixedBytes.zero 65
    ToPubkey := FixedBytes.zero 65
    Amount := 5
    Fee := 1
    Nonce := 0 }

/-- A child of the genesis block that carries `txS` and the Merkle root of its envelope. -/
def blockTx : RawBlock :=
  { emptyBlock zero32 0 (fixedBE 32 9) with
    NumTransactions := 1
    TransactionsMerkleRoot := testEnv.ComputeMerkleHash [txS.Envelope]
    Transactions := [txS] }

/-- The block `blockTx` with the Merkle root that `GetMerkleRootForTxs` computes. -/
def blockTxSealed : RawBlock :=
  { blockTx with TransactionsMerkleRoot := GetMerkleRootForTxs testEnv blockTx.Transactions }

/-- A configuration in which every block starts an epoch and the genesis target is zero. -/
def cfgZeroTarget : ConsensusConfig :=
  { EpochLengthBlocks := 1
    TargetEpochLengthMillis := 2000
    GenesisDifficulty := 0
    GenesisBlockHash := zero32
    MaxBlockSizeBytes := 1000000 }

/-- A configuration whose genesis target is `0x0000ffff...ff`, the target of
`TestPOWProofOfWorkSolver`. -/
def cfgLowTarget : ConsensusConfig :=
  { EpochLengthBlocks := 10
    TargetEpochLengthMillis := 2000
    GenesisDifficulty := 2 ^ 240 - 1
    GenesisBlockHash := zero32
    MaxBlockSizeBytes := 1000000 }

/-- The configuration of scenario S4: epochs of two blocks, 2000 ms per block, genesis target
`0x0fff...ff`. -/
def cfgS4 : ConsensusConfig :=
  { EpochLengthBlocks := 2
    TargetEpochLengthMillis := 2000
    GenesisDifficulty := 2 ^ 252 - 1
    GenesisBlockHash := zero32
    MaxBlockSizeBytes := 1000000 }

/-- The first block of the S4 chain (height 1), a child of the genesis block. -/
def blockS4a : RawBlock := emptyBlock zero32 0 (fixedBE 32 7)

/-- The database after `blockS4a` was ingested into the genesis database of `cfgS4`. -/
def storeS4a : Store := (IngestBlock testEnv cfgS4 (genesisStore testEnv cfgS4) blockS4a).2

/-- The second block of the S4 chain (height 2, an epoch boundary), with timestamp 4000. -/
def blockS4b : RawBlock := emptyBlock (blockS4a.Hash testEnv) 4000 zero32

/-- The database after `blockS4b` was ingested into `storeS4a`. -/
def storeS4b : Store := (IngestBlock testEnv cfgS4 storeS4a blockS4b).2

/-- An environment in which the hash of a sealed block is the mirror image of its nonce:
"SHA-256" reads the last 32 bytes of its input as a number `x` and returns `2^256 - 1 - x`, so
the block sealed with a nonce `n` below `2^256` has the hash `2^256 - 1 - n`. -/
def mirrorEnv : Env where
  sha256 := fun bs => fixedBE 32 (2 ^ 256 - 1 - bigEndian (bs.drop (bs.length - 32)))
  VerifySignature := fun _ _ _ => true
  VerifyTx := fun _ => true
  ComputeMerkleHash := fun _ => zero32
  ComputeMerkleHash_nil := rfl
  SizeBytes := fun _ => 0
  TxData := fun _ => []
  Commit := fun _ => true

/-- A local chain of five hashes, the 32-byte encodings of 10, 11, 12, 13 and 14. -/
def chainFive : List Bytes32 :=
  [fixedBE 32 10, fixedBE 32 11, fixedBE 32 12, fixedBE 32 13, fixedBE 32 14]

/-- A peer that has seen the hashes that encode a number below 13: the first three of
`chainFive`. -/
def peerSeesThree (h : Bytes32) : Bool := decide (bigEndian h.val < 13)

/-- A peer whose answers are not monotone along `chainFive`: it has seen the hashes that encode
an odd number. -/
def peerSeesOdd (h : Bytes32) : Bool := decide (bigEndian h.val % 2 = 1)

/-- A row of table `blocks` with the hash `h` and the accumulated work `w`, both encoded on 32
bytes; the other columns are zero. -/
def workRow (h w : Nat) : BlockRow :=
  { hash := (fixedBE 32 h).val
    parent_hash := zero32.val
    difficulty := none
    timestamp := 0
    num_transactions := 0
    transactions_merkle_root := zero32.val
    nonce := zero32.val
    height := 0
    epoch := ""
    size_bytes := 0
    acc_work := (fixedBE 32 w).val }

/-- A database with three blocks, inserted in the order of the hashes 1, 2, 3, of accumulated
work 5, 9 and 9: the last two tie for the maximum. -/
def storeTie : Store := ⟨[], [workRow 1 5, workRow 2 9, workRow 3 9], []⟩

/-- The struct `BlockDAG` of a node created on an empty database with the S4 configuration. -/
def dagS4 : BlockDAG := (NewBlockDAGFromDB testEnv cfgS4 Store.empty).2

/-- A stand-in for `BlockHeader.Hash` in executable examples: the field `Nonce`. -/
def nonceAsHash (t : BlockHeader) : Bytes32 := t.Nonce

/-- A tip header whose stand-in hash is the 32-byte encoding of `h`. -/
def tipWith (h : Nat) : BlockHeader :=
  { ParentHash := zero32
    ParentTotalWork := 0
    Timestamp := 0
    NumTransactions := 0
    TransactionsMerkleRoot := zero32
    Nonce := fixedBE 32 h
    Graffiti := zero32 }

/-- Four collected tips with the hashes `2^256 - 1`, `2^255 - 1`, `2^255 - 2` and `2^255`, of
work 1, 2, 2 and 1: the second and the third tie for the maximum. -/
def tipsFour : List BlockHeader :=
  [tipWith (2 ^ 256 - 1), tipWith (2 ^ 255 - 1), tipWith (2 ^ 255 - 2), tipWith (2 ^ 255)]

/-- A stand-in for `HexStringToBytes32` in executable examples: the 32-byte encoding of the
length of the string. -/
def hexStub (s : String) : Bytes32 := fixedBE 32 s.length

/-- A stand-in for `GetRawBlockDataByHash` in executable examples: a DAG that holds the data
`[1, 2, 3]` under the hash that encodes 2 and `[4]` under the hash that encodes 4. -/
def dagStub (h : Bytes32) : Option ByteSeq :=
  if bigEndian h.val = 2 then some [1, 2, 3]
  else if bigEndian h.val = 4 then some [4]
  else none

/-- A request for three blocks of which the first and the last are known to `dagStub`. -/
def msgThree : GetBlocksMessage := { Type_ := "get_blocks", BlockHashes := ["aabb", "abc", "aa"] }

/-- A request that carries `n` hashes. -/
def msgOf (n : Nat) : GetBlocksMessage :=
  { Type_ := "get_blocks", BlockHashes := List.replicate n "aa" }

/-- The bit set `NewBitset(10)` leaves, two zero bytes, after `Insert(3)` and `Insert(9)`. -/
def bitsetS : Bitset := [8, 2]

/-- A bit set of three bytes that holds 0, 1, 2, then 7, 8, 9, then 23; the runs of set bits
touch both ends and cross a byte boundary. -/
def bitsetRuns : Bitset := [135, 3, 128]

/-! # Theorems -/

/-! ## Inserts and the paths of `IngestBlock` -/

theorem bigCmp_eq_neg_one_iff (x y : Int) : bigCmp x y = -1 ↔ x < y := by
  unfold bigCmp
  split
  · simp [*]
  · split <;> simp [*]


theorem Store.insertEpoch_eq_some {db db1 : Store} {r : EpochRow}
    (h : db.insertEpoch r = some db1) :
    (∀ e ∈ db.epochs, e.id ≠ r.id) ∧ db1 = { db with epochs := db.epochs ++ [r] } := by
  unfold Store.insertEpoch at h
  split at h
  · exact absurd h (by simp)
  · rename_i hany
    refine ⟨?_, by simpa using h.symm⟩
    intro e he hid
    exact hany (List.any_eq_true.mpr ⟨e, he, by simpa using hid⟩)

theorem Store.insertBlock_eq_some {db db1 : Store} {r : BlockRow}
    (h : db.insertBlock r = some db1) :
    (∀ b ∈ db.blocks, b.hash ≠ r.hash) ∧ db1 = { db with blocks := db.blocks ++ [r] } := by
  unfold Store.insertBlock at h
  split at h
  · exact absurd h (by simp)
  · rename_i hany
    refine ⟨?_, by simpa using h.symm⟩
    intro b hb hid
    exact hany (List.any_eq_true.mpr ⟨b, hb, by simpa using hid⟩)

theorem ingestTail_cases {env : Env} {cfg : ConsensusConfig} {db : Store} {raw : RawBlock}
    {parentBlock : Block} {height : U64} {epoch : Epoch} {out : Outcome} {db2 : Store}
    (H : ingestTail env cfg db raw parentBlock height epoch = (out, db2)) :
    (out ≠ .ok ∧ db2 = db) ∨
    (out = .ok ∧ bigEndian (raw.Hash env).val < epoch.Difficulty ∧
      env.SizeBytes raw ≤ cfg.MaxBlockSizeBytes ∧
      (∀ b ∈ db.blocks, b.hash ≠ (raw.Hash env).val) ∧
      ∃ buf, BigIntToBytes32
          (parentBlock.AccumulatedWork + CalculateWork (Bytes32ToBigInt (raw.Hash env)))
          = some buf ∧
        db2 = if env.Commit (committed env db raw height epoch buf) then
          committed env db raw height epoch buf else db) := by
  unfold ingestTail at H
  simp only [] at H
  split at H
  · left; cases H; simp
  · rename_i hpow
    split at H
    · left; cases H; simp
    · rename_i hsize
      split at H
      · left; cases H; simp
      · rename_i buf hbuf
        split at H
        · left; cases H; simp
        · rename_i db3 hins
          right
          obtain ⟨hfresh, hdb3⟩ := Store.insertBlock_eq_some hins
          subst hdb3
          have hpend : Store.insertTransactions { db with blocks := db.blocks ++
                [blockRow env raw height epoch buf] }
              (raw.Transactions.map (transactionRow env (raw.Hash env)))
              = committed env db raw height epoch buf := rfl
          rw [hpend] at H
          have hout : out = .ok := by
            split at H <;> exact (congrArg Prod.fst H).symm
          have hdb2 : db2 = if env.Commit (committed env db raw height epoch buf) then
              committed env db raw height epoch buf else db := by
            split at H <;> rename_i hc
            · rw [if_pos hc]; exact (congrArg Prod.snd H).symm
            · rw [if_neg hc]; exact (congrArg Prod.snd H).symm
          refine ⟨hout, ?_, ?_, ?_, buf, hbuf, hdb2⟩
          · simpa [VerifyPOW, bigCmp_eq_neg_one_iff] using hpow
          · exact not_lt.mp hsize
          · simpa [blockRow] using hfresh

/-- Every way `IngestBlock` can end: either before step 6b with the database untouched, or in
`ingestTail` entered on the ordinary path (database untouched so far) or on the boundary path
(one epoch row already inserted). -/
theorem IngestBlock_cases {env : Env} {cfg : ConsensusConfig} {db : Store} {raw : RawBlock}
    {out : Outcome} {db2 : Store} (H : IngestBlock env cfg db raw = (out, db2)) :
    (out ≠ .ok ∧ db2 = db) ∨
    ∃ parent prev,
      GetBlockByHash db raw.ParentHash = some parent ∧
      raw.NumTransactions.val = raw.Transactions.length ∧
      verifyTransactions env 0 raw.Transactions = none ∧
      env.ComputeMerkleHash (raw.Transactions.map RawTransaction.Envelope)
        = raw.TransactionsMerkleRoot ∧
      cfg.EpochLengthBlocks.val ≠ 0 ∧
      GetEpochForBlockHash db raw.ParentHash = .ok prev ∧
      (((U64.wrap (parent.Height.val + 1)).val % cfg.EpochLengthBlocks.val ≠ 0 ∧
          ingestTail env cfg db raw parent (U64.wrap (parent.Height.val + 1)) prev
            = (out, db2)) ∨
        ((U64.wrap (parent.Height.val + 1)).val % cfg.EpochLengthBlocks.val = 0 ∧
          ∃ newD,
            RecomputeDifficulty prev.StartTime raw.Timestamp prev.Difficulty
              cfg.TargetEpochLengthMillis cfg.EpochLengthBlocks
              (U64.wrap (parent.Height.val + 1)) = some newD ∧
            (∀ e ∈ db.epochs,
              e.id ≠ (newEpoch env cfg raw (U64.wrap (parent.Height.val + 1)) newD).GetId) ∧
            ingestTail env cfg
              { db with epochs := db.epochs ++
                  [(newEpoch env cfg raw (U64.wrap (parent.Height.val + 1)) newD).toRow] }
              raw parent (U64.wrap (parent.Height.val + 1))
              (newEpoch env cfg raw (U64.wrap (parent.Height.val + 1)) newD) = (out, db2))) := by
  unfold IngestBlock at H
  split at H
  · left; cases H; simp
  · rename_i parent hparent
    split at H
    · left; cases H; simp
    · rename_i hcount
      split at H
      · left; cases H; simp
      · rename_i hver
        simp only [] at H
        split at H
        · left; cases H; simp
        · rename_i hmerkle
          split at H
          · left; cases H; simp
          · rename_i hE
            split at H
            · rename_i hb
              split at H
              · left; cases H; simp
              · rename_i prev hprev
                split at H
                · left; cases H; simp
                · rename_i newD hnewD
                  split at H
                  · left; cases H; simp
                  · rename_i db1 hins
                    obtain ⟨hfresh, hdb1⟩ := Store.insertEpoch_eq_some hins
                    right
                    refine ⟨parent, prev, hparent, not_not.mp hcount, hver, not_not.mp hmerkle,
                      hE, hprev, Or.inr ⟨hb, newD, hnewD, ?_, ?_⟩⟩
                    · simpa [Epoch.toRow] using hfresh
                    · rw [← hdb1]; exact H
            · rename_i hb
              split at H
              · left; cases H; simp
              · rename_i prev hprev
                right
                exact ⟨parent, prev, hparent, not_not.mp hcount, hver, not_not.mp hmerkle,
                  hE, hprev, Or.inl ⟨hb, H⟩⟩


/-- A successful `IngestBlock` went through every check and reached `tx.Commit()`; the database
afterwards has exactly the rows of `committed` when the commit took effect, and is as step 6a
left it when it did not. -/
theorem IngestBlock_ok_inv {env : Env} {cfg : ConsensusConfig} {db : Store} {raw : RawBlock}
    {db2 : Store} (H : IngestBlock env cfg db raw = (.ok, db2)) :
    ∃ parent prev epoch db1 buf, Accepted env cfg db raw parent prev epoch db1 buf ∧
      db2 =
        if env.Commit (committed env db1 raw (U64.wrap (parent.Height.val + 1)) epoch buf) then
          committed env db1 raw (U64.wrap (parent.Height.val + 1)) epoch buf
        else db1 := by
  rcases IngestBlock_cases H with ⟨h, _⟩ | ⟨parent, prev, h1, h2, h3, h4, h5, h6, hsel⟩
  · exact absurd rfl h
  · rcases hsel with ⟨hb, ht⟩ | ⟨hb, newD, hnewD, hfresh, ht⟩
    · rcases ingestTail_cases ht with ⟨h, _⟩ | ⟨_, hpow, hsize, hfr, buf, hbuf, hdb⟩
      · exact absurd rfl h
      · exact ⟨parent, prev, prev, db, buf,
          ⟨h1, h2, h3, h4, h5, h6, Or.inl ⟨hb, rfl, rfl⟩, hpow, hsize, hfr, hbuf⟩, hdb⟩
    · rcases ingestTail_cases ht with ⟨h, _⟩ | ⟨_, hpow, hsize, hfr, buf, hbuf, hdb⟩
      · exact absurd rfl h
      · exact ⟨parent, prev, _, _, buf,
          ⟨h1, h2, h3, h4, h5, h6, Or.inr ⟨hb, newD, hnewD, rfl, hfresh, rfl⟩, hpow, hsize,
            hfr, hbuf⟩, hdb⟩

/-- A successful `IngestBlock` after which table `blocks` is not as it was before went through
every check and committed exactly the rows of `committed`. -/
theorem IngestBlock_ok_stored {env : Env} {cfg : ConsensusConfig} {db : Store} {raw : RawBlock}
    {db2 : Store} (H : IngestBlock env cfg db raw = (.ok, db2))
    (hs : db2.blocks ≠ db.blocks) :
    ∃ parent prev epoch db1 buf, Accepted env cfg db raw parent prev epoch db1 buf ∧
      db2 = committed env db1 raw (U64.wrap (parent.Height.val + 1)) epoch buf := by
  obtain ⟨parent, prev, epoch, db1, buf, hA, hdb2⟩ := IngestBlock_ok_inv H
  refine ⟨parent, prev, epoch, db1, buf, hA, ?_⟩
  split at hdb2
  · exact hdb2
  · exfalso
    apply hs
    rcases hA.select with ⟨_, _, hdb1⟩ | ⟨_, _, _, _, _, hdb1⟩ <;> rw [hdb2, hdb1]

/-- A successful `IngestBlock` in terms of the databases before and after the call: the epoch
rows are as step 6a left them, and the block row and the transaction rows written in step 8 are
in the database afterwards exactly when the commit of the pending database took effect. -/
theorem IngestBlock_ok_commit {env : Env} {cfg : ConsensusConfig} {db : Store} {raw : RawBlock}
    {db2 : Store} (H : IngestBlock env cfg db raw = (.ok, db2)) :
    ∃ parent prev epoch db1 buf, Accepted env cfg db raw parent prev epoch db1 buf ∧
      db2.epochs = db1.epochs ∧
      db2.blocks =
        (if env.Commit (pendingStore env db db2 raw
            (blockRow env raw (U64.wrap (parent.Height.val + 1)) epoch buf)) then
          db.blocks ++ [blockRow env raw (U64.wrap (parent.Height.val + 1)) epoch buf]
        else db.blocks) ∧
      db2.transactions =
        (if env.Commit (pendingStore env db db2 raw
            (blockRow env raw (U64.wrap (parent.Height.val + 1)) epoch buf)) then
          db.transactions ++ raw.Transactions.map (transactionRow env (raw.Hash env))
        else db.transactions) := by
  obtain ⟨parent, prev, epoch, db1, buf, hA, hdb2⟩ := IngestBlock_ok_inv H
  have h1 : db1.blocks = db.blocks ∧ db1.transactions = db.transactions := by
    rcases hA.select with ⟨_, _, hdb1⟩ | ⟨_, _, _, _, _, hdb1⟩ <;> rw [hdb1] <;> exact ⟨rfl, rfl⟩
  have he : db2.epochs = db1.epochs := by
    rw [hdb2]; split <;> rfl
  have hp : committed env db1 raw (U64.wrap (parent.Height.val + 1)) epoch buf
      = pendingStore env db db2 raw
          (blockRow env raw (U64.wrap (parent.Height.val + 1)) epoch buf) := by
    unfold committed pendingStore
    rw [he, h1.1, h1.2]
  rw [hp] at hdb2
  refine ⟨parent, prev, epoch, db1, buf, hA, he, ?_, ?_⟩
  · by_cases hc : env.Commit (pendingStore env db db2 raw
        (blockRow env raw (U64.wrap (parent.Height.val + 1)) epoch buf)) = true
    · rw [if_pos hc] at hdb2 ⊢
      exact congrArg Store.blocks hdb2
    · rw [if_neg hc] at hdb2 ⊢
      rw [hdb2, h1.1]
  · by_cases hc : env.Commit (pendingStore env db db2 raw
        (blockRow env raw (U64.wrap (parent.Height.val + 1)) epoch buf)) = true
    · rw [if_pos hc] at hdb2 ⊢
      exact congrArg Store.transactions hdb2
    · rw [if_neg hc] at hdb2 ⊢
      rw [hdb2, h1.2]

/-- What `IngestBlock` can do to the database, whatever the outcome: nothing, or append one
epoch row, or append one block row and the block's transaction rows, or both; a block row is
appended only by a call that returns `nil`. -/
theorem IngestBlock_effect {env : Env} {cfg : ConsensusConfig} {db : Store} {raw : RawBlock}
    {out : Outcome} {db2 : Store} (H : IngestBlock env cfg db raw = (out, db2)) :
    db2 = db ∨
    (∃ parent prev newD,
      GetBlockByHash db raw.ParentHash = some parent ∧
      GetEpochForBlockHash db raw.ParentHash = .ok prev ∧
      (U64.wrap (parent.Height.val + 1)).val % cfg.EpochLengthBlocks.val = 0 ∧
      (∀ e ∈ db.epochs,
        e.id ≠ (newEpoch env cfg raw (U64.wrap (parent.Height.val + 1)) newD).GetId) ∧
      db2 = { db with epochs := db.epochs ++
        [(newEpoch env cfg raw (U64.wrap (parent.Height.val + 1)) newD).toRow] }) ∨
    (out = .ok ∧ ∃ parent prev epoch db1 buf, Accepted env cfg db raw parent prev epoch db1 buf ∧
      db2 = committed env db1 raw (U64.wrap (parent.Height.val + 1)) epoch buf) := by
  cases out with
  | ok =>
    obtain ⟨parent, prev, epoch, db1, buf, hA, hdb2⟩ := IngestBlock_ok_inv H
    split at hdb2
    · exact Or.inr (Or.inr ⟨rfl, parent, prev, epoch, db1, buf, hA, hdb2⟩)
    · rcases hA.select with ⟨_, _, hdb1⟩ | ⟨hb, newD, _, hep, hfresh, hdb1⟩
      · exact Or.inl (by rw [hdb2, hdb1])
      · refine Or.inr (Or.inl ⟨parent, prev, newD, hA.parent_known, hA.prev_epoch, hb, ?_, ?_⟩)
        · rw [← hep]; exact hfresh
        · rw [hdb2, hdb1, hep]
  | error e =>
    rcases IngestBlock_cases H with ⟨_, h⟩ | ⟨parent, prev, h1, _, _, _, _, h6, hsel⟩
    · exact Or.inl h
    · rcases hsel with ⟨_, ht⟩ | ⟨hb, newD, _, hfresh, ht⟩
      · rcases ingestTail_cases ht with ⟨_, h⟩ | ⟨h, _⟩
        · exact Or.inl h
        · exact absurd h (by simp)
      · rcases ingestTail_cases ht with ⟨_, h⟩ | ⟨h, _⟩
        · exact Or.inr (Or.inl ⟨parent, prev, newD, h1, h6, hb, hfresh, h⟩)
        · exact absurd h (by simp)
  | panic =>
    rcases IngestBlock_cases H with ⟨_, h⟩ | ⟨parent, prev, h1, _, _, _, _, h6, hsel⟩
    · exact Or.inl h
    · rcases hsel with ⟨_, ht⟩ | ⟨hb, newD, _, hfresh, ht⟩
      · rcases ingestTail_cases ht with ⟨_, h⟩ | ⟨h, _⟩
        · exact Or.inl h
        · exact absurd h (by simp)
      · rcases ingestTail_cases ht with ⟨_, h⟩ | ⟨h, _⟩
        · exact Or.inr (Or.inl ⟨parent, prev, newD, h1, h6, hb, hfresh, h⟩)
        · exact absurd h (by simp)


/-- A block on an epoch boundary that reaches step 6a with a fresh epoch id and then fails
step 6b (proof of work) or step 7 (size) makes `IngestBlock` return an error with the new epoch
row left in table `epochs`. -/
theorem IngestBlock_boundary_reject (env : Env) (cfg : ConsensusConfig) (db : Store)
    (raw : RawBlock) (parent : Block) (prev : Epoch) (newD : Nat)
    (hparent : GetBlockByHash db raw.ParentHash = some parent)
    (hcount : raw.NumTransactions.val = raw.Transactions.length)
    (hver : verifyTransactions env 0 raw.Transactions = none)
    (hmerkle : env.ComputeMerkleHash (raw.Transactions.map RawTransaction.Envelope)
      = raw.TransactionsMerkleRoot)
    (hE : cfg.EpochLengthBlocks.val ≠ 0)
    (hboundary : (U64.wrap (parent.Height.val + 1)).val % cfg.EpochLengthBlocks.val = 0)
    (hprev : GetEpochForBlockHash db raw.ParentHash = .ok prev)
    (hnewD : RecomputeDifficulty prev.StartTime raw.Timestamp prev.Difficulty
      cfg.TargetEpochLengthMillis cfg.EpochLengthBlocks (U64.wrap (parent.Height.val + 1))
      = some newD)
    (hfresh : ∀ e ∈ db.epochs,
      e.id ≠ (newEpoch env cfg raw (U64.wrap (parent.Height.val + 1)) newD).GetId)
    (hreject : ¬ bigEndian (raw.Hash env).val < newD ∨
      cfg.MaxBlockSizeBytes < env.SizeBytes raw) :
    IngestBlock env cfg db raw =
      (.error (if bigEndian (raw.Hash env).val < newD then .blockTooLarge else .powInvalid),
        { db with epochs := db.epochs ++
          [(newEpoch env cfg raw (U64.wrap (parent.Height.val + 1)) newD).toRow] }) := by
  have hins : db.insertEpoch
      (newEpoch env cfg raw (U64.wrap (parent.Height.val + 1)) newD).toRow
      = some { db with epochs := db.epochs ++
        [(newEpoch env cfg raw (U64.wrap (parent.Height.val + 1)) newD).toRow] } := by
    unfold Store.insertEpoch
    rw [if_neg]
    intro hany
    obtain ⟨e, he, hid⟩ := List.any_eq_true.mp hany
    exact hfresh e he (by simpa [Epoch.toRow] using hid)
  unfold IngestBlock
  simp only [hparent, hcount, hver, hmerkle, hprev, hnewD, hins, hboundary, hE, ne_eq,
    not_true_eq_false, if_false, if_true]
  unfold ingestTail
  by_cases hpow : bigEndian (raw.Hash env).val < newD
  · have hsize : cfg.MaxBlockSizeBytes < env.SizeBytes raw :=
      hreject.resolve_left (by simpa using hpow)
    simp [VerifyPOW, bigCmp_eq_neg_one_iff, newEpoch, hpow, hsize]
  · simp [VerifyPOW, bigCmp_eq_neg_one_iff, newEpoch, hpow]


/-! ## C1: what a failed `IngestBlock` leaves behind -/

theorem GetIdForEpoch_data (h : Bytes32) (s : U64) :
    (GetIdForEpoch h s).data = (toString s.val).data ++ '_' :: (hexEncode h.val).data := by
  simp [GetIdForEpoch, String.data_append]

/-- A call of `IngestBlock` that does not succeed leaves tables `blocks` and `transactions` as
they were, and table `epochs` either as it was or with one row appended; the row is appended
only for a block on an epoch boundary. -/
theorem IngestBlock_error_frame {env : Env} {cfg : ConsensusConfig} {db : Store}
    {raw : RawBlock} {out : Outcome} {db2 : Store}
    (H : IngestBlock env cfg db raw = (out, db2)) (hout : out ≠ .ok) :
    db2.blocks = db.blocks ∧ db2.transactions = db.transactions ∧
    (db2.epochs = db.epochs ∨
      ∃ parent row, GetBlockByHash db raw.ParentHash = some parent ∧
        (U64.wrap (parent.Height.val + 1)).val % cfg.EpochLengthBlocks.val = 0 ∧
        db2.epochs = db.epochs ++ [row]) := by
  rcases IngestBlock_effect H with h | ⟨parent, prev, newD, hp, _, hb, _, h⟩ | ⟨h, _⟩
  · subst h; exact ⟨rfl, rfl, Or.inl rfl⟩
  · subst h; exact ⟨rfl, rfl, Or.inr ⟨parent, _, hp, hb, rfl⟩⟩
  · exact absurd h hout

/-- Off an epoch boundary a call of `IngestBlock` that does not succeed leaves the database
exactly as it was. -/
theorem IngestBlock_error_unchanged_off_boundary {env : Env} {cfg : ConsensusConfig}
    {db : Store} {raw : RawBlock} {out : Outcome} {db2 : Store}
    (H : IngestBlock env cfg db raw = (out, db2)) (hout : out ≠ .ok)
    (hnb : ∀ parent, GetBlockByHash db raw.ParentHash = some parent →
      (U64.wrap (parent.Height.val + 1)).val % cfg.EpochLengthBlocks.val ≠ 0) :
    db2 = db := by
  rcases IngestBlock_effect H with h | ⟨parent, _, _, hp, _, hb, _, _⟩ | ⟨h, _⟩
  · exact h
  · exact absurd hb (hnb parent hp)
  · exact absurd h hout

/-- C1 (code defect, evaluated at the failing input). Under `cfgZeroTarget` (every height is
an epoch boundary, genesis target 0) the block `emptyBlock zero32 0 zero32`, a child of the
genesis block, reaches step 6a, where the row of its new epoch is inserted, and then fails the
proof-of-work check of step 6b, whatever the hash function is: `IngestBlock` returns
"POW solution is invalid." and the database differs from the one before the call by that
epoch row. -/
theorem IngestBlock_error_leaves_epoch_row (env : Env) :
    (initialiseBlockDAG env cfgZeroTarget Store.empty).1 = .ok ∧
    IngestBlock env cfgZeroTarget (genesisStore env cfgZeroTarget) (emptyBlock zero32 0 zero32) =
      (.error .powInvalid,
        { genesisStore env cfgZeroTarget with
          epochs := (genesisStore env cfgZeroTarget).epochs ++
            [(newEpoch env cfgZeroTarget (emptyBlock zero32 0 zero32) 1 0).toRow] }) ∧
    (IngestBlock env cfgZeroTarget (genesisStore env cfgZeroTarget)
      (emptyBlock zero32 0 zero32)).2 ≠ genesisStore env cfgZeroTarget := by
  have hparent : ∃ p, GetBlockByHash (genesisStore env cfgZeroTarget)
      (emptyBlock zero32 0 zero32).ParentHash = some p ∧ p.Height = 0 := ⟨_, rfl, rfl⟩
  obtain ⟨p, hp, hp0⟩ := hparent
  have hprev : ∃ e, GetEpochForBlockHash (genesisStore env cfgZeroTarget)
      (emptyBlock zero32 0 zero32).ParentHash = .ok e ∧ e.Difficulty = 0 ∧ e.StartTime = 0 :=
    ⟨_, rfl, rfl, rfl⟩
  obtain ⟨e, he, hed, hes⟩ := hprev
  have hh : U64.wrap (p.Height.val + 1) = 1 := by rw [hp0]; rfl
  have hnew : RecomputeDifficulty e.StartTime (emptyBlock zero32 0 zero32).Timestamp e.Difficulty
      cfgZeroTarget.TargetEpochLengthMillis cfgZeroTarget.EpochLengthBlocks
      (U64.wrap (p.Height.val + 1)) = some 0 := by
    rw [hed, hes]; rfl
  have hfresh : ∀ r ∈ (genesisStore env cfgZeroTarget).epochs,
      r.id ≠ (newEpoch env cfgZeroTarget (emptyBlock zero32 0 zero32)
        (U64.wrap (p.Height.val + 1)) 0).GetId := by
    intro r hr
    have hr0 : r.id = GetIdForEpoch zero32 0 := by
      have hl : (genesisStore env cfgZeroTarget).epochs = [_] := rfl
      rw [hl] at hr
      simp only [List.mem_singleton] at hr
      rw [hr]; rfl
    rw [hr0, hh]
    intro hid
    have hdata := congrArg String.data hid
    simp only [Epoch.GetId, newEpoch, GetIdForEpoch_data] at hdata
    have h0 : (toString (0 : U64).val).data = ['0'] := by decide
    have h1 : (toString (1 : U64).val).data = ['1'] := by decide
    rw [h0, h1] at hdata
    simp at hdata
  have hrun := IngestBlock_boundary_reject env cfgZeroTarget (genesisStore env cfgZeroTarget)
    (emptyBlock zero32 0 zero32) p e 0 hp rfl rfl env.ComputeMerkleHash_nil (by decide)
    (by rw [hh]; decide) he hnew hfresh (Or.inl (by simp))
  rw [hh] at hrun
  simp only [Nat.not_lt_zero, if_false] at hrun
  refine ⟨rfl, hrun, ?_⟩
  rw [hrun]
  intro hEq
  have hlen := congrArg (fun s => s.epochs.length) hEq
  simp at hlen

/-! ## C2: the difficulty blob of an epoch row -/

theorem bigEndian_append (xs ys : ByteSeq) :
    bigEndian (xs ++ ys) = bigEndian xs * 256 ^ ys.length + bigEndian ys := by
  induction ys using List.reverseRecOn generalizing xs with
  | nil => simp [bigEndian]
  | append_singleton ys y ih =>
    have h1 : bigEndian (xs ++ (ys ++ [y])) = bigEndian (xs ++ ys) * 256 + y.val := by
      simp [bigEndian, List.foldl_append]
    have h2 : bigEndian (ys ++ [y]) = bigEndian ys * 256 + y.val := by
      simp [bigEndian, List.foldl_append]
    rw [h1, h2, ih, List.length_append, List.length_singleton, pow_succ]
    ring

theorem bigEndian_replicate_zero (k : Nat) : bigEndian (List.replicate k (0 : Byte)) = 0 := by
  induction k with
  | zero => rfl
  | succ k ih =>
    rw [List.replicate_succ', bigEndian_append, ih]
    simp [bigEndian]

theorem bigEndian_lt (bs : ByteSeq) : bigEndian bs < 256 ^ bs.length := by
  induction bs using List.reverseRecOn with
  | nil => simp [bigEndian]
  | append_singleton ys y ih =>
    rw [bigEndian_append, List.length_append, List.length_singleton, pow_succ]
    have hy : bigEndian [y] = y.val := by simp [bigEndian]
    have := y.isLt
    simp only [List.length_singleton, pow_one, hy]
    omega

theorem bigEndian_fixedBE (k n : Nat) : bigEndian (fixedBE k n).val = n % 256 ^ k := by
  induction k generalizing n with
  | zero => simp [fixedBE, bigEndian, Nat.mod_one]
  | succ k ih =>
    simp only [fixedBE]
    rw [bigEndian_append, ih]
    simp only [List.length_singleton, pow_one, bigEndian, List.foldl_cons, List.foldl_nil,
      zero_mul, zero_add]
    rw [pow_succ, Nat.mul_comm (256 ^ k) 256, Nat.mod_mul]
    ring

theorem copyInto_val {n : Nat} (b : FixedBytes n) : copyInto n b.val = b := by
  apply Subtype.ext
  simp [copyInto, b.property]

theorem copyInto_short {n : Nat} (src : ByteSeq) (h : src.length ≤ n) :
    (copyInto n src).val = src ++ List.replicate (n - src.length) 0 := by
  simp [copyInto, List.take_of_length_le h]

theorem bigEndian_digitsLE (fuel n : Nat) (h : n ≤ fuel) :
    bigEndian (digitsLE fuel n).reverse = n := by
  induction fuel generalizing n with
  | zero =>
    have : n = 0 := by omega
    subst this; rfl
  | succ fuel ih =>
    unfold digitsLE
    split
    · rename_i h0; subst h0; rfl
    · rename_i h0
      rw [List.reverse_cons, bigEndian_append, ih (n / 256) (by omega)]
      simp only [List.length_singleton, pow_one, bigEndian, List.foldl_cons, List.foldl_nil,
        zero_mul, zero_add]
      omega

/-- The bytes of `big.Int.Bytes` denote the integer. -/
theorem bigEndian_bigBytes (n : Nat) : bigEndian (bigBytes n) = n :=
  bigEndian_digitsLE n n le_rfl

theorem digitsLE_length_le (fuel n k : Nat) (h : n < 256 ^ k) : (digitsLE fuel n).length ≤ k := by
  induction fuel generalizing n k with
  | zero => simp [digitsLE]
  | succ fuel ih =>
    unfold digitsLE
    split
    · simp
    · rename_i h0
      cases k with
      | zero => simp at h; exact absurd h h0
      | succ k =>
        rw [List.length_cons]
        have := ih (n / 256) k (by rw [pow_succ] at h; omega)
        omega

theorem digitsLE_length_ge (fuel n k : Nat) (hf : n ≤ fuel) (h : 256 ^ k ≤ n) :
    k + 1 ≤ (digitsLE fuel n).length := by
  induction fuel generalizing n k with
  | zero =>
    have : 0 < 256 ^ k := by positivity
    omega
  | succ fuel ih =>
    unfold digitsLE
    have hpos : 0 < 256 ^ k := by positivity
    rw [if_neg (by omega), List.length_cons]
    cases k with
    | zero => omega
    | succ k =>
      have := ih (n / 256) k (by omega) (by rw [pow_succ] at h; omega)
      omega

/-- An integer below `2^256` has at most 32 bytes. -/
theorem bigBytes_length_le (n : Nat) (h : n < 2 ^ 256) : (bigBytes n).length ≤ 32 := by
  rw [bigBytes, List.length_reverse]
  exact digitsLE_length_le n n 32 (by norm_num at h ⊢; exact h)

/-- An integer of at least `2^248` and below `2^256` has exactly 32 bytes. -/
theorem bigBytes_length_eq (n : Nat) (hlo : 2 ^ 248 ≤ n) (h : n < 2 ^ 256) :
    (bigBytes n).length = 32 := by
  have h1 := bigBytes_length_le n h
  have h2 : 31 + 1 ≤ (bigBytes n).length := by
    rw [bigBytes, List.length_reverse]
    exact digitsLE_length_ge n n 31 le_rfl (by norm_num at hlo ⊢; exact hlo)
  omega

/-- What `GetEpochForBlockHash` decodes from the blob `Difficulty.Bytes()`: the bytes land at
the start of the 32-byte array, so an integer `d` of fewer than 32 bytes is read back multiplied
by `256` for each missing byte. -/
theorem readback_bigBytes (d : Nat) (h : d < 2 ^ 256) :
    Bytes32ToBigInt (copyInto 32 (bigBytes d)) = d * 256 ^ (32 - (bigBytes d).length) := by
  rw [Bytes32ToBigInt, copyInto_short _ (bigBytes_length_le d h), bigEndian_append,
    bigEndian_replicate_zero, bigEndian_bigBytes, List.length_replicate, Nat.add_zero]

/-- The difficulty blob is decoded to the integer that was written when that integer has a
non-zero top byte. -/
theorem readback_bigBytes_of_top_byte (d : Nat) (hlo : 2 ^ 248 ≤ d) (h : d < 2 ^ 256) :
    Bytes32ToBigInt (copyInto 32 (bigBytes d)) = d := by
  rw [readback_bigBytes d h, bigBytes_length_eq d hlo h]; simp

/-- The difficulty blob of a non-zero integer below `2^248` is decoded to a larger integer. -/
theorem readback_bigBytes_of_leading_zero (d : Nat) (h0 : 0 < d) (h : d < 2 ^ 248) :
    d < Bytes32ToBigInt (copyInto 32 (bigBytes d)) := by
  have hlen : (bigBytes d).length ≤ 31 := by
    rw [bigBytes, List.length_reverse]
    exact digitsLE_length_le d d 31 (by norm_num at h ⊢; exact h)
  rw [readback_bigBytes d (lt_trans h (by norm_num))]
  have h256 : 256 ^ 1 ≤ 256 ^ (32 - (bigBytes d).length) :=
    Nat.pow_le_pow_right (by norm_num) (by omega)
  calc d < d * 256 ^ 1 := by omega
    _ ≤ d * 256 ^ (32 - (bigBytes d).length) := Nat.mul_le_mul_left d h256

theorem find?_append_fresh {α : Type} (p : α → Bool) (l : List α) (x : α)
    (hl : ∀ a ∈ l, p a = false) (hx : p x = true) : (l ++ [x]).find? p = some x := by
  rw [List.find?_append, List.find?_eq_none.mpr (by simpa using hl)]
  simp [List.find?, hx]

/-- The epoch `GetEpochForBlockHash` returns when the epoch row of the block was written from
the epoch `e` (by `initialiseBlockDAG` or `IngestBlock`): every field is the one written, except
the difficulty, which is the blob `e.Difficulty.Bytes()` copied to the start of a 32-byte array
and read as a big-endian integer. -/
theorem GetEpochForBlockHash_of_rows {db : Store} {h : Bytes32} {b : BlockRow} {e : Epoch}
    (hb : db.blocks.find? (fun r => decide (r.hash = h.val)) = some b)
    (he : db.epochs.find? (fun r => decide (r.id = b.epoch)) = some e.toRow) :
    GetEpochForBlockHash db h = .ok
      { Number := 0
        Id := e.GetId
        StartBlockHash := e.StartBlockHash
        StartTime := e.StartTime
        StartHeight := e.StartHeight
        Difficulty := Bytes32ToBigInt (copyInto 32 (bigBytes e.Difficulty)) } := by
  unfold GetEpochForBlockHash
  rw [hb]
  simp only [he]
  simp [Epoch.toRow, copyInto_val]

/-- After a successful `IngestBlock` of a block on an epoch boundary that changed table
`blocks` (the commit took effect), the epoch of the new block as `GetEpochForBlockHash` reads it
has the difficulty decoded from the blob `newDifficulty.Bytes()`, where `newDifficulty` is the
value `RecomputeDifficulty` returned. -/
theorem IngestBlock_ok_boundary_readback {env : Env} {cfg : ConsensusConfig} {db : Store}
    {raw : RawBlock} {db2 : Store} (H : IngestBlock env cfg db raw = (.ok, db2))
    (hs : db2.blocks ≠ db.blocks)
    {parent : Block} (hparent : GetBlockByHash db raw.ParentHash = some parent)
    (hb : (U64.wrap (parent.Height.val + 1)).val % cfg.EpochLengthBlocks.val = 0) :
    ∃ prev newD e,
      GetEpochForBlockHash db raw.ParentHash = .ok prev ∧
      RecomputeDifficulty prev.StartTime raw.Timestamp prev.Difficulty
        cfg.TargetEpochLengthMillis cfg.EpochLengthBlocks
        (U64.wrap (parent.Height.val + 1)) = some newD ∧
      GetEpochForBlockHash db2 (raw.Hash env) = .ok e ∧
      e.Difficulty = Bytes32ToBigInt (copyInto 32 (bigBytes newD)) := by
  obtain ⟨parent', prev, epoch, db1, buf, hA, hdb2⟩ := IngestBlock_ok_stored H hs
  have hpp : parent' = parent := by
    have := hA.parent_known; rw [hparent] at this; exact (Option.some.inj this).symm
  subst hpp
  rcases hA.select with ⟨hnb, _⟩ | ⟨_, newD, hnewD, hep, hfreshE, hdb1⟩
  · exact absurd hb hnb
  · have hget : GetEpochForBlockHash db2 (raw.Hash env) = .ok
        { Number := 0
          Id := epoch.GetId
          StartBlockHash := epoch.StartBlockHash
          StartTime := epoch.StartTime
          StartHeight := epoch.StartHeight
          Difficulty := Bytes32ToBigInt (copyInto 32 (bigBytes epoch.Difficulty)) } := by
      refine @GetEpochForBlockHash_of_rows db2 (raw.Hash env)
        (blockRow env raw (U64.wrap (parent'.Height.val + 1)) epoch buf) epoch ?_ ?_
      · rw [hdb2, hdb1]
        apply find?_append_fresh
        · intro a ha; simpa using hA.fresh a ha
        · simp [blockRow]
      · rw [hdb2, hdb1]
        apply find?_append_fresh
        · intro a ha; simpa [blockRow] using hfreshE a ha
        · simp [blockRow, Epoch.toRow]
    exact ⟨prev, newD, _, hA.prev_epoch, hnewD, hget, by simp [hep, newEpoch]⟩

/-- C2 (code defect, evaluated at the failing input). With the genesis target
`0x0000ffff...ff` (two leading zero bytes) `initialiseBlockDAG` writes the 30 bytes of
`GenesisDifficulty.Bytes()` to the genesis epoch row, and `GetEpochForBlockHash` reads the row
back with `Difficulty = (2^240 - 1) * 2^16`, not with the difficulty that was written. -/
theorem genesis_epoch_difficulty_readback (env : Env) :
    (genesisStore env cfgLowTarget).epochs.map (fun e => e.difficulty.length) = [30] ∧
    ∃ e, GetEpochForBlockHash (genesisStore env cfgLowTarget) cfgLowTarget.GenesisBlockHash
        = .ok e ∧
      e.Difficulty = (2 ^ 240 - 1) * 2 ^ 16 ∧ e.Difficulty ≠ cfgLowTarget.GenesisDifficulty := by
  have hget : ∃ e, GetEpochForBlockHash (genesisStore env cfgLowTarget)
      cfgLowTarget.GenesisBlockHash = .ok e ∧ e.Difficulty = (2 ^ 240 - 1) * 2 ^ 16 :=
    ⟨_, rfl, by decide⟩
  obtain ⟨e, he, hd⟩ := hget
  refine ⟨rfl, e, he, hd, ?_⟩
  rw [hd]
  decide

/-! ## Two accepted blocks, used as witnesses -/

set_option maxRecDepth 100000 in
/-- The first block of the S4 chain is accepted into the genesis database. -/
theorem ingest_blockS4a :
    IngestBlock testEnv cfgS4 (genesisStore testEnv cfgS4) blockS4a = (.ok, storeS4a) :=
  Prod.ext (by decide!) rfl

set_option maxRecDepth 100000 in
/-- The second block of the S4 chain, on an epoch boundary, is accepted next. -/
theorem ingest_blockS4b : IngestBlock testEnv cfgS4 storeS4a blockS4b = (.ok, storeS4b) :=
  Prod.ext (by decide!) rfl

/-! ## C3: proof of work of an accepted block -/

/-- C3. If `IngestBlock` succeeds, the block hash read as a big-endian integer is strictly below
the difficulty of the epoch selected in step 6a, which is the epoch computed and inserted by
this call when the block is on an epoch boundary and the epoch of the parent block otherwise.
The block row written in step 8 carries the id of that epoch; it is the one row appended to
table `blocks` when the commit took effect, and table `blocks` is as it was when it did not
(`IngestBlock` returns `nil` in both cases). -/
theorem IngestBlock_ok_pow (env : Env) (cfg : ConsensusConfig) (db : Store) (raw : RawBlock)
    (db2 : Store) (H : IngestBlock env cfg db raw = (.ok, db2)) :
    ∃ parent prev epoch row,
      GetBlockByHash db raw.ParentHash = some parent ∧
      GetEpochForBlockHash db raw.ParentHash = .ok prev ∧
      row.hash = (raw.Hash env).val ∧ row.epoch = epoch.GetId ∧
      db2.blocks =
        (if env.Commit (pendingStore env db db2 raw row) then db.blocks ++ [row]
          else db.blocks) ∧
      (((U64.wrap (parent.Height.val + 1)).val % cfg.EpochLengthBlocks.val = 0 ∧
          db2.epochs = db.epochs ++ [epoch.toRow] ∧
          ∃ newD,
            RecomputeDifficulty prev.StartTime raw.Timestamp prev.Difficulty
              cfg.TargetEpochLengthMillis cfg.EpochLengthBlocks
              (U64.wrap (parent.Height.val + 1)) = some newD ∧
            epoch = newEpoch env cfg raw (U64.wrap (parent.Height.val + 1)) newD) ∨
        ((U64.wrap (parent.Height.val + 1)).val % cfg.EpochLengthBlocks.val ≠ 0 ∧
          db2.epochs = db.epochs ∧ epoch = prev)) ∧
      Bytes32ToBigInt (raw.Hash env) < epoch.Difficulty := by
  obtain ⟨parent, prev, epoch, db1, buf, hA, hep2, hblocks, _⟩ := IngestBlock_ok_commit H
  refine ⟨parent, prev, epoch, blockRow env raw (U64.wrap (parent.Height.val + 1)) epoch buf,
    hA.parent_known, hA.prev_epoch, rfl, rfl, hblocks, ?_, hA.pow⟩
  rcases hA.select with ⟨hb, hep, hdb1⟩ | ⟨hb, newD, hnewD, hep, _, hdb1⟩
  · exact Or.inr ⟨hb, by rw [hep2, hdb1], hep⟩
  · exact Or.inl ⟨hb, by rw [hep2, hdb1], newD, hnewD, hep⟩

/-- Witness for C3: the boundary block of the S4 chain. -/
theorem IngestBlock_ok_pow_witness :
    IngestBlock testEnv cfgS4 storeS4a blockS4b = (.ok, storeS4b) ∧
    ∃ parent prev epoch row,
      GetBlockByHash storeS4a blockS4b.ParentHash = some parent ∧
      GetEpochForBlockHash storeS4a blockS4b.ParentHash = .ok prev ∧
      row.hash = (blockS4b.Hash testEnv).val ∧ row.epoch = epoch.GetId ∧
      storeS4b.blocks =
        (if testEnv.Commit (pendingStore testEnv storeS4a storeS4b blockS4b row) then
          storeS4a.blocks ++ [row]
        else storeS4a.blocks) ∧
      (((U64.wrap (parent.Height.val + 1)).val % cfgS4.EpochLengthBlocks.val = 0 ∧
          storeS4b.epochs = storeS4a.epochs ++ [epoch.toRow] ∧
          ∃ newD,
            RecomputeDifficulty prev.StartTime blockS4b.Timestamp prev.Difficulty
              cfgS4.TargetEpochLengthMillis cfgS4.EpochLengthBlocks
              (U64.wrap (parent.Height.val + 1)) = some newD ∧
            epoch = newEpoch testEnv cfgS4 blockS4b (U64.wrap (parent.Height.val + 1)) newD) ∨
        ((U64.wrap (parent.Height.val + 1)).val % cfgS4.EpochLengthBlocks.val ≠ 0 ∧
          storeS4b.epochs = storeS4a.epochs ∧ epoch = prev)) ∧
      Bytes32ToBigInt (blockS4b.Hash testEnv) < epoch.Difficulty :=
  ⟨ingest_blockS4b,
    IngestBlock_ok_pow testEnv cfgS4 storeS4a blockS4b storeS4b ingest_blockS4b⟩

/-! ## C4: accumulated work of an accepted block -/

theorem BigIntToBytes32_readback {n : Nat} {buf : Bytes32} (h : BigIntToBytes32 n = some buf) :
    Bytes32ToBigInt (copyInto 32 buf.val) = n := by
  unfold BigIntToBytes32 fillBytes32 at h
  split at h
  · rename_i hlt
    have hbuf : fixedBE 32 n = buf := Option.some.inj h
    rw [← hbuf, copyInto_val, Bytes32ToBigInt, bigEndian_fixedBE]
    exact Nat.mod_eq_of_lt (by norm_num at hlt ⊢; exact hlt)
  · exact absurd h (by simp)

/-- What `GetBlockByHash` finds for the hash of `raw` after a call of `IngestBlock` that reached
`tx.Commit()`: the new block, with the accumulated work of the parent plus the work of the
hash, when the commit took effect, and nothing when it did not. -/
theorem GetBlockByHash_after_commit {env : Env} {cfg : ConsensusConfig} {db db1 db2 : Store}
    {raw : RawBlock} {parent : Block} {prev epoch : Epoch} {buf : Bytes32}
    (hA : Accepted env cfg db raw parent prev epoch db1 buf)
    (hblocks : db2.blocks =
      (if env.Commit (pendingStore env db db2 raw
          (blockRow env raw (U64.wrap (parent.Height.val + 1)) epoch buf)) then
        db.blocks ++ [blockRow env raw (U64.wrap (parent.Height.val + 1)) epoch buf]
      else db.blocks)) :
    ∃ stored,
      GetBlockByHash db2 (raw.Hash env) =
        (if env.Commit (pendingStore env db db2 raw
            (blockRow env raw (U64.wrap (parent.Height.val + 1)) epoch buf)) then some stored
          else none) ∧
      stored.AccumulatedWork
        = parent.AccumulatedWork + CalculateWork (Bytes32ToBigInt (raw.Hash env)) := by
  have hacc := BigIntToBytes32_readback hA.acc
  have hfind : (db.blocks ++ [blockRow env raw (U64.wrap (parent.Height.val + 1)) epoch buf]).find?
      (fun r => decide (r.hash = (raw.Hash env).val))
      = some (blockRow env raw (U64.wrap (parent.Height.val + 1)) epoch buf) := by
    apply find?_append_fresh
    · intro a ha; simpa using hA.fresh a ha
    · simp [blockRow]
  have hnone : db.blocks.find? (fun r => decide (r.hash = (raw.Hash env).val)) = none :=
    List.find?_eq_none.mpr (by intro a ha; simpa using hA.fresh a ha)
  have hpend : ∃ stored,
      GetBlockByHash
        { db with blocks := db.blocks ++
          [blockRow env raw (U64.wrap (parent.Height.val + 1)) epoch buf] } (raw.Hash env)
        = some stored ∧
      stored.AccumulatedWork
        = parent.AccumulatedWork + CalculateWork (Bytes32ToBigInt (raw.Hash env)) := by
    unfold GetBlockByHash
    simp only [hfind]
    exact ⟨_, rfl, hacc⟩
  obtain ⟨stored, _, hwork⟩ := hpend
  by_cases hc : env.Commit (pendingStore env db db2 raw
      (blockRow env raw (U64.wrap (parent.Height.val + 1)) epoch buf)) = true
  · rw [if_pos hc] at hblocks
    have hget : ∃ stored, GetBlockByHash db2 (raw.Hash env) = some stored ∧
        stored.AccumulatedWork
          = parent.AccumulatedWork + CalculateWork (Bytes32ToBigInt (raw.Hash env)) := by
      unfold GetBlockByHash
      rw [hblocks, hfind]
      exact ⟨_, rfl, hacc⟩
    obtain ⟨st, h1, h2⟩ := hget
    exact ⟨st, by rw [if_pos hc]; exact h1, h2⟩
  · rw [if_neg hc] at hblocks
    refine ⟨stored, ?_, hwork⟩
    rw [if_neg hc]
    unfold GetBlockByHash
    rw [hblocks, hnone]

/-- C4. If `IngestBlock` succeeds, the block row written in step 8 carries an `acc_work` blob
that decodes to the accumulated work of the parent block plus `2^256 / (h + 1)`, `h` being the
block hash read as a big-endian integer. When the commit took effect that row is the one row
appended to table `blocks` and `GetBlockByHash` returns the new block with that accumulated
work; when it did not, table `blocks` is as it was and `GetBlockByHash` finds no block of that
hash (`IngestBlock` returns `nil` in both cases). -/
theorem IngestBlock_ok_accumulated_work (env : Env) (cfg : ConsensusConfig) (db : Store)
    (raw : RawBlock) (db2 : Store) (H : IngestBlock env cfg db raw = (.ok, db2)) :
    ∃ parent row stored,
      GetBlockByHash db raw.ParentHash = some parent ∧
      row.hash = (raw.Hash env).val ∧
      Bytes32ToBigInt (copyInto 32 row.acc_work)
        = parent.AccumulatedWork + 2 ^ 256 / (Bytes32ToBigInt (raw.Hash env) + 1) ∧
      db2.blocks =
        (if env.Commit (pendingStore env db db2 raw row) then db.blocks ++ [row]
          else db.blocks) ∧
      GetBlockByHash db2 (raw.Hash env) =
        (if env.Commit (pendingStore env db db2 raw row) then some stored else none) ∧
      stored.AccumulatedWork
        = parent.AccumulatedWork + 2 ^ 256 / (Bytes32ToBigInt (raw.Hash env) + 1) := by
  obtain ⟨parent, prev, epoch, db1, buf, hA, _, hblocks, _⟩ := IngestBlock_ok_commit H
  obtain ⟨stored, hget, hwork⟩ := GetBlockByHash_after_commit hA hblocks
  exact ⟨parent, _, stored, hA.parent_known, rfl, BigIntToBytes32_readback hA.acc, hblocks,
    hget, hwork⟩

/-- Witness for C4: the first block of the S4 chain. -/
theorem IngestBlock_ok_accumulated_work_witness :
    IngestBlock testEnv cfgS4 (genesisStore testEnv cfgS4) blockS4a = (.ok, storeS4a) ∧
    ∃ parent row stored,
      GetBlockByHash (genesisStore testEnv cfgS4) blockS4a.ParentHash = some parent ∧
      row.hash = (blockS4a.Hash testEnv).val ∧
      Bytes32ToBigInt (copyInto 32 row.acc_work)
        = parent.AccumulatedWork + 2 ^ 256 / (Bytes32ToBigInt (blockS4a.Hash testEnv) + 1) ∧
      storeS4a.blocks =
        (if testEnv.Commit
            (pendingStore testEnv (genesisStore testEnv cfgS4) storeS4a blockS4a row) then
          (genesisStore testEnv cfgS4).blocks ++ [row]
        else (genesisStore testEnv cfgS4).blocks) ∧
      GetBlockByHash storeS4a (blockS4a.Hash testEnv) =
        (if testEnv.Commit
            (pendingStore testEnv (genesisStore testEnv cfgS4) storeS4a blockS4a row) then
          some stored
        else none) ∧
      stored.AccumulatedWork
        = parent.AccumulatedWork + 2 ^ 256 / (Bytes32ToBigInt (blockS4a.Hash testEnv) + 1) :=
  ⟨ingest_blockS4a,
    IngestBlock_ok_accumulated_work testEnv cfgS4 (genesisStore testEnv cfgS4) blockS4a storeS4a
      ingest_blockS4a⟩

/-! ## A call that returns `nil` and stores nothing -/

/-- When no commit takes effect, a call of `IngestBlock` that returns `nil` leaves tables
`blocks` and `transactions` as they were, and `GetBlockByHash` does not find the block. -/
theorem IngestBlock_ok_of_no_commit (env : Env) (cfg : ConsensusConfig) (db : Store)
    (raw : RawBlock) (db2 : Store) (H : IngestBlock env cfg db raw = (.ok, db2))
    (hc : ∀ s, env.Commit s = false) :
    db2.blocks = db.blocks ∧ db2.transactions = db.transactions ∧
    GetBlockByHash db2 (raw.Hash env) = none := by
  obtain ⟨parent, prev, epoch, db1, buf, hA, _, hblocks, htxs⟩ := IngestBlock_ok_commit H
  obtain ⟨stored, hget, _⟩ := GetBlockByHash_after_commit hA hblocks
  simp only [hc, Bool.false_eq_true, if_false] at hblocks htxs hget
  exact ⟨hblocks, htxs, hget⟩

set_option maxRecDepth 100000 in
/-- On a database on which no commit takes effect, `IngestBlock` of the first block of the S4
chain passes every check and returns `nil`; the database is the genesis database as before and
`GetBlockByHash` does not find the block. -/
theorem ingest_blockS4a_no_commit :
    IngestBlock noCommitEnv cfgS4 (genesisStore noCommitEnv cfgS4) blockS4a
      = (.ok, genesisStore noCommitEnv cfgS4) ∧
    GetBlockByHash (genesisStore noCommitEnv cfgS4) (blockS4a.Hash noCommitEnv) = none := by
  decide!

/-! ## C5: no orphans -/

theorem GetBlockByHash_eq_none {db : Store} {h : Bytes32} :
    GetBlockByHash db h = none ↔ ∀ r ∈ db.blocks, r.hash ≠ h.val := by
  unfold GetBlockByHash
  constructor
  · intro hnone r hr
    split at hnone
    · rename_i hf
      have := List.find?_eq_none.mp hf r hr
      simpa using this
    · exact absurd hnone (by simp)
  · intro hall
    rw [List.find?_eq_none.mpr (by simpa using hall)]

theorem GetBlockByHash_eq_some {db : Store} {h : Bytes32} {blk : Block}
    (H : GetBlockByHash db h = some blk) :
    ∃ r ∈ db.blocks, r.hash = h.val ∧ blk.Height = r.height ∧ blk.Epoch = r.epoch ∧
      db.blocks.find? (fun r => decide (r.hash = h.val)) = some r := by
  unfold GetBlockByHash at H
  split at H
  · exact absurd H (by simp)
  · rename_i r hf
    have hmem := List.mem_of_find?_eq_some hf
    have hp := List.find?_some hf
    have hblk := Option.some.inj H
    refine ⟨r, hmem, by simpa using hp, ?_, ?_, hf⟩
    · rw [← hblk]
    · rw [← hblk]

/-- What `initialiseBlockDAG` leaves when it succeeds on an empty database: the genesis epoch
row and the genesis block row. -/
theorem initialiseBlockDAG_empty {env : Env} {cfg : ConsensusConfig} {db : Store}
    (H : initialiseBlockDAG env cfg Store.empty = (.ok, db)) :
    (∃ e, db.epochs = [e] ∧ e.id = GetIdForEpoch cfg.GenesisBlockHash 0 ∧
      e.start_block_hash = cfg.GenesisBlockHash.val ∧ e.start_height = 0 ∧ e.start_time = 0 ∧
      e.difficulty = bigBytes cfg.GenesisDifficulty) ∧
    (∃ g, db.blocks = [g] ∧ g.hash = cfg.GenesisBlockHash.val ∧ g.parent_hash = zero32.val ∧
      g.height = 0 ∧ g.num_transactions = 0 ∧ g.epoch = GetIdForEpoch cfg.GenesisBlockHash 0 ∧
      Bytes32ToBigInt (copyInto 32 g.acc_work) = 1) ∧
    db.transactions = [] := by
  unfold initialiseBlockDAG at H
  simp only [] at H
  split at H
  · exact absurd (congrArg Prod.fst H) (by simp)
  · simp only [Store.empty, List.any_nil, Bool.false_eq_true, if_false, Store.insertEpoch,
      Store.insertBlock, List.nil_append] at H
    split at H
    · exact absurd (congrArg Prod.fst H) (by simp)
    · rename_i buf hbuf
      have hdb := (congrArg Prod.snd H).symm
      simp only at hdb
      subst hdb
      refine ⟨⟨_, rfl, rfl, rfl, rfl, rfl, rfl⟩, ⟨_, rfl, rfl, rfl, rfl, rfl, rfl, ?_⟩, rfl⟩
      have hlen : buf.val.length = 32 := buf.property
      simp only [PadBytes, hlen, Nat.sub_self, List.replicate_zero, List.nil_append]
      exact BigIntToBytes32_readback hbuf

theorem StoreInv_of_epochs_append {cfg : ConsensusConfig} {db : Store} (h : StoreInv cfg db)
    (e : Epoch) : StoreInv cfg { db with epochs := db.epochs ++ [e.toRow] } where
  parents := h.parents
  nodup := h.nodup
  canonical := by
    intro r hr
    rcases List.mem_append.mp hr with hr | hr
    · exact h.canonical r hr
    · rw [List.mem_singleton.mp hr]
      simp [Epoch.toRow, Epoch.GetId, copyInto_val]

theorem StoreInv_of_committed {env : Env} {cfg : ConsensusConfig} {db : Store}
    (h : StoreInv cfg db) (raw : RawBlock) (parent : Block) (epoch : Epoch) (buf : Bytes32)
    (hparent : GetBlockByHash db raw.ParentHash = some parent)
    (hfresh : ∀ b ∈ db.blocks, b.hash ≠ (raw.Hash env).val) :
    StoreInv cfg (committed env db raw (U64.wrap (parent.Height.val + 1)) epoch buf) where
  parents := by
    intro b hb hne
    obtain ⟨r, hr, hrh, hrH, _, _⟩ := GetBlockByHash_eq_some hparent
    rcases List.mem_append.mp hb with hb | hb
    · obtain ⟨p, hp, hph, hpH⟩ := h.parents b hb hne
      exact ⟨p, List.mem_append_left _ hp, hph, hpH⟩
    · rw [List.mem_singleton.mp hb]
      exact ⟨r, List.mem_append_left _ hr, by simp [blockRow, hrh], by simp [blockRow, hrH]⟩
  nodup := by
    simp only [committed, List.map_append, List.map_cons, List.map_nil]
    refine List.Nodup.append h.nodup (List.nodup_singleton _) ?_
    intro x hx hx'
    rw [List.mem_singleton] at hx'
    obtain ⟨b, hb, hbx⟩ := List.mem_map.mp hx
    exact hfresh b hb (by rw [hbx, hx']; rfl)
  canonical := h.canonical

/-- Every database a node can hold satisfies the invariant. -/
theorem Reachable.storeInv {env : Env} {cfg : ConsensusConfig} {db : Store}
    (h : Reachable env cfg db) : StoreInv cfg db := by
  induction h with
  | init h =>
    obtain ⟨⟨e, he, hid, hsbh, hsh, _⟩, ⟨g, hg, hgh, _⟩, _⟩ := initialiseBlockDAG_empty h
    refine ⟨?_, ?_, ?_⟩
    · intro b hb hne
      rw [hg, List.mem_singleton] at hb
      exact absurd (by rw [hb, hgh]) hne
    · rw [hg]; simp
    · intro r hr
      rw [he, List.mem_singleton] at hr
      rw [hr, hid, hsbh, hsh, copyInto_val]
  | @ingest db _ raw ih =>
    have H : IngestBlock env cfg db raw
        = ((IngestBlock env cfg db raw).1, (IngestBlock env cfg db raw).2) := rfl
    rcases IngestBlock_effect H with h | ⟨parent, prev, newD, _, _, _, _, h⟩ |
      ⟨_, parent, prev, epoch, db1, buf, hA, h⟩
    · rw [h]; exact ih
    · rw [h]; exact StoreInv_of_epochs_append ih _
    · rw [h]
      rcases hA.select with ⟨_, _, hdb1⟩ | ⟨_, _, _, _, _, hdb1⟩
      · rw [hdb1]
        exact StoreInv_of_committed ih raw parent epoch buf hA.parent_known hA.fresh
      · rw [hdb1]
        exact @StoreInv_of_committed env cfg { db with epochs := db.epochs ++ [epoch.toRow] }
          (StoreInv_of_epochs_append ih epoch) raw parent epoch buf hA.parent_known hA.fresh

theorem eq_of_hash_eq {cfg : ConsensusConfig} {db : Store} (h : StoreInv cfg db)
    {p q : BlockRow} (hp : p ∈ db.blocks) (hq : q ∈ db.blocks) (hpq : p.hash = q.hash) :
    p = q :=
  List.inj_on_of_nodup_map h.nodup hp hq hpq

/-- C5. A block whose `ParentHash` is the hash of no stored block is rejected with
"Unknown parent block." and the database is left as it was; consequently, in every database a
node can hold, every block other than the genesis block has exactly one stored parent (the row
whose hash is its `parent_hash`) and its height is the parent's height plus one, in `uint64`
arithmetic. -/
theorem IngestBlock_unknown_parent_and_no_orphans (env : Env) (cfg : ConsensusConfig) :
    (∀ (db : Store) (raw : RawBlock), (∀ b ∈ db.blocks, b.hash ≠ raw.ParentHash.val) →
      IngestBlock env cfg db raw = (.error .unknownParent, db)) ∧
    (∀ db : Store, Reachable env cfg db →
      ∀ b ∈ db.blocks, b.hash ≠ cfg.GenesisBlockHash.val →
        ∃ p ∈ db.blocks, p.hash = b.parent_hash ∧
          b.height.val = (p.height.val + 1) % 2 ^ 64 ∧
          ∀ q ∈ db.blocks, q.hash = b.parent_hash → q = p) := by
  constructor
  · intro db raw hno
    unfold IngestBlock
    rw [GetBlockByHash_eq_none.mpr hno]
  · intro db hR b hb hne
    have hinv := hR.storeInv
    obtain ⟨p, hp, hph, hpH⟩ := hinv.parents b hb hne
    refine ⟨p, hp, hph, by rw [hpH]; rfl, ?_⟩
    intro q hq hqh
    exact eq_of_hash_eq hinv hq hp (by rw [hqh, hph])

/-- The genesis database of the S4 configuration is one a node can hold. -/
theorem reachable_genesisS4 : Reachable testEnv cfgS4 (genesisStore testEnv cfgS4) :=
  Reachable.init (Prod.ext (by decide!) rfl)

/-- So is the database after the first block of the S4 chain. -/
theorem reachable_storeS4a : Reachable testEnv cfgS4 storeS4a :=
  Reachable.ingest reachable_genesisS4 blockS4a

/-- So is the database after the second block of the S4 chain. -/
theorem reachable_storeS4b : Reachable testEnv cfgS4 storeS4b :=
  Reachable.ingest reachable_storeS4a blockS4b

/-- Witness for C5: the three blocks of the S4 chain. -/
theorem IngestBlock_unknown_parent_and_no_orphans_witness :
    Reachable testEnv cfgS4 storeS4b ∧ storeS4b.blocks.length = 3 ∧
    ∀ b ∈ storeS4b.blocks, b.hash ≠ cfgS4.GenesisBlockHash.val →
      ∃ p ∈ storeS4b.blocks, p.hash = b.parent_hash ∧
        b.height.val = (p.height.val + 1) % 2 ^ 64 ∧
        ∀ q ∈ storeS4b.blocks, q.hash = b.parent_hash → q = p :=
  ⟨reachable_storeS4b, by decide!,
    (IngestBlock_unknown_parent_and_no_orphans testEnv cfgS4).2 storeS4b reachable_storeS4b⟩

/-! ## C6: the epoch of an accepted block -/

theorem GetEpochForBlockHash_eq_ok {db : Store} {h : Bytes32} {ep : Epoch}
    (H : GetEpochForBlockHash db h = .ok ep) :
    ∃ b e, db.blocks.find? (fun r => decide (r.hash = h.val)) = some b ∧
      e ∈ db.epochs ∧ e.id = b.epoch ∧
      ep.StartBlockHash = copyInto 32 e.start_block_hash ∧ ep.StartHeight = e.start_height ∧
      ep.StartTime = e.start_time ∧
      ep.Difficulty = Bytes32ToBigInt (copyInto 32 e.difficulty) := by
  unfold GetEpochForBlockHash at H
  split at H
  · exact absurd H (by simp)
  · rename_i b hb
    split at H
    · exact absurd H (by simp)
    · rename_i e he
      have hep : _ = ep := Except.ok.inj H
      refine ⟨b, e, hb, List.mem_of_find?_eq_some he, by simpa using List.find?_some he,
        ?_, ?_, ?_, ?_⟩ <;> rw [← hep]

/-- C6. Let `IngestBlock` succeed on a database a node can hold, for a block at height
`h = parent.Height + 1`, and let `row` be the block row written in step 8, with the block's
hash and height `h`: when the commit took effect it is the one row appended to table `blocks`,
and when it did not, table `blocks` is as it was (`IngestBlock` returns `nil` in both cases).
If `h % EpochLengthBlocks != 0` the row carries the epoch id of the parent block and table
`epochs` is unchanged. If `h % EpochLengthBlocks == 0` exactly one epoch row is appended, with
`start_block_hash` the block's own hash, `start_height = h` and `start_time` the block's
timestamp, and the block row carries the id of that epoch row. -/
theorem IngestBlock_ok_epoch (env : Env) (cfg : ConsensusConfig) (db : Store) (raw : RawBlock)
    (db2 : Store) (hR : Reachable env cfg db) (H : IngestBlock env cfg db raw = (.ok, db2)) :
    ∃ parent row,
      GetBlockByHash db raw.ParentHash = some parent ∧
      row.hash = (raw.Hash env).val ∧
      row.height = U64.wrap (parent.Height.val + 1) ∧
      db2.blocks =
        (if env.Commit (pendingStore env db db2 raw row) then db.blocks ++ [row]
          else db.blocks) ∧
      (row.height.val % cfg.EpochLengthBlocks.val ≠ 0 →
        row.epoch = parent.Epoch ∧ db2.epochs = db.epochs) ∧
      (row.height.val % cfg.EpochLengthBlocks.val = 0 →
        ∃ e, db2.epochs = db.epochs ++ [e] ∧ e.start_block_hash = (raw.Hash env).val ∧
          e.start_height = row.height ∧ e.start_time = raw.Timestamp ∧ row.epoch = e.id) := by
  obtain ⟨parent, prev, epoch, db1, buf, hA, hep2, hblocks, _⟩ := IngestBlock_ok_commit H
  refine ⟨parent, blockRow env raw (U64.wrap (parent.Height.val + 1)) epoch buf,
    hA.parent_known, rfl, rfl, hblocks, ?_, ?_⟩
  · intro hnb
    rcases hA.select with ⟨_, hep, hdb1⟩ | ⟨hb, _⟩
    · refine ⟨?_, by rw [hep2, hdb1]⟩
      obtain ⟨r, _, _, _, hrE, hfind⟩ := GetBlockByHash_eq_some hA.parent_known
      obtain ⟨b, e, hb, he, hid, hsbh, hsh, _⟩ := GetEpochForBlockHash_eq_ok hA.prev_epoch
      have hbr : b = r := by rw [hfind] at hb; exact (Option.some.inj hb).symm
      have hcan := hR.storeInv.canonical e he
      show epoch.GetId = parent.Epoch
      rw [hep, Epoch.GetId, hsbh, hsh, ← hcan, hid, hbr, hrE]
    · exact absurd hb hnb
  · intro hb
    rcases hA.select with ⟨hnb, _⟩ | ⟨_, newD, _, hep, _, hdb1⟩
    · exact absurd hb hnb
    · refine ⟨epoch.toRow, by rw [hep2, hdb1], ?_, ?_, ?_, rfl⟩ <;> rw [hep] <;> rfl

/-- Witness for C6: the boundary block of the S4 chain. -/
theorem IngestBlock_ok_epoch_witness :
    Reachable testEnv cfgS4 storeS4a ∧
    IngestBlock testEnv cfgS4 storeS4a blockS4b = (.ok, storeS4b) ∧
    ∃ parent row,
      GetBlockByHash storeS4a blockS4b.ParentHash = some parent ∧
      row.hash = (blockS4b.Hash testEnv).val ∧
      row.height = U64.wrap (parent.Height.val + 1) ∧
      storeS4b.blocks =
        (if testEnv.Commit (pendingStore testEnv storeS4a storeS4b blockS4b row) then
          storeS4a.blocks ++ [row]
        else storeS4a.blocks) ∧
      (row.height.val % cfgS4.EpochLengthBlocks.val ≠ 0 →
        row.epoch = parent.Epoch ∧ storeS4b.epochs = storeS4a.epochs) ∧
      (row.height.val % cfgS4.EpochLengthBlocks.val = 0 →
        ∃ e, storeS4b.epochs = storeS4a.epochs ++ [e] ∧
          e.start_block_hash = (blockS4b.Hash testEnv).val ∧
          e.start_height = row.height ∧ e.start_time = blockS4b.Timestamp ∧
          row.epoch = e.id) :=
  ⟨reachable_storeS4a, ingest_blockS4b,
    IngestBlock_ok_epoch testEnv cfgS4 storeS4a blockS4b storeS4b reachable_storeS4a
      ingest_blockS4b⟩

/-- The proof-of-work invariant on the stored rows. After a successful `IngestBlock` on a
database a node can hold that changed table `blocks` (the commit took effect), the epoch that
`GetEpochForBlockHash` reads for the new block has a difficulty above the block hash, provided
the difficulty computed for a boundary block is below `2^256` (a larger one does not fit the
32 bytes that are read back). -/
theorem IngestBlock_ok_pow_stored (env : Env) (cfg : ConsensusConfig) (db : Store)
    (raw : RawBlock) (db2 : Store) (hR : Reachable env cfg db)
    (H : IngestBlock env cfg db raw = (.ok, db2)) (hs : db2.blocks ≠ db.blocks)
    (hfit : ∀ parent prev newD, GetBlockByHash db raw.ParentHash = some parent →
      GetEpochForBlockHash db raw.ParentHash = .ok prev →
      RecomputeDifficulty prev.StartTime raw.Timestamp prev.Difficulty
        cfg.TargetEpochLengthMillis cfg.EpochLengthBlocks
        (U64.wrap (parent.Height.val + 1)) = some newD → newD < 2 ^ 256) :
    ∃ e, GetEpochForBlockHash db2 (raw.Hash env) = .ok e ∧
      Bytes32ToBigInt (raw.Hash env) < e.Difficulty := by
  obtain ⟨parent, prev, epoch, db1, buf, hA, hdb2⟩ := IngestBlock_ok_stored H hs
  rcases hA.select with ⟨_, hep, hdb1⟩ | ⟨hb, newD, hnewD, hep, _, _⟩
  · -- ordinary block: the row read back is the one the parent's epoch was read from
    obtain ⟨b, e0, hb0, he0, hid0, hsbh, hsh, hst, hd⟩ :=
      GetEpochForBlockHash_eq_ok hA.prev_epoch
    have hcan := hR.storeInv.canonical e0 he0
    have hgid : prev.GetId = b.epoch := by
      rw [Epoch.GetId, hsbh, hsh, ← hcan, hid0]
    have hfindB : db2.blocks.find? (fun r => decide (r.hash = (raw.Hash env).val))
        = some (blockRow env raw (U64.wrap (parent.Height.val + 1)) epoch buf) := by
      rw [hdb2, hdb1]
      apply find?_append_fresh
      · intro a ha; simpa using hA.fresh a ha
      · simp [blockRow]
    have hprev := hA.prev_epoch
    unfold GetEpochForBlockHash at hprev ⊢
    rw [hfindB]
    rw [hb0] at hprev
    have hepochs : db2.epochs = db.epochs := by rw [hdb2, hdb1]; rfl
    have hrow : (blockRow env raw (U64.wrap (parent.Height.val + 1)) epoch buf).epoch
        = b.epoch := by
      show epoch.GetId = b.epoch
      rw [hep, hgid]
    simp only [hepochs, hrow]
    simp only [] at hprev
    split at hprev
    · exact absurd hprev (by simp)
    · rename_i e1 he1
      refine ⟨_, rfl, ?_⟩
      have hpd : Bytes32ToBigInt (copyInto 32 e1.difficulty) = prev.Difficulty := by
        rw [← Except.ok.inj hprev]
      have hpow := hA.pow
      rw [hep] at hpow
      simp only [hpd]
      exact hpow
  · obtain ⟨prev', newD', e, hprev', hnewD', hget, hd⟩ :=
      IngestBlock_ok_boundary_readback H hs hA.parent_known hb
    have hpp : prev' = prev := by
      rw [hA.prev_epoch] at hprev'; exact (Except.ok.inj hprev').symm
    subst hpp
    have hnn : newD' = newD := by
      rw [hnewD] at hnewD'; exact (Option.some.inj hnewD').symm
    subst hnn
    refine ⟨e, hget, ?_⟩
    have hlt := hfit parent prev' newD' hA.parent_known hA.prev_epoch hnewD
    rw [hd, readback_bigBytes newD' hlt]
    have hpow := hA.pow
    rw [hep] at hpow
    have h1 : 1 ≤ 256 ^ (32 - (bigBytes newD').length) := Nat.one_le_pow _ _ (by norm_num)
    calc Bytes32ToBigInt (raw.Hash env) < newD' := hpow
      _ = newD' * 1 := (Nat.mul_one _).symm
      _ ≤ newD' * 256 ^ (32 - (bigBytes newD').length) := Nat.mul_le_mul_left _ h1

/-! ## C7, C8: the retarget rule -/

theorem U64.sub_val_of_le (a b : U64) (h : b ≤ a) : (U64.sub a b).val = a.val - b.val := by
  have ha := a.isLt
  have hb := b.isLt
  have hle : b.val ≤ a.val := h
  simp only [U64.sub, U64.wrap]
  norm_num at ha hb ⊢
  omega

/-- C7. When `IngestBlock` accepts a block on an epoch boundary, the row of the new epoch
carries the bytes of `newD = prev.Difficulty * actual / (TargetEpochLengthMillis *
EpochLengthBlocks)` (integer division), where `prev` is the epoch of the parent block and
`actual` is `raw.Timestamp - prev.StartTime` (a `uint64` subtraction, the plain difference when
`prev.StartTime <= raw.Timestamp`), replaced by 1 when it is 0; the block was checked against
`newD`; and with `EpochLengthBlocks = 2`, `TargetEpochLengthMillis = 2000`,
`prev.StartTime = 0` and `raw.Timestamp = 4000`, `newD = prev.Difficulty`. -/
theorem IngestBlock_ok_boundary_difficulty (env : Env) (cfg : ConsensusConfig) (db : Store)
    (raw : RawBlock) (db2 : Store) (H : IngestBlock env cfg db raw = (.ok, db2)) :
    ∃ parent prev,
      GetBlockByHash db raw.ParentHash = some parent ∧
      GetEpochForBlockHash db raw.ParentHash = .ok prev ∧
      ((U64.wrap (parent.Height.val + 1)).val % cfg.EpochLengthBlocks.val = 0 →
        ∃ actual newD e,
          actual = (if (U64.sub raw.Timestamp prev.StartTime).val = 0 then 1
            else (U64.sub raw.Timestamp prev.StartTime).val) ∧
          (prev.StartTime ≤ raw.Timestamp →
            (U64.sub raw.Timestamp prev.StartTime).val
              = raw.Timestamp.val - prev.StartTime.val) ∧
          newD = prev.Difficulty * actual
            / (cfg.TargetEpochLengthMillis.val * cfg.EpochLengthBlocks.val) ∧
          db2.epochs = db.epochs ++ [e] ∧ e.difficulty = bigBytes newD ∧
          Bytes32ToBigInt (raw.Hash env) < newD ∧
          (cfg.EpochLengthBlocks = 2 → cfg.TargetEpochLengthMillis = 2000 →
            prev.StartTime = 0 → raw.Timestamp = 4000 → newD = prev.Difficulty)) := by
  obtain ⟨parent, prev, epoch, db1, buf, hA, hdb2, _⟩ := IngestBlock_ok_commit H
  refine ⟨parent, prev, hA.parent_known, hA.prev_epoch, ?_⟩
  intro hb
  rcases hA.select with ⟨hnb, _⟩ | ⟨_, newD, hnewD, hep, _, hdb1⟩
  · exact absurd hb hnb
  · have hpow : Bytes32ToBigInt (raw.Hash env) < newD := by
      have := hA.pow
      rw [hep] at this
      exact this
    unfold RecomputeDifficulty at hnewD
    simp only [] at hnewD
    split at hnewD
    · exact absurd hnewD (by simp)
    · have hD := (Option.some.inj hnewD).symm
      refine ⟨_, newD, epoch.toRow, rfl, U64.sub_val_of_le _ _, hD, by rw [hdb2, hdb1],
        by rw [hep]; rfl, hpow, ?_⟩
      intro hE hT hst hts
      rw [hD, hE, hT, hst, hts]
      have h4 : (U64.sub (4000 : U64) 0).val = 4000 := by decide
      rw [h4]
      have h2 : ((2000 : U64).val * (2 : U64).val) = 4000 := by decide
      rw [h2]
      simp

/-- Witness for C7: the boundary block of the S4 chain, with timestamp 4000 after an epoch that
started at time 0. -/
theorem IngestBlock_ok_boundary_difficulty_witness :
    IngestBlock testEnv cfgS4 storeS4a blockS4b = (.ok, storeS4b) ∧
    ∃ parent prev,
      GetBlockByHash storeS4a blockS4b.ParentHash = some parent ∧
      GetEpochForBlockHash storeS4a blockS4b.ParentHash = .ok prev ∧
      ((U64.wrap (parent.Height.val + 1)).val % cfgS4.EpochLengthBlocks.val = 0 →
        ∃ actual newD e,
          actual = (if (U64.sub blockS4b.Timestamp prev.StartTime).val = 0 then 1
            else (U64.sub blockS4b.Timestamp prev.StartTime).val) ∧
          (prev.StartTime ≤ blockS4b.Timestamp →
            (U64.sub blockS4b.Timestamp prev.StartTime).val
              = blockS4b.Timestamp.val - prev.StartTime.val) ∧
          newD = prev.Difficulty * actual
            / (cfgS4.TargetEpochLengthMillis.val * cfgS4.EpochLengthBlocks.val) ∧
          storeS4b.epochs = storeS4a.epochs ++ [e] ∧ e.difficulty = bigBytes newD ∧
          Bytes32ToBigInt (blockS4b.Hash testEnv) < newD ∧
          (cfgS4.EpochLengthBlocks = 2 → cfgS4.TargetEpochLengthMillis = 2000 →
            prev.StartTime = 0 → blockS4b.Timestamp = 4000 → newD = prev.Difficulty)) :=
  ⟨ingest_blockS4b,
    IngestBlock_ok_boundary_difficulty testEnv cfgS4 storeS4a blockS4b storeS4b
      ingest_blockS4b⟩

/-- C8 (counterexample). With `EpochLengthBlocks = 2`, `TargetEpochLengthMillis = 2000`, the
previous epoch started at time 0 and a block of timestamp 1000 at height 2, the retarget rule
applied to the difficulty `0x0fff...ff` does not give half of it. -/
theorem RecomputeDifficulty_half_counterexample :
    RecomputeDifficulty 0 1000 (2 ^ 252 - 1) 2000 2 2 ≠ some ((2 ^ 252 - 1) / 2) := by
  decide

/-- C8 (amended). With `EpochLengthBlocks = 2`, `TargetEpochLengthMillis = 2000`, the previous
epoch started at time 0 and a block of timestamp 1000, the retarget rule gives a quarter of the
previous difficulty: `prev * 1000 / (2000 * 2) = prev / 4`. -/
theorem RecomputeDifficulty_quarter (prevDifficulty : Nat) (height : U64) :
    RecomputeDifficulty 0 1000 prevDifficulty 2000 2 height = some (prevDifficulty / 4) := by
  have h1 : (U64.sub (1000 : U64) 0).val = 1000 := by decide
  have h2 : ((2000 : U64).val * (2 : U64).val) = 4000 := by decide
  unfold RecomputeDifficulty
  simp only [h1, h2]
  norm_num
  omega

/-! ## C9: transactions of an accepted block -/

/-- C9. If `IngestBlock` succeeds, `raw.NumTransactions` is the number of transactions of the
block and `raw.TransactionsMerkleRoot` is `ComputeMerkleHash` of the list of the envelopes of
`raw.Transactions`, in order. -/
theorem IngestBlock_ok_transactions (env : Env) (cfg : ConsensusConfig) (db : Store)
    (raw : RawBlock) (db2 : Store) (H : IngestBlock env cfg db raw = (.ok, db2)) :
    raw.NumTransactions.val = raw.Transactions.length ∧
    raw.TransactionsMerkleRoot
      = env.ComputeMerkleHash (raw.Transactions.map RawTransaction.Envelope) := by
  obtain ⟨parent, prev, epoch, db1, buf, hA, _⟩ := IngestBlock_ok_inv H
  exact ⟨hA.count, hA.merkle.symm⟩

set_option maxRecDepth 100000 in
/-- The block `blockTx`, which carries one transaction, is accepted into the genesis database
of the S4 configuration. -/
theorem ingest_blockTx :
    IngestBlock testEnv cfgS4 (genesisStore testEnv cfgS4) blockTx
      = (.ok, (IngestBlock testEnv cfgS4 (genesisStore testEnv cfgS4) blockTx).2) :=
  Prod.ext (by decide!) rfl

/-- Witness for C9: a block with one transaction. -/
theorem IngestBlock_ok_transactions_witness :
    IngestBlock testEnv cfgS4 (genesisStore testEnv cfgS4) blockTx
      = (.ok, (IngestBlock testEnv cfgS4 (genesisStore testEnv cfgS4) blockTx).2) ∧
    blockTx.NumTransactions.val = blockTx.Transactions.length ∧
    blockTx.TransactionsMerkleRoot
      = testEnv.ComputeMerkleHash (blockTx.Transactions.map RawTransaction.Envelope) :=
  ⟨ingest_blockTx,
    IngestBlock_ok_transactions testEnv cfgS4 (genesisStore testEnv cfgS4) blockTx _
      ingest_blockTx⟩

/-! ## C10: the Merkle root `GetMerkleRootForTxs` computes -/

theorem putUint64_length (x : U64) : (putUint64 x).length = 8 := (fixedBE 8 x.val).property

theorem RawTransaction.Bytes_length (tx : RawTransaction) : tx.Bytes.length = 219 := by
  simp [RawTransaction.Bytes, putUint64_length, tx.Sig.property, tx.FromPubkey.property,
    tx.ToPubkey.property]

theorem RawTransaction.Envelope_length (tx : RawTransaction) : tx.Envelope.length = 155 := by
  simp [RawTransaction.Envelope, putUint64_length, tx.FromPubkey.property,
    tx.ToPubkey.property]

/-- The loop of `GetMerkleRootForTxs` collects `tx.Bytes()`, the 219 bytes that include the
signature, so for a non-empty list it does not hand the envelopes to `ComputeMerkleHash`. -/
theorem GetMerkleRootForTxs.envs_ne (txs : List RawTransaction) (h : txs ≠ []) :
    GetMerkleRootForTxs.envs txs ≠ txs.map RawTransaction.Envelope := by
  cases txs with
  | nil => exact absurd rfl h
  | cons tx rest =>
    intro heq
    simp only [GetMerkleRootForTxs.envs, List.map_cons, List.cons.injEq] at heq
    have hlen := congrArg List.length heq.1
    rw [RawTransaction.Bytes_length, RawTransaction.Envelope_length] at hlen
    omega

/-- A block whose `TransactionsMerkleRoot` is `GetMerkleRootForTxs(Transactions)` fails step 5
of `IngestBlock` unless `ComputeMerkleHash` gives the same root to the serialised transactions
and to their envelopes. -/
theorem IngestBlock_rejects_Bytes_root (env : Env) (cfg : ConsensusConfig) (db : Store)
    (raw : RawBlock) (parent : Block)
    (hparent : GetBlockByHash db raw.ParentHash = some parent)
    (hcount : raw.NumTransactions.val = raw.Transactions.length)
    (hver : verifyTransactions env 0 raw.Transactions = none)
    (hroot : raw.TransactionsMerkleRoot = GetMerkleRootForTxs env raw.Transactions)
    (hsep : env.ComputeMerkleHash (raw.Transactions.map RawTransaction.Bytes)
      ≠ env.ComputeMerkleHash (raw.Transactions.map RawTransaction.Envelope)) :
    IngestBlock env cfg db raw = (.error .merkleRootMismatch, db) := by
  unfold IngestBlock
  simp only [hparent, hcount, hver, ne_eq, not_true_eq_false, if_false]
  rw [if_pos]
  rw [hroot]
  exact fun h => hsep h.symm

set_option maxRecDepth 100000 in
/-- C10 (code defect, evaluated at the failing input). For the one-transaction list `[txS]`,
`GetMerkleRootForTxs` is `ComputeMerkleHash` of the 219 bytes of `txS.Bytes()` while the root
over the envelopes, which step 5 of `IngestBlock` recomputes, is `ComputeMerkleHash` of the 155
bytes of `txS.Envelope()`; in the test environment the two roots differ, and the block
`blockTxSealed`, whose root is `GetMerkleRootForTxs(Transactions)`, is rejected with "Merkle
root does not match computed merkle root." although the same block with the root over the
envelopes is accepted. -/
theorem GetMerkleRootForTxs_hashes_Bytes (env : Env) :
    GetMerkleRootForTxs env [txS] = env.ComputeMerkleHash [txS.Bytes] ∧
    GetMerkleRootForTxs_spec env [txS] = env.ComputeMerkleHash [txS.Envelope] ∧
    txS.Bytes.length = 219 ∧ txS.Envelope.length = 155 ∧
    GetMerkleRootForTxs testEnv [txS] ≠ GetMerkleRootForTxs_spec testEnv [txS] ∧
    IngestBlock testEnv cfgS4 (genesisStore testEnv cfgS4) blockTxSealed
      = (.error .merkleRootMismatch, genesisStore testEnv cfgS4) ∧
    (IngestBlock testEnv cfgS4 (genesisStore testEnv cfgS4) blockTx).1 = .ok :=
  ⟨rfl, rfl, RawTransaction.Bytes_length txS, RawTransaction.Envelope_length txS, by decide!,
    by decide!, by decide!⟩

/-! ## C15: the proof-of-work predicate -/

/-- C15. `VerifyPOW(hash, target)` is true exactly when the hash, read as a big-endian
unsigned integer (which is below `2^256`), is strictly below the target, for every integer
target, negative ones included; a hash equal to the target is rejected. -/
theorem VerifyPOW_iff (blockhash : Bytes32) (target : Int) :
    (VerifyPOW blockhash target = true ↔ (Bytes32ToBigInt blockhash : Int) < target) ∧
    Bytes32ToBigInt blockhash < 2 ^ 256 ∧
    VerifyPOW blockhash (Bytes32ToBigInt blockhash) = false := by
  refine ⟨?_, ?_, ?_⟩
  · simp [VerifyPOW, Bytes32ToBigInt, bigCmp_eq_neg_one_iff]
  · have h := bigEndian_lt blockhash.val
    rw [blockhash.property] at h
    rw [Bytes32ToBigInt]
    norm_num at h ⊢
    exact h
  · simp [VerifyPOW, Bytes32ToBigInt, bigCmp_eq_neg_one_iff]

/-! ## C19, C20: the common ancestor search -/

theorem getElem?_of_lt_length {α : Type} (l : List α) (i : Nat) (h : i < l.length) :
    ∃ a, l[i]? = some a ∧ a ∈ l :=
  ⟨l[i], List.getElem?_eq_getElem h, List.getElem_mem h⟩

/-- The loop of the search on the window `floor < ceil <= N`, with fuel for
`ceil(log2 (ceil - floor))` iterations: it ends without a panic at some index `f` of the window,
asks at most `ceil(log2 (ceil - floor))` further questions, all about indices strictly inside
the window, and `f = K - 1` when the peer has seen exactly the indices below `K` and `K` lies
in the window. -/
theorem search_loop_spec (HasBlock : Bytes32 → Bool) (chain : List Bytes32) :
    ∀ (fuel floor ceil : Nat) (qs : List Nat), floor < ceil → ceil ≤ chain.length →
      Nat.clog 2 (ceil - floor) ≤ fuel →
      ∃ f a new, floor ≤ f ∧ f < ceil ∧ chain[f]? = some a ∧
        sync_computeCommonAncestorWithPeer.loop HasBlock chain fuel floor ceil qs
          = some (.found a (qs ++ new)) ∧
        new.length ≤ Nat.clog 2 (ceil - floor) ∧
        (∀ i ∈ new, floor < i ∧ i < ceil) ∧
        (∀ K, (∀ i a, chain[i]? = some a → (HasBlock a = true ↔ i < K)) →
          floor < K → K ≤ ceil → f + 1 = K) := by
  intro fuel
  induction fuel with
  | zero =>
    intro floor ceil qs hfc hcl hfuel
    have hd : ¬ floor + 1 < ceil := by
      intro h
      have := Nat.clog_pos (b := 2) (n := ceil - floor) (by norm_num) (by omega)
      omega
    obtain ⟨a, ha, _⟩ := getElem?_of_lt_length chain floor (by omega)
    refine ⟨floor, a, [], le_rfl, hfc, ha, ?_, by simp, by simp, ?_⟩
    · simp [sync_computeCommonAncestorWithPeer.loop, hd, ha]
    · intro K _ h1 h2; omega
  | succ fuel ih =>
    intro floor ceil qs hfc hcl hfuel
    by_cases hd : floor + 1 < ceil
    · have hclog : Nat.clog 2 (ceil - floor)
          = Nat.clog 2 ((ceil - floor + 2 - 1) / 2) + 1 :=
        Nat.clog_of_two_le (by norm_num) (by omega)
      have hg1 : floor < (floor + ceil) / 2 := by omega
      have hg2 : (floor + ceil) / 2 < ceil := by omega
      obtain ⟨g, hg, _⟩ := getElem?_of_lt_length chain ((floor + ceil) / 2) (by omega)
      by_cases hseen : HasBlock g = true
      · have hmono : Nat.clog 2 (ceil - (floor + ceil) / 2)
            ≤ Nat.clog 2 ((ceil - floor + 2 - 1) / 2) :=
          Nat.clog_mono_right 2 (by omega)
        obtain ⟨f, a, new, hf1, hf2, ha, hrun, hlen, hidx, hK⟩ :=
          ih ((floor + ceil) / 2) ceil (qs ++ [(floor + ceil) / 2]) hg2 hcl (by omega)
        refine ⟨f, a, (floor + ceil) / 2 :: new, by omega, hf2, ha, ?_, ?_, ?_, ?_⟩
        · simp only [sync_computeCommonAncestorWithPeer.loop, hd, if_true, hg, hseen]
          rw [hrun]; simp
        · simp only [List.length_cons]; omega
        · intro i hi
          rcases List.mem_cons.mp hi with h | h
          · omega
          · have := hidx i h; omega
        · intro K hKspec h1 h2
          exact hK K hKspec ((hKspec _ g hg).mp hseen) h2
      · have hmono : Nat.clog 2 ((floor + ceil) / 2 - floor)
            ≤ Nat.clog 2 ((ceil - floor + 2 - 1) / 2) :=
          Nat.clog_mono_right 2 (by omega)
        obtain ⟨f, a, new, hf1, hf2, ha, hrun, hlen, hidx, hK⟩ :=
          ih floor ((floor + ceil) / 2) (qs ++ [(floor + ceil) / 2]) hg1 (by omega) (by omega)
        refine ⟨f, a, (floor + ceil) / 2 :: new, hf1, by omega, ha, ?_, ?_, ?_, ?_⟩
        · simp only [sync_computeCommonAncestorWithPeer.loop, hd, if_true, hg, hseen]
          rw [hrun]; simp
        · simp only [List.length_cons]; omega
        · intro i hi
          rcases List.mem_cons.mp hi with h | h
          · omega
          · have := hidx i h; omega
        · intro K hKspec h1 h2
          have hnot : ¬ (floor + ceil) / 2 < K := fun h => hseen ((hKspec _ g hg).mpr h)
          exact hK K hKspec h1 (by omega)
    · obtain ⟨a, ha, _⟩ := getElem?_of_lt_length chain floor (by omega)
      refine ⟨floor, a, [], le_rfl, hfc, ha, ?_, by simp, by simp, ?_⟩
      · simp [sync_computeCommonAncestorWithPeer.loop, hd, ha]
      · intro K _ h1 h2; omega

theorem clog_chainFive : Nat.clog 2 chainFive.length ≤ 3 :=
  (Nat.le_pow_iff_clog_le (by norm_num)).mp (by decide)

/-- C19. For a local chain of `N` hashes and `1 <= K <= N` (so the chain is not empty), when
the peer reports SEEN for `local_chain[i]` exactly when `i < K`, the search returns
`local_chain[K-1]`, with any fuel for at least `ceil(log2 N)` iterations. -/
theorem sync_computeCommonAncestorWithPeer_shared_prefix (HasBlock : Bytes32 → Bool)
    (chain : List Bytes32) (K fuel : Nat) (hK1 : 1 ≤ K) (hKN : K ≤ chain.length)
    (hseen : ∀ i a, chain[i]? = some a → (HasBlock a = true ↔ i < K))
    (hfuel : Nat.clog 2 chain.length ≤ fuel) :
    ∃ a qs, chain[K - 1]? = some a ∧
      sync_computeCommonAncestorWithPeer HasBlock chain fuel = some (.found a qs) := by
  obtain ⟨f, a, new, _, _, ha, hrun, _, _, hK⟩ :=
    search_loop_spec HasBlock chain fuel 0 chain.length [] (by omega) le_rfl
      (by simpa using hfuel)
  have hf : f + 1 = K := hK K hseen (by omega) hKN
  refine ⟨a, [] ++ new, ?_, hrun⟩
  have hf' : K - 1 = f := by omega
  rw [hf']; exact ha

/-- Witness for C19: a chain of five hashes of which the peer has seen the first three; the
search returns the third. -/
theorem sync_computeCommonAncestorWithPeer_shared_prefix_witness :
    1 ≤ 3 ∧ 3 ≤ chainFive.length ∧
    (∀ i a, chainFive[i]? = some a → (peerSeesThree a = true ↔ i < 3)) ∧
    Nat.clog 2 chainFive.length ≤ 3 ∧
    ∃ a qs, chainFive[3 - 1]? = some a ∧
      sync_computeCommonAncestorWithPeer peerSeesThree chainFive 3 = some (.found a qs) := by
  have h1 : (1 : Nat) ≤ 3 := by decide
  have h2 : 3 ≤ chainFive.length := by decide
  have h3 : ∀ i a, chainFive[i]? = some a → (peerSeesThree a = true ↔ i < 3) := by
    intro i a hia
    match i, hia with
    | 0, hia => cases hia; decide
    | 1, hia => cases hia; decide
    | 2, hia => cases hia; decide
    | 3, hia => cases hia; decide
    | 4, hia => cases hia; decide
    | n + 5, hia => simp [chainFive] at hia
  have h4 : Nat.clog 2 chainFive.length ≤ 3 := clog_chainFive
  exact ⟨h1, h2, h3, h4,
    sync_computeCommonAncestorWithPeer_shared_prefix peerSeesThree chainFive 3 3 h1 h2 h3 h4⟩

/-- C20. For a non-empty local chain of `N` hashes and any answers of the peer, the search,
given fuel for at least `ceil(log2 N)` iterations, ends without a panic: it asks at most
`ceil(log2 N)` questions, every index it queries and the index it finally reads lie in
`0 .. N-1`, and the value returned is an element of the local chain. -/
theorem sync_computeCommonAncestorWithPeer_terminates (HasBlock : Bytes32 → Bool)
    (chain : List Bytes32) (fuel : Nat) (hne : chain ≠ [])
    (hfuel : Nat.clog 2 chain.length ≤ fuel) :
    ∃ a qs f, sync_computeCommonAncestorWithPeer HasBlock chain fuel = some (.found a qs) ∧
      qs.length ≤ Nat.clog 2 chain.length ∧ (∀ i ∈ qs, i < chain.length) ∧
      f < chain.length ∧ chain[f]? = some a ∧ a ∈ chain := by
  have hpos : 0 < chain.length := List.length_pos.mpr hne
  obtain ⟨f, a, new, _, hf, ha, hrun, hlen, hidx, _⟩ :=
    search_loop_spec HasBlock chain fuel 0 chain.length [] hpos le_rfl (by simpa using hfuel)
  refine ⟨a, [] ++ new, f, hrun, by simpa using hlen, ?_, hf, ha, ?_⟩
  · intro i hi
    exact (hidx i (by simpa using hi)).2
  · exact List.mem_iff_getElem?.mpr ⟨f, ha⟩

/-- Witness for C20: a chain of five hashes and a peer whose answers are not monotone. -/
theorem sync_computeCommonAncestorWithPeer_terminates_witness :
    chainFive ≠ [] ∧ Nat.clog 2 chainFive.length ≤ 3 ∧
    ∃ a qs f, sync_computeCommonAncestorWithPeer peerSeesOdd chainFive 3
        = some (.found a qs) ∧
      qs.length ≤ Nat.clog 2 chainFive.length ∧ (∀ i ∈ qs, i < chainFive.length) ∧
      f < chainFive.length ∧ chainFive[f]? = some a ∧ a ∈ chainFive :=
  ⟨by decide, clog_chainFive,
    sync_computeCommonAncestorWithPeer_terminates peerSeesOdd chainFive 3 (by decide)
      clog_chainFive⟩

/-! ## C16, C17, C18: the proof-of-work search -/

theorem U64.wrap_succ (c : Nat) : U64.wrap ((U64.wrap c).val + 1) = U64.wrap (c + 1) := by
  apply Fin.ext
  simp only [U64.wrap]
  norm_num

theorem U64.not_max_lt (i : U64) : ¬ (U64.wrap (2 ^ 64 - 1)) < i := by
  intro h
  have h1 : (U64.wrap (2 ^ 64 - 1)).val < i.val := h
  have h2 := i.isLt
  simp only [U64.wrap] at h1
  norm_num at h1 h2
  omega

theorem SetNonce_eq_none {env : Env} {b : RawBlock} {n : Int} :
    b.SetNonce env n = none ↔ ¬ Sealable n := by
  unfold RawBlock.SetNonce fillBytes32 Sealable
  split <;> rename_i h <;> split at h <;> simp_all

theorem SetNonce_eq_some {env : Env} {b blk : RawBlock} {n : Int}
    (h : b.SetNonce env n = some blk) :
    Sealable n ∧ blk = { b with Nonce := env.sha256 (fixedBE 32 n.natAbs).val } := by
  unfold RawBlock.SetNonce fillBytes32 at h
  unfold Sealable
  split at h
  · exact absurd h (by simp)
  · rename_i nonce hn
    split at hn
    · rename_i hlt
      have h1 : fixedBE 32 n.natAbs = nonce := Option.some.inj hn
      have h2 := (Option.some.inj h).symm
      rw [← h1] at h2
      exact ⟨hlt, h2⟩
    · exact absurd hn (by simp)

/-- Sealing replaces the nonce only, so sealing a sealed block is sealing the template. -/
theorem SetNonce_SetNonce {env : Env} {b blk : RawBlock} {m : Int}
    (h : b.SetNonce env m = some blk) (n : Int) : blk.SetNonce env n = b.SetNonce env n := by
  obtain ⟨_, hblk⟩ := SetNonce_eq_some h
  subst hblk
  unfold RawBlock.SetNonce
  split <;> rfl

/-- Backward reading of the loop: a result `r` was produced by some iteration `j` (counted from
0) within the fuel, and all iterations before it went on. -/
theorem SolvePOW.loop_eq_some {env : Env} {b : RawBlock} {target : Int} {maxIterations : U64} :
    ∀ (fuel : Nat) (blk : RawBlock) (nonce : Int) (c : Nat) (r : SolveResult),
      (∀ n, blk.SetNonce env n = b.SetNonce env n) →
      SolvePOW.loop env target maxIterations fuel blk nonce (U64.wrap c) = some r →
      ∃ j, j < fuel ∧
        (∀ j', j' < j →
          SolvePOW.Continues env b target maxIterations (c + j' + 1) (nonce + (j' + 1 : Nat))) ∧
        SolvePOW.EndsWith env b target maxIterations r (c + j + 1) (nonce + (j + 1 : Nat)) := by
  intro fuel
  induction fuel with
  | zero => intro blk nonce c r _ h; simp [SolvePOW.loop] at h
  | succ fuel ih =>
    intro blk nonce c r hsame h
    unfold SolvePOW.loop at h
    simp only [U64.wrap_succ] at h
    split at h
    · rename_i hmax
      have hr := (Option.some.inj h).symm
      subst hr
      exact ⟨0, by omega, by intro j' hj'; omega, by simpa [SolvePOW.EndsWith] using hmax⟩
    · rename_i hmax
      split at h
      · rename_i hseal
        have hr := (Option.some.inj h).symm
        subst hr
        rw [hsame] at hseal
        refine ⟨0, by omega, by intro j' hj'; omega, ?_⟩
        simp only [SolvePOW.EndsWith]
        exact ⟨by simpa using hmax, by simpa using SetNonce_eq_none.mp hseal⟩
      · rename_i blk1 hseal
        rw [hsame] at hseal
        split at h
        · rename_i hpow
          have hr := (Option.some.inj h).symm
          subst hr
          refine ⟨0, by omega, by intro j' hj'; omega, ?_⟩
          simp only [SolvePOW.EndsWith]
          refine ⟨by simp, by simpa using hmax, blk1, by simpa using hseal, ?_⟩
          simpa [VerifyPOW] using hpow
        · rename_i hpow
          have hsame1 : ∀ n, blk1.SetNonce env n = b.SetNonce env n :=
            fun n => SetNonce_SetNonce hseal n
          obtain ⟨j, hj, hcont, hend⟩ := ih blk1 (nonce + 1) (c + 1) r hsame1 h
          have hcast : ∀ k : Nat, nonce + 1 + ((k + 1 : Nat) : Int)
              = nonce + ((k + 1 + 1 : Nat) : Int) := by
            intro k; push_cast; ring
          refine ⟨j + 1, by omega, ?_, ?_⟩
          · intro j' hj'
            cases j' with
            | zero =>
              refine ⟨by simpa using hmax, ?_, ?_⟩
              · simpa using (SetNonce_eq_some hseal).1
              · rintro ⟨blk2, hb2, hv⟩
                have hb2' : b.SetNonce env (nonce + 1) = some blk2 := by simpa using hb2
                rw [hseal] at hb2'
                have := Option.some.inj hb2'
                subst this
                exact hpow (by simpa [VerifyPOW] using hv)
            | succ j'' =>
              have := hcont j'' (by omega)
              rw [hcast j''] at this
              have hc : c + 1 + j'' + 1 = c + (j'' + 1) + 1 := by omega
              rw [hc] at this
              exact this
          · rw [hcast j] at hend
            have hc : c + 1 + j + 1 = c + (j + 1) + 1 := by omega
            rw [hc] at hend
            exact hend

theorem SetNonce_of_sealable (env : Env) (b : RawBlock) {n : Int} (h : Sealable n) :
    ∃ blk, b.SetNonce env n = some blk := by
  cases hb : b.SetNonce env n with
  | none => exact absurd h (SetNonce_eq_none.mp hb)
  | some blk => exact ⟨blk, rfl⟩

/-- One iteration of the loop that goes on. -/
theorem SolvePOW.loop_step {env : Env} {b : RawBlock} {target : Int} {maxIterations : U64}
    (fuel : Nat) (blk : RawBlock) (nonce : Int) (c : Nat)
    (hsame : ∀ n, blk.SetNonce env n = b.SetNonce env n)
    (hcont : SolvePOW.Continues env b target maxIterations (c + 1) (nonce + 1)) :
    ∃ blk1, (∀ n, blk1.SetNonce env n = b.SetNonce env n) ∧
      SolvePOW.loop env target maxIterations (fuel + 1) blk nonce (U64.wrap c)
        = SolvePOW.loop env target maxIterations fuel blk1 (nonce + 1) (U64.wrap (c + 1)) := by
  obtain ⟨hmax, hseal, hsol⟩ := hcont
  obtain ⟨blk1, hblk1⟩ := SetNonce_of_sealable env b hseal
  refine ⟨blk1, fun n => SetNonce_SetNonce hblk1 n, ?_⟩
  have hpow : ¬ bigCmp (bigEndian (blk1.Hash env).val) target = -1 := by
    intro h
    exact hsol ⟨blk1, hblk1, by simpa [VerifyPOW] using h⟩
  conv_lhs => unfold SolvePOW.loop
  simp only [U64.wrap_succ, hmax, if_false, hsame, hblk1, hpow]

/-- Forward reading of the loop: when the iterations before iteration `j` (counted from 0) go
on and iteration `j` ends the call with `r`, any fuel above `j` gives `r`. -/
theorem SolvePOW.loop_of_ends {env : Env} {b : RawBlock} {target : Int} {maxIterations : U64} :
    ∀ (fuel : Nat) (blk : RawBlock) (nonce : Int) (c j : Nat) (r : SolveResult),
      (∀ n, blk.SetNonce env n = b.SetNonce env n) → j < fuel →
      (∀ j', j' < j →
        SolvePOW.Continues env b target maxIterations (c + j' + 1) (nonce + (j' + 1 : Nat))) →
      SolvePOW.EndsWith env b target maxIterations r (c + j + 1) (nonce + (j + 1 : Nat)) →
      SolvePOW.loop env target maxIterations fuel blk nonce (U64.wrap c) = some r := by
  intro fuel
  induction fuel with
  | zero => intro blk nonce c j r _ hj; omega
  | succ fuel ih =>
    intro blk nonce c j r hsame hj hcont hend
    cases j with
    | zero =>
      simp only [Nat.zero_add, Nat.cast_one, Nat.add_zero] at hend
      unfold SolvePOW.loop
      simp only [U64.wrap_succ]
      cases r with
      | notFound =>
        have hmax : maxIterations < U64.wrap (c + 1) := hend
        simp [hmax]
      | panic =>
        obtain ⟨hmax, hseal⟩ := hend
        have hnone : b.SetNonce env (nonce + 1) = none := SetNonce_eq_none.mpr hseal
        simp [hmax, hsame, hnone]
      | solved m =>
        obtain ⟨hm, hmax, blk1, hblk1, hv⟩ := hend
        have hpow : bigCmp (bigEndian (blk1.Hash env).val) target = -1 := by
          simpa [VerifyPOW] using hv
        simp [hmax, hsame, hblk1, hpow, hm]
    | succ j =>
      have h0 := hcont 0 (by omega)
      simp only [Nat.add_zero, Nat.zero_add, Nat.cast_one] at h0
      obtain ⟨blk1, hsame1, hstep⟩ := SolvePOW.loop_step fuel blk nonce c hsame h0
      rw [hstep]
      have hcast : ∀ k : Nat, nonce + 1 + ((k + 1 : Nat) : Int)
          = nonce + ((k + 1 + 1 : Nat) : Int) := by
        intro k; push_cast; ring
      apply ih blk1 (nonce + 1) (c + 1) j r hsame1 (by omega)
      · intro j' hj'
        have := hcont (j' + 1) (by omega)
        rw [hcast j']
        have hc : c + 1 + j' + 1 = c + (j' + 1) + 1 := by omega
        rw [hc]
        exact this
      · rw [hcast j]
        have hc : c + 1 + j + 1 = c + (j + 1) + 1 := by omega
        rw [hc]
        exact hend

/-- When the fuel runs out, every iteration made went on. -/
theorem SolvePOW.loop_eq_none {env : Env} {b : RawBlock} {target : Int} {maxIterations : U64} :
    ∀ (fuel : Nat) (blk : RawBlock) (nonce : Int) (c : Nat),
      (∀ n, blk.SetNonce env n = b.SetNonce env n) →
      SolvePOW.loop env target maxIterations fuel blk nonce (U64.wrap c) = none →
      ∀ j, j < fuel →
        SolvePOW.Continues env b target maxIterations (c + j + 1) (nonce + (j + 1 : Nat)) := by
  intro fuel
  induction fuel with
  | zero => intro blk nonce c _ _ j hj; omega
  | succ fuel ih =>
    intro blk nonce c hsame h j hj
    have h0 : SolvePOW.Continues env b target maxIterations (c + 1) (nonce + 1) := by
      unfold SolvePOW.loop at h
      simp only [U64.wrap_succ] at h
      split at h
      · exact absurd h (by simp)
      · rename_i hmax
        split at h
        · exact absurd h (by simp)
        · rename_i blk1 hseal
          rw [hsame] at hseal
          split at h
          · exact absurd h (by simp)
          · rename_i hpow
            refine ⟨hmax, (SetNonce_eq_some hseal).1, ?_⟩
            rintro ⟨blk2, hb2, hv⟩
            rw [hseal] at hb2
            have := Option.some.inj hb2
            subst this
            exact hpow (by simpa [VerifyPOW] using hv)
    cases j with
    | zero => simpa using h0
    | succ j =>
      obtain ⟨blk1, hsame1, hstep⟩ := SolvePOW.loop_step fuel blk nonce c hsame h0
      rw [hstep] at h
      have := ih blk1 (nonce + 1) (c + 1) hsame1 h j (by omega)
      have hcast : nonce + 1 + ((j + 1 : Nat) : Int) = nonce + ((j + 1 + 1 : Nat) : Int) := by
        push_cast; ring
      rw [hcast] at this
      have hc : c + 1 + j + 1 = c + (j + 1) + 1 := by omega
      rw [hc] at this
      exact this


theorem SolvePOW_eq_loop (env : Env) (b : RawBlock) (s target : Int) (maxIterations : U64)
    (fuel : Nat) :
    SolvePOW env b s target maxIterations fuel
      = SolvePOW.loop env target maxIterations fuel b s (U64.wrap 0) := rfl

/-- The backward reading of the loop, for a whole call. -/
theorem SolvePOW_eq_some {env : Env} {b : RawBlock} {s target : Int} {maxIterations : U64}
    {fuel : Nat} {r : SolveResult} (h : SolvePOW env b s target maxIterations fuel = some r) :
    ∃ j, j < fuel ∧
      (∀ j', j' < j →
        SolvePOW.Continues env b target maxIterations (j' + 1) (s + (j' + 1 : Nat))) ∧
      SolvePOW.EndsWith env b target maxIterations r (j + 1) (s + (j + 1 : Nat)) := by
  rw [SolvePOW_eq_loop] at h
  obtain ⟨j, hj, hcont, hend⟩ := SolvePOW.loop_eq_some fuel b s 0 r (fun _ => rfl) h
  refine ⟨j, hj, ?_, ?_⟩
  · intro j' hj'
    have := hcont j' hj'
    rwa [Nat.zero_add] at this
  · rwa [Nat.zero_add] at hend

/-- The forward reading of the loop, for a whole call. -/
theorem SolvePOW_of_ends {env : Env} {b : RawBlock} {s target : Int} {maxIterations : U64}
    {fuel : Nat} {r : SolveResult} (j : Nat) (hj : j < fuel)
    (hcont : ∀ j', j' < j →
      SolvePOW.Continues env b target maxIterations (j' + 1) (s + (j' + 1 : Nat)))
    (hend : SolvePOW.EndsWith env b target maxIterations r (j + 1) (s + (j + 1 : Nat))) :
    SolvePOW env b s target maxIterations fuel = some r := by
  rw [SolvePOW_eq_loop]
  apply SolvePOW.loop_of_ends fuel b s 0 j r (fun _ => rfl) hj
  · intro j' hj'
    rw [Nat.zero_add]
    exact hcont j' hj'
  · rw [Nat.zero_add]
    exact hend

/-- The counter test `maxIterations < i` while the counter has not wrapped. -/
theorem U64.lt_wrap_iff (m : U64) (c : Nat) (hc : c < 2 ^ 64) : m < U64.wrap c ↔ m.val < c := by
  have h : (U64.wrap c).val = c := by
    simp only [U64.wrap]
    exact Nat.mod_eq_of_lt hc
  constructor
  · intro hlt
    have : m.val < (U64.wrap c).val := hlt
    rwa [h] at this
  · intro hlt
    show m.val < (U64.wrap c).val
    rwa [h]

/-- With a bound below `2^64 - 1` the call returns within `maxIterations + 1` iterations, the
last of which is the counter test alone. -/
theorem SolvePOW_returns {env : Env} {b : RawBlock} {s target : Int} {maxIterations : U64}
    (hmax : maxIterations.val < 2 ^ 64 - 1) :
    ∃ r, SolvePOW env b s target maxIterations (maxIterations.val + 1) = some r := by
  cases h : SolvePOW env b s target maxIterations (maxIterations.val + 1) with
  | some r => exact ⟨r, rfl⟩
  | none =>
    rw [SolvePOW_eq_loop] at h
    have hc := SolvePOW.loop_eq_none (maxIterations.val + 1) b s 0 (fun _ => rfl) h
      maxIterations.val (by omega)
    have hlt : maxIterations < U64.wrap (0 + maxIterations.val + 1) :=
      (U64.lt_wrap_iff maxIterations _ (by omega)).mpr (by omega)
    exact absurd hlt hc.1

/-- The iteration that ends a call with a bound below `2^64 - 1` is one of the first
`maxIterations + 1`. -/
theorem SolvePOW.ends_le {env : Env} {b : RawBlock} {target : Int} {maxIterations : U64}
    {s : Int} {j : Nat} (hmax : maxIterations.val < 2 ^ 64 - 1)
    (hcont : ∀ j', j' < j →
      SolvePOW.Continues env b target maxIterations (j' + 1) (s + (j' + 1 : Nat))) :
    j ≤ maxIterations.val := by
  by_contra hgt
  have hgt : maxIterations.val < j := by omega
  have hc := hcont maxIterations.val hgt
  exact hc.1 ((U64.lt_wrap_iff maxIterations _ (by omega)).mpr (by omega))

/-- A returned nonce is the first candidate that solves the block, and with a bound below
`2^64 - 1` it is one of the `maxIterations` candidates. -/
theorem SolvePOW_solved_smallest {env : Env} {b : RawBlock} {s target n : Int}
    {maxIterations : U64} {fuel : Nat}
    (h : SolvePOW env b s target maxIterations fuel = some (.solved n)) :
    ∃ k : Nat, 1 ≤ k ∧ n = s + k ∧ Solves env b target n ∧
      (∀ k' : Nat, 1 ≤ k' → k' < k → Sealable (s + k') ∧ ¬ Solves env b target (s + k')) ∧
      (maxIterations.val < 2 ^ 64 - 1 → k ≤ maxIterations.val) := by
  obtain ⟨j, _, hcont, hend⟩ := SolvePOW_eq_some h
  obtain ⟨hn, hnotmax, hsol⟩ := hend
  refine ⟨j + 1, by omega, hn, hn ▸ hsol, ?_, ?_⟩
  · intro k' hk1 hk2
    obtain ⟨j', rfl⟩ : ∃ j', k' = j' + 1 := ⟨k' - 1, by omega⟩
    have := hcont j' (by omega)
    exact ⟨this.2.1, this.2.2⟩
  · intro hmax
    have hle := SolvePOW.ends_le hmax hcont
    by_contra hgt
    have hj : j = maxIterations.val := by omega
    apply hnotmax
    rw [hj]
    exact (U64.lt_wrap_iff maxIterations _ (by omega)).mpr (by omega)

/-- The mirror "SHA-256" of an input that ends in a 32-byte array. -/
theorem mirrorEnv_sha256_append (xs : ByteSeq) (y : Bytes32) :
    mirrorEnv.sha256 (xs ++ y.val) = fixedBE 32 (2 ^ 256 - 1 - bigEndian y.val) := by
  have hlen : (xs ++ y.val).length - 32 = xs.length := by
    rw [List.length_append, y.property]; omega
  show fixedBE 32 (2 ^ 256 - 1 - bigEndian ((xs ++ y.val).drop ((xs ++ y.val).length - 32))) = _
  rw [hlen, List.drop_left]

/-- In the mirror environment the block sealed with the nonce `n < 2^256` has the hash
`2^256 - 1 - n`. -/
theorem mirrorEnv_sealed_hash (b : RawBlock) (n : Nat) (hn : n < 2 ^ 256) :
    bigEndian (RawBlock.Hash mirrorEnv
      { b with Nonce := mirrorEnv.sha256 (fixedBE 32 n).val }).val = 2 ^ 256 - 1 - n := by
  have h256 : 256 ^ 32 = 2 ^ 256 := by norm_num
  have hsha : ∀ y : Bytes32, mirrorEnv.sha256 y.val
      = fixedBE 32 (2 ^ 256 - 1 - bigEndian y.val) := by
    intro y
    have := mirrorEnv_sha256_append [] y
    simpa using this
  have hval : ∀ m : Nat, m < 2 ^ 256 → bigEndian (fixedBE 32 m).val = m := by
    intro m hm
    rw [bigEndian_fixedBE, h256]
    exact Nat.mod_eq_of_lt hm
  unfold RawBlock.Hash RawBlock.Envelope
  rw [mirrorEnv_sha256_append, hsha, hsha, hval n hn, hval _ (by omega), hval _ (by omega),
    hval _ (by omega)]
  omega

/-- In the mirror environment a nonce `0 ≤ n < 2^256` solves a block exactly when
`2^256 - 1 - n` is below the target. -/
theorem mirrorEnv_solves_iff (b : RawBlock) (target : Int) (n : Nat) (hn : n < 2 ^ 256) :
    Solves mirrorEnv b target (n : Int) ↔ ((2 ^ 256 - 1 - n : Nat) : Int) < target := by
  have hseal : b.SetNonce mirrorEnv (n : Int)
      = some { b with Nonce := mirrorEnv.sha256 (fixedBE 32 n).val } := by
    obtain ⟨blk, hblk⟩ := SetNonce_of_sealable mirrorEnv b (n := (n : Int))
      (by simpa [Sealable] using hn)
    have := (SetNonce_eq_some hblk).2
    rw [hblk, this]
    simp
  unfold Solves
  constructor
  · rintro ⟨blk, hblk, hv⟩
    rw [hseal] at hblk
    have := Option.some.inj hblk
    subst this
    simp only [VerifyPOW, decide_eq_true_eq, bigCmp_eq_neg_one_iff] at hv
    rw [mirrorEnv_sealed_hash b n hn] at hv
    exact hv
  · intro hlt
    refine ⟨_, hseal, ?_⟩
    simp only [VerifyPOW, decide_eq_true_eq, bigCmp_eq_neg_one_iff]
    rw [mirrorEnv_sealed_hash b n hn]
    exact hlt

/-- C16. Whenever `SolvePOW(b, s, target, maxIterations)` returns a nonce `n`, sealing the
template `b` with `n` succeeds, the sealed block is `b` with `Nonce` replaced by the SHA-256 of
the 32-byte big-endian encoding of `|n|` and every other field unchanged, and its hash passes
`VerifyPOW` against `target`. -/
theorem SolvePOW_solved_verifies (env : Env) (b : RawBlock) (s target : Int)
    (maxIterations : U64) (fuel : Nat) (n : Int)
    (h : SolvePOW env b s target maxIterations fuel = some (.solved n)) :
    ∃ blk, b.SetNonce env n = some blk ∧
      blk = { b with Nonce := env.sha256 (fixedBE 32 n.natAbs).val } ∧
      VerifyPOW (blk.Hash env) target = true := by
  obtain ⟨j, _, _, hend⟩ := SolvePOW_eq_some h
  obtain ⟨hn, _, blk, hblk, hv⟩ := hend
  rw [← hn] at hblk
  exact ⟨blk, hblk, (SetNonce_eq_some hblk).2, hv⟩

set_option maxRecDepth 100000 in
/-- C16, witness: in the test environment the search from `-3` with target 1 and 10 iterations
returns the nonce 0 (the third candidate), and the block sealed with 0 passes `VerifyPOW`. -/
theorem SolvePOW_solved_verifies_witness :
    SolvePOW testEnv (emptyBlock zero32 0 zero32) (-3) 1 10 11 = some (.solved 0) ∧
    ∃ blk, (emptyBlock zero32 0 zero32).SetNonce testEnv 0 = some blk ∧
      blk = { emptyBlock zero32 0 zero32 with
        Nonce := testEnv.sha256 (fixedBE 32 (0 : Int).natAbs).val } ∧
      VerifyPOW (blk.Hash testEnv) 1 = true :=
  ⟨by decide!,
    SolvePOW_solved_verifies testEnv (emptyBlock zero32 0 zero32) (-3) 1 10 11 0 (by decide!)⟩

/-- With `maxIterations = 2^64 - 1` the loop goes past the bound: when the candidates
`s+1 .. s+2^64-1` are sealed and fail and the candidate `s + 2^64` solves the block, the call
returns `s + 2^64`. -/
theorem SolvePOW_past_maxIterations (env : Env) (b : RawBlock) (s target : Int)
    (hfail : ∀ k : Nat, 1 ≤ k → k ≤ 2 ^ 64 - 1 →
      Sealable (s + k) ∧ ¬ Solves env b target (s + k))
    (hsol : Solves env b target (s + (2 ^ 64 : Nat))) :
    SolvePOW env b s target (U64.wrap (2 ^ 64 - 1)) (2 ^ 64)
      = some (.solved (s + (2 ^ 64 : Nat))) := by
  apply SolvePOW_of_ends (2 ^ 64 - 1) (by norm_num)
  · intro j' hj'
    have := hfail (j' + 1) (by omega) (by omega)
    exact ⟨U64.not_max_lt _, this.1, this.2⟩
  · have h64 : (2 ^ 64 - 1 + 1 : Nat) = 2 ^ 64 := by norm_num
    rw [h64]
    exact ⟨rfl, U64.not_max_lt _, hsol⟩

/-- C17. The counter of `SolvePOW` wraps: with `maxIterations = 2^64 - 1` the test
`maxIterations < i` never holds. Whatever the hash function, the call then never returns the
not-found error, and it returns `s + 2^64`, above `s + maxIterations`, when that is the first
candidate that solves the block. In the mirror environment the search from 0 with target
`2^256 - 2^64` is such a call: it returns the nonce `2^64`. -/
theorem SolvePOW_counter_wraps :
    SolvePOW mirrorEnv (emptyBlock zero32 0 zero32) 0 (2 ^ 256 - 2 ^ 64) (U64.wrap (2 ^ 64 - 1))
        (2 ^ 64) = some (.solved (2 ^ 64)) ∧
    (0 : Int) + ((U64.wrap (2 ^ 64 - 1)).val : Int) < 2 ^ 64 ∧
    (∀ (env : Env) (b : RawBlock) (s target : Int),
      (∀ k : Nat, 1 ≤ k → k ≤ 2 ^ 64 - 1 →
        Sealable (s + k) ∧ ¬ Solves env b target (s + k)) →
      Solves env b target (s + (2 ^ 64 : Nat)) →
      SolvePOW env b s target (U64.wrap (2 ^ 64 - 1)) (2 ^ 64)
        = some (.solved (s + (2 ^ 64 : Nat)))) ∧
    ∀ (env : Env) (b : RawBlock) (s target : Int) (fuel : Nat),
      SolvePOW env b s target (U64.wrap (2 ^ 64 - 1)) fuel ≠ some .notFound := by
  refine ⟨?_, by simp [U64.wrap], SolvePOW_past_maxIterations, ?_⟩
  · have h := SolvePOW_past_maxIterations mirrorEnv (emptyBlock zero32 0 zero32) 0
      (2 ^ 256 - 2 ^ 64) ?_ ?_
    · rw [h]
      norm_num
    · intro k hk1 hk2
      refine ⟨by simp only [Sealable]; norm_num at hk2 ⊢; omega, ?_⟩
      rw [Int.zero_add, mirrorEnv_solves_iff _ _ k (by norm_num at hk2 ⊢; omega)]
      norm_num at hk2 ⊢
      omega
    · rw [Int.zero_add, mirrorEnv_solves_iff _ _ (2 ^ 64) (by norm_num)]
      norm_num
  · intro env b s target fuel h
    obtain ⟨j, _, _, hend⟩ := SolvePOW_eq_some h
    exact U64.not_max_lt _ hend

/-- C18, counterexample. From the start nonce `2^256 - 1` with `maxIterations = 1` and target 0
no candidate yields a hash below the target, yet the call does not return the not-found error:
the only candidate, `2^256`, does not fit the 32-byte buffer of `SetNonce` and the call
panics. -/
theorem SolvePOW_notFound_counterexample :
    (∀ k : Nat, 1 ≤ k → k ≤ 1 →
      ¬ Solves testEnv (emptyBlock zero32 0 zero32) 0 (2 ^ 256 - 1 + (k : Int))) ∧
    SolvePOW testEnv (emptyBlock zero32 0 zero32) (2 ^ 256 - 1) 0 1 2 = some .panic ∧
    ∀ (env : Env) (b : RawBlock) (target : Int) (fuel : Nat),
      SolvePOW env b (2 ^ 256 - 1) target 1 fuel ≠ some .notFound := by
  have hseal : ¬ Sealable ((2 : Int) ^ 256 - 1 + ((0 + 1 : Nat) : Int)) := by
    simp only [Sealable]
    norm_num
  refine ⟨?_, ?_, ?_⟩
  · intro k hk1 hk2
    obtain rfl : k = 0 + 1 := by omega
    rintro ⟨blk, hblk, _⟩
    exact hseal (SetNonce_eq_some hblk).1
  · apply SolvePOW_of_ends 0 (by norm_num)
    · intro j' hj'; omega
    · refine ⟨?_, hseal⟩
      rw [U64.lt_wrap_iff _ _ (by norm_num)]
      decide
  · intro env b target fuel h
    obtain ⟨j, _, hcont, hend⟩ := SolvePOW_eq_some h
    have hj : j ≤ 1 := SolvePOW.ends_le (by decide) hcont
    have hend : (1 : U64) < U64.wrap (j + 1) := hend
    rw [U64.lt_wrap_iff _ _ (by omega)] at hend
    have h1 : (1 : U64).val = 1 := rfl
    rw [h1] at hend
    have hj1 : j = 1 := by omega
    subst hj1
    exact hseal (hcont 0 (by omega)).2.1

/-- C18, amended. With `maxIterations < 2^64 - 1`, `SolvePOW(b, s, target, maxIterations)`
returns within `maxIterations + 1` iterations of its loop (at most `maxIterations` hash
attempts and a last counter test), more fuel does not change the result, and the result is the
not-found error if and only if each of the candidates `s+1 .. s+maxIterations` fits the
32-byte buffer of `SetNonce` and none of them yields a block hash below the target; in
particular the call fails with not-found when `maxIterations` is 0. -/
theorem SolvePOW_notFound_iff (env : Env) (b : RawBlock) (s target : Int) (maxIterations : U64)
    (hmax : maxIterations.val < 2 ^ 64 - 1) :
    ∃ r, SolvePOW env b s target maxIterations (maxIterations.val + 1) = some r ∧
      (∀ fuel, maxIterations.val + 1 ≤ fuel →
        SolvePOW env b s target maxIterations fuel = some r) ∧
      (r = .notFound ↔ ∀ k : Nat, 1 ≤ k → k ≤ maxIterations.val →
        Sealable (s + k) ∧ ¬ Solves env b target (s + k)) ∧
      (maxIterations.val = 0 → r = .notFound) := by
  obtain ⟨r, hr⟩ := @SolvePOW_returns env b s target maxIterations hmax
  obtain ⟨j, hj, hcont, hend⟩ := SolvePOW_eq_some hr
  have hiff : r = .notFound ↔ ∀ k : Nat, 1 ≤ k → k ≤ maxIterations.val →
      Sealable (s + k) ∧ ¬ Solves env b target (s + k) := by
    constructor
    · intro hnf k hk1 hk2
      subst hnf
      have hend : maxIterations < U64.wrap (j + 1) := hend
      rw [U64.lt_wrap_iff _ _ (by omega)] at hend
      obtain ⟨j', rfl⟩ : ∃ j', k = j' + 1 := ⟨k - 1, by omega⟩
      have := hcont j' (by omega)
      exact ⟨this.2.1, this.2.2⟩
    · intro hall
      cases r with
      | notFound => rfl
      | solved m =>
        obtain ⟨_, hnot, hsol⟩ := hend
        rw [U64.lt_wrap_iff _ _ (by omega)] at hnot
        exact absurd hsol (hall (j + 1) (by omega) (by omega)).2
      | panic =>
        obtain ⟨hnot, hseal⟩ := hend
        rw [U64.lt_wrap_iff _ _ (by omega)] at hnot
        exact absurd (hall (j + 1) (by omega) (by omega)).1 hseal
  refine ⟨r, hr, ?_, hiff, ?_⟩
  · intro fuel hfuel
    exact SolvePOW_of_ends j (by omega) hcont hend
  · intro h0
    apply hiff.mpr
    intro k hk1 hk2
    omega

set_option maxRecDepth 100000 in
/-- C18, witness: in the test environment with target 0 and `maxIterations = 10` the call
returns the not-found error. -/
theorem SolvePOW_notFound_iff_witness :
    (10 : U64).val < 2 ^ 64 - 1 ∧
    ∃ r, SolvePOW testEnv (emptyBlock zero32 0 zero32) 0 0 10 ((10 : U64).val + 1) = some r ∧
      (∀ fuel, (10 : U64).val + 1 ≤ fuel →
        SolvePOW testEnv (emptyBlock zero32 0 zero32) 0 0 10 fuel = some r) ∧
      (r = .notFound ↔ ∀ k : Nat, 1 ≤ k → k ≤ (10 : U64).val →
        Sealable ((0 : Int) + k) ∧ ¬ Solves testEnv (emptyBlock zero32 0 zero32) 0 (0 + k)) ∧
      ((10 : U64).val = 0 → r = .notFound) :=
  ⟨by decide, SolvePOW_notFound_iff testEnv (emptyBlock zero32 0 zero32) 0 0 10 (by decide)⟩


/-! ## C12: the current tip -/

theorem bigEndian_cons (x : Byte) (xs : ByteSeq) :
    bigEndian (x :: xs) = x.val * 256 ^ xs.length + bigEndian xs := by
  have h := bigEndian_append [x] xs
  have h1 : bigEndian [x] = x.val := by simp [bigEndian]
  rw [h1] at h
  exact h

/-- On blobs of equal length the order of SQLite is the order of the big-endian values. -/
theorem blobLt_iff : ∀ (a b : ByteSeq), a.length = b.length →
    (blobLt a b = true ↔ bigEndian a < bigEndian b)
  | [], [], _ => by simp [blobLt, bigEndian]
  | [], _ :: _, h => by simp at h
  | _ :: _, [], h => by simp at h
  | x :: xs, y :: ys, h => by
    have hlen : xs.length = ys.length := by simpa using h
    have ih := blobLt_iff xs ys hlen
    have hx := bigEndian_lt xs
    have hy := bigEndian_lt ys
    rw [bigEndian_cons, bigEndian_cons]
    rw [hlen] at hx ⊢
    unfold blobLt
    by_cases h1 : x < y
    · have h1v : x.val + 1 ≤ y.val := h1
      have := Nat.mul_le_mul_right (256 ^ ys.length) h1v
      simp only [h1, if_true, true_iff]
      rw [Nat.add_mul, Nat.one_mul] at this
      omega
    · by_cases h2 : y < x
      · have h2v : y.val + 1 ≤ x.val := h2
        have := Nat.mul_le_mul_right (256 ^ ys.length) h2v
        rw [Nat.add_mul, Nat.one_mul] at this
        simp only [h1, h2, if_false, if_true, Bool.false_eq_true, false_iff]
        omega
      · have hxy : x = y := by
          apply Fin.ext
          have h1v : ¬ x.val < y.val := h1
          have h2v : ¬ y.val < x.val := h2
          omega
        subst hxy
        simp only [h1, if_false, ih]
        omega

/-- The row `order by acc_work desc limit 1` selects, when every `acc_work` is a 32-byte blob:
a row of maximal value and, among those, the one at the least index. -/
theorem topAccWork_spec : ∀ (l : List BlockRow), (∀ r ∈ l, r.acc_work.length = 32) → l ≠ [] →
    ∃ (i : Nat) (r : BlockRow), l[i]? = some r ∧ topAccWork l = some r ∧
      ∀ (j : Nat) (r' : BlockRow), l[j]? = some r' → bigEndian r'.acc_work ≤ bigEndian r.acc_work ∧
        (bigEndian r'.acc_work = bigEndian r.acc_work → i ≤ j)
  | [], _, h => absurd rfl h
  | r :: rest, hlen, _ => by
    by_cases hrest : rest = []
    · subst hrest
      refine ⟨0, r, rfl, rfl, ?_⟩
      intro j r' hj
      cases j with
      | zero =>
        have : r = r' := by simpa using hj
        subst this
        exact ⟨le_refl _, fun _ => le_refl _⟩
      | succ j => simp at hj
    · obtain ⟨i, m, hi, htop, hmax⟩ :=
        topAccWork_spec rest (fun x hx => hlen x (List.mem_cons_of_mem _ hx)) hrest
      have hm_mem : m ∈ rest := List.mem_iff_getElem?.mpr ⟨i, hi⟩
      have hiff := blobLt_iff r.acc_work m.acc_work
        (by rw [hlen r (List.mem_cons_self _ _), hlen m (List.mem_cons_of_mem _ hm_mem)])
      by_cases hlt : blobLt r.acc_work m.acc_work = true
      · refine ⟨i + 1, m, by simpa using hi, by simp [topAccWork, htop, hlt], ?_⟩
        have hlt' := hiff.mp hlt
        intro j r' hj
        cases j with
        | zero =>
          have : r = r' := by simpa using hj
          subst this
          exact ⟨by omega, fun h => by omega⟩
        | succ j =>
          have := hmax j r' (by simpa using hj)
          exact ⟨this.1, fun h => by have := this.2 h; omega⟩
      · refine ⟨0, r, by simp, by simp [topAccWork, htop, hlt], ?_⟩
        have hge : bigEndian m.acc_work ≤ bigEndian r.acc_work := by
          have := mt hiff.mpr hlt
          omega
        intro j r' hj
        cases j with
        | zero =>
          have : r = r' := by simpa using hj
          subst this
          exact ⟨le_refl _, fun _ => le_refl _⟩
        | succ j =>
          have := hmax j r' (by simpa using hj)
          exact ⟨by omega, fun _ => Nat.zero_le _⟩

/-- The statement `select ... from blocks where hash = ?` finds the row itself when the
hashes are pairwise distinct. -/
theorem find?_hash_of_nodup : ∀ {l : List BlockRow}, (l.map BlockRow.hash).Nodup →
    ∀ {r : BlockRow}, r ∈ l → l.find? (fun x => decide (x.hash = r.hash)) = some r
  | [], _, _, hr => by simp at hr
  | x :: xs, hnd, r, hr => by
    have hnd' : x.hash ∉ xs.map BlockRow.hash ∧ (xs.map BlockRow.hash).Nodup := by
      simpa using hnd
    by_cases hx : x.hash = r.hash
    · have hxr : x = r := by
        rcases List.mem_cons.mp hr with h | h
        · exact h.symm
        · exact absurd (hx ▸ List.mem_map_of_mem BlockRow.hash h) hnd'.1
      subst hxr
      simp [List.find?]
    · have hr' : r ∈ xs := by
        rcases List.mem_cons.mp hr with h | h
        · exact absurd (by rw [h]) hx
        · exact h
      have := find?_hash_of_nodup hnd'.2 hr'
      simp [List.find?, hx, this]

theorem copyInto_of_length {n : Nat} (src : ByteSeq) (h : src.length = n) :
    (copyInto n src).val = src := by
  rw [copyInto_short src (by omega), h, Nat.sub_self, List.replicate_zero, List.append_nil]

/-- The genesis rows are 32-byte blobs. -/
theorem initialiseBlockDAG_empty_lengths {env : Env} {cfg : ConsensusConfig} {db : Store}
    (H : initialiseBlockDAG env cfg Store.empty = (.ok, db)) :
    ∀ r ∈ db.blocks, r.hash.length = 32 ∧ r.acc_work.length = 32 := by
  unfold initialiseBlockDAG at H
  simp only [] at H
  split at H
  · exact absurd (congrArg Prod.fst H) (by simp)
  · simp only [Store.empty, List.any_nil, Bool.false_eq_true, if_false, Store.insertEpoch,
      Store.insertBlock, List.nil_append] at H
    split at H
    · exact absurd (congrArg Prod.fst H) (by simp)
    · rename_i buf hbuf
      have hdb := (congrArg Prod.snd H).symm
      simp only at hdb
      subst hdb
      intro r hr
      have hr : r = _ := List.mem_singleton.mp hr
      subst hr
      have hlen : buf.val.length = 32 := buf.property
      exact ⟨cfg.GenesisBlockHash.property, by simp [PadBytes, hlen]⟩

/-- Every database a node can hold has well-formed block rows. -/
theorem Reachable.blocksWellFormed {env : Env} {cfg : ConsensusConfig} {db : Store}
    (h : Reachable env cfg db) : BlocksWellFormed db := by
  have hlen : ∀ r ∈ db.blocks, r.hash.length = 32 ∧ r.acc_work.length = 32 := by
    induction h with
    | init h => exact initialiseBlockDAG_empty_lengths h
    | @ingest db _ raw ih =>
      have H : IngestBlock env cfg db raw
          = ((IngestBlock env cfg db raw).1, (IngestBlock env cfg db raw).2) := rfl
      rcases IngestBlock_effect H with h | ⟨parent, prev, newD, _, _, _, _, h⟩ |
        ⟨_, parent, prev, epoch, db1, buf, hA, h⟩
      · rw [h]; exact ih
      · rw [h]; exact ih
      · rw [h]
        have hb1 : db1.blocks = db.blocks := by
          rcases hA.select with ⟨_, _, hdb1⟩ | ⟨_, _, _, _, _, hdb1⟩ <;> rw [hdb1]
        intro r hr
        simp only [committed, hb1] at hr
        rcases List.mem_append.mp hr with hr | hr
        · exact ih r hr
        · rw [List.mem_singleton.mp hr]
          exact ⟨(raw.Hash env).property, buf.property⟩
  exact ⟨fun r hr => (hlen r hr).1, fun r hr => (hlen r hr).2, h.storeInv.nodup⟩

/-- The tip of a non-empty database with well-formed block rows. -/
theorem GetCurrentTip_of_wellFormed {db : Store} (hne : db.blocks ≠ [])
    (hwf : BlocksWellFormed db) :
    ∃ (i : Nat) (r : BlockRow) (blk : Block), db.blocks[i]? = some r ∧ GetCurrentTip db = .ok blk ∧
      GetBlockByHash db (copyInto 32 r.hash) = some blk ∧
      blk.Hash.val = r.hash ∧ blk.AccumulatedWork = r.accWork ∧
      ∀ (j : Nat) (r' : BlockRow), db.blocks[j]? = some r' →
        r'.accWork ≤ r.accWork ∧ (r'.accWork = r.accWork → i ≤ j) := by
  obtain ⟨i, r, hi, htop, hmax⟩ := topAccWork_spec db.blocks hwf.acc_len hne
  have hr : r ∈ db.blocks := List.mem_iff_getElem?.mpr ⟨i, hi⟩
  have hhash : (copyInto 32 r.hash).val = r.hash := copyInto_of_length _ (hwf.hash_len r hr)
  have hfind := find?_hash_of_nodup hwf.nodup hr
  have hacc : ∀ x ∈ db.blocks, x.accWork = bigEndian x.acc_work := by
    intro x hx
    simp only [BlockRow.accWork, Bytes32ToBigInt, copyInto_of_length _ (hwf.acc_len x hx)]
  have hget : GetBlockByHash db (copyInto 32 r.hash) = some
      { ParentHash := copyInto 32 r.parent_hash
        ParentTotalWork := 0
        Timestamp := r.timestamp
        NumTransactions := r.num_transactions
        TransactionsMerkleRoot := copyInto 32 r.transactions_merkle_root
        Nonce := copyInto 32 r.nonce
        Graffiti := zero32
        Transactions := []
        Height := r.height
        Epoch := r.epoch
        Work := 0
        SizeBytes := r.size_bytes
        Hash := copyInto 32 r.hash
        AccumulatedWork := Bytes32ToBigInt (copyInto 32 r.acc_work) } := by
    unfold GetBlockByHash
    rw [hhash, hfind]
  refine ⟨i, r, _, hi, ?_, hget, hhash, rfl, ?_⟩
  · unfold GetCurrentTip
    rw [htop]
    simp only [hget]
  · intro j r' hj
    have hr' : r' ∈ db.blocks := List.mem_iff_getElem?.mpr ⟨j, hj⟩
    rw [hacc r hr, hacc r' hr']
    exact hmax j r' hj

/-- C12. `GetCurrentTip` returns the error "No blocks found." exactly when table `blocks` is
empty. On a non-empty database whose block rows are as `initialiseBlockDAG` and `IngestBlock`
write them (32-byte `hash` and `acc_work`, distinct hashes) it returns the block of a stored
row `r`, at index `i` in insertion order, such that every stored row has an accumulated work
at most that of `r`, and every row with the same accumulated work as `r` was inserted at an
index `j ≥ i`. -/
theorem GetCurrentTip_max_first (db : Store) :
    (GetCurrentTip db = .error .noBlocksFound ↔ db.blocks = []) ∧
    (db.blocks ≠ [] → BlocksWellFormed db →
      ∃ (i : Nat) (r : BlockRow) (blk : Block), db.blocks[i]? = some r ∧ GetCurrentTip db = .ok blk ∧
        GetBlockByHash db (copyInto 32 r.hash) = some blk ∧
        blk.Hash.val = r.hash ∧ blk.AccumulatedWork = r.accWork ∧
        ∀ (j : Nat) (r' : BlockRow), db.blocks[j]? = some r' →
          r'.accWork ≤ r.accWork ∧ (r'.accWork = r.accWork → i ≤ j)) := by
  refine ⟨?_, fun hne hwf => GetCurrentTip_of_wellFormed hne hwf⟩
  constructor
  · intro h
    unfold GetCurrentTip at h
    cases hb : db.blocks with
    | nil => rfl
    | cons r rest =>
      exfalso
      rw [hb] at h
      have htop : ∃ m, topAccWork (r :: rest) = some m := by
        unfold topAccWork
        split
        · exact ⟨_, rfl⟩
        · split <;> exact ⟨_, rfl⟩
      obtain ⟨m, hm⟩ := htop
      rw [hm] at h
      simp only at h
      split at h <;> simp at h
  · intro h
    unfold GetCurrentTip
    rw [h]
    rfl

theorem storeTie_wellFormed : BlocksWellFormed storeTie :=
  ⟨by decide, by decide, by decide⟩

set_option maxRecDepth 100000 in
/-- C12, witness: in the database `storeTie` (accumulated work 5, 9, 9 in insertion order) the
tip is the block with hash 2, the first of the two of maximal work. -/
theorem GetCurrentTip_max_first_witness :
    storeTie.blocks ≠ [] ∧ BlocksWellFormed storeTie ∧
    (∃ blk, GetCurrentTip storeTie = .ok blk ∧ blk.Hash = fixedBE 32 2 ∧
      blk.AccumulatedWork = 9) ∧
    ∃ (i : Nat) (r : BlockRow) (blk : Block), storeTie.blocks[i]? = some r ∧ GetCurrentTip storeTie = .ok blk ∧
      GetBlockByHash storeTie (copyInto 32 r.hash) = some blk ∧
      blk.Hash.val = r.hash ∧ blk.AccumulatedWork = r.accWork ∧
      ∀ (j : Nat) (r' : BlockRow), storeTie.blocks[j]? = some r' →
        r'.accWork ≤ r.accWork ∧ (r'.accWork = r.accWork → i ≤ j) :=
  ⟨by decide, storeTie_wellFormed, ⟨_, rfl, by decide!, by decide!⟩,
    (GetCurrentTip_max_first storeTie).2 (by decide) storeTie_wellFormed⟩


/-! ## C13, C14: initialisation -/

/-- With a genesis difficulty that fits 32 bytes, `initialiseBlockDAG` succeeds on an empty
database. -/
theorem initialiseBlockDAG_empty_ok (env : Env) (cfg : ConsensusConfig)
    (hd : cfg.GenesisDifficulty < 2 ^ 256) :
    ∃ db, initialiseBlockDAG env cfg Store.empty = (.ok, db) := by
  have h1 : BigIntToBytes32 cfg.GenesisDifficulty = some (fixedBE 32 cfg.GenesisDifficulty) := by
    unfold BigIntToBytes32 fillBytes32
    rw [if_pos hd]
  have h2 : BigIntToBytes32 1 = some (fixedBE 32 1) := by
    simp [BigIntToBytes32, fillBytes32]
  unfold initialiseBlockDAG
  simp only [h1, h2, Store.empty, List.any_nil, Bool.false_eq_true, if_false, Store.insertEpoch,
    Store.insertBlock, List.nil_append]
  exact ⟨_, rfl⟩

/-- When the genesis row is there, `initialiseBlockDAG` changes nothing and returns no error. -/
theorem initialiseBlockDAG_of_genesis {env : Env} {cfg : ConsensusConfig} {db : Store}
    (h : ∃ r ∈ db.blocks, r.hash = cfg.GenesisBlockHash.val) :
    (initialiseBlockDAG env cfg db).2 = db ∧
    (∀ e, (initialiseBlockDAG env cfg db).1 ≠ .error e) ∧
    (cfg.GenesisDifficulty < 2 ^ 256 → initialiseBlockDAG env cfg db = (.ok, db)) := by
  have hany : db.blocks.any (fun b => decide (b.hash = cfg.GenesisBlockHash.val)) = true := by
    obtain ⟨r, hr, hrh⟩ := h
    exact List.any_eq_true.mpr ⟨r, hr, by simpa using hrh⟩
  unfold initialiseBlockDAG
  simp only [hany, if_true]
  refine ⟨?_, ?_, ?_⟩
  · split <;> rfl
  · intro e
    split <;> simp
  · intro hd
    have h1 : BigIntToBytes32 cfg.GenesisDifficulty
        = some (fixedBE 32 cfg.GenesisDifficulty) := by
      unfold BigIntToBytes32 fillBytes32
      rw [if_pos hd]
    simp only [h1]

/-- C13. When the genesis difficulty fits 32 bytes, `initialiseBlockDAG` succeeds on an empty
database and leaves exactly one epoch row `e`, one block row `g` and no transaction row: `g`
has the configured genesis hash, height 0, the all-zero parent hash, zero transactions, an
`acc_work` that denotes 1, and the epoch id of `e`; `e` has the id
`GetIdForEpoch(genesis hash, 0)`, the genesis hash as start block, start height 0, start time
0, and as difficulty the bytes of `GenesisDifficulty`; `GetCurrentTip` then returns the genesis
block, with hash the genesis hash, height 0 and accumulated work 1. -/
theorem initialiseBlockDAG_genesis (env : Env) (cfg : ConsensusConfig)
    (hd : cfg.GenesisDifficulty < 2 ^ 256) :
    ∃ (db : Store) (e : EpochRow) (g : BlockRow) (blk : Block),
      initialiseBlockDAG env cfg Store.empty = (.ok, db) ∧
      db.epochs = [e] ∧ db.blocks = [g] ∧ db.transactions = [] ∧
      g.hash = cfg.GenesisBlockHash.val ∧ g.height = 0 ∧ g.parent_hash = zero32.val ∧
      g.num_transactions = 0 ∧ g.accWork = 1 ∧ g.epoch = e.id ∧
      e.id = GetIdForEpoch cfg.GenesisBlockHash 0 ∧
      e.start_block_hash = cfg.GenesisBlockHash.val ∧ e.start_height = 0 ∧ e.start_time = 0 ∧
      e.difficulty = bigBytes cfg.GenesisDifficulty ∧
      bigEndian e.difficulty = cfg.GenesisDifficulty ∧
      GetCurrentTip db = .ok blk ∧ blk.Hash = cfg.GenesisBlockHash ∧ blk.Height = 0 ∧
      blk.ParentHash = zero32 ∧ blk.NumTransactions = 0 ∧ blk.AccumulatedWork = 1 ∧
      blk.Epoch = GetIdForEpoch cfg.GenesisBlockHash 0 := by
  obtain ⟨db, hdb⟩ := initialiseBlockDAG_empty_ok env cfg hd
  obtain ⟨⟨e, he, hid, hsbh, hsh, hst, hdiff⟩, ⟨g, hg, hgh, hgp, hgH, hgn, hge, hga⟩, htx⟩ :=
    initialiseBlockDAG_empty hdb
  have hfh : copyInto 32 g.hash = cfg.GenesisBlockHash := by rw [hgh, copyInto_val]
  have hv : (copyInto 32 g.hash).val = g.hash := by rw [hfh, hgh]
  have hfind : db.blocks.find? (fun x => decide (x.hash = g.hash)) = some g :=
    find?_hash_of_nodup (by rw [hg]; simp) (by rw [hg]; simp)
  obtain ⟨blk, hget, hbH, hbHt, hbP, hbN, hbA, hbE⟩ :
      ∃ blk, GetBlockByHash db (copyInto 32 g.hash) = some blk ∧
        blk.Hash = copyInto 32 g.hash ∧ blk.Height = g.height ∧
        blk.ParentHash = copyInto 32 g.parent_hash ∧
        blk.NumTransactions = g.num_transactions ∧
        blk.AccumulatedWork = Bytes32ToBigInt (copyInto 32 g.acc_work) ∧
        blk.Epoch = g.epoch := by
    unfold GetBlockByHash
    rw [hv, hfind]
    exact ⟨_, rfl, rfl, rfl, rfl, rfl, rfl, rfl⟩
  have htip : GetCurrentTip db = .ok blk := by
    unfold GetCurrentTip
    rw [hg]
    simp only [topAccWork, hget]
  refine ⟨db, e, g, blk, hdb, he, hg, htx, hgh, hgH, hgp, hgn, hga, by rw [hge, hid], hid, hsbh,
    hsh, hst, hdiff, by rw [hdiff, bigEndian_bigBytes], htip, by rw [hbH, hfh],
    by rw [hbHt, hgH], ?_, by rw [hbN, hgn], by rw [hbA, hga], by rw [hbE, hge]⟩
  rw [hbP, hgp, copyInto_val]

/-- C13, witness: the S4 configuration, whose genesis difficulty is below `2^256`. -/
theorem initialiseBlockDAG_genesis_witness :
    cfgS4.GenesisDifficulty < 2 ^ 256 ∧
    ∃ (db : Store) (e : EpochRow) (g : BlockRow) (blk : Block),
      initialiseBlockDAG testEnv cfgS4 Store.empty = (.ok, db) ∧
      db.epochs = [e] ∧ db.blocks = [g] ∧ db.transactions = [] ∧
      g.hash = cfgS4.GenesisBlockHash.val ∧ g.height = 0 ∧ g.parent_hash = zero32.val ∧
      g.num_transactions = 0 ∧ g.accWork = 1 ∧ g.epoch = e.id ∧
      e.id = GetIdForEpoch cfgS4.GenesisBlockHash 0 ∧
      e.start_block_hash = cfgS4.GenesisBlockHash.val ∧ e.start_height = 0 ∧
      e.start_time = 0 ∧
      e.difficulty = bigBytes cfgS4.GenesisDifficulty ∧
      bigEndian e.difficulty = cfgS4.GenesisDifficulty ∧
      GetCurrentTip db = .ok blk ∧ blk.Hash = cfgS4.GenesisBlockHash ∧ blk.Height = 0 ∧
      blk.ParentHash = zero32 ∧ blk.NumTransactions = 0 ∧ blk.AccumulatedWork = 1 ∧
      blk.Epoch = GetIdForEpoch cfgS4.GenesisBlockHash 0 :=
  ⟨by decide, initialiseBlockDAG_genesis testEnv cfgS4 (by decide)⟩

/-- C14. On a database that holds a block row under the configured genesis hash,
`initialiseBlockDAG` leaves the database as it is and returns no error (it returns `nil`
whenever the genesis difficulty fits 32 bytes); and running it on the database that a first
run left on an empty database changes nothing. -/
theorem initialiseBlockDAG_idempotent (env : Env) (cfg : ConsensusConfig) (db : Store)
    (h : ∃ r ∈ db.blocks, r.hash = cfg.GenesisBlockHash.val) :
    (initialiseBlockDAG env cfg db).2 = db ∧
    (∀ e, (initialiseBlockDAG env cfg db).1 ≠ .error e) ∧
    (cfg.GenesisDifficulty < 2 ^ 256 → initialiseBlockDAG env cfg db = (.ok, db)) ∧
    (initialiseBlockDAG env cfg (initialiseBlockDAG env cfg Store.empty).2).2
      = (initialiseBlockDAG env cfg Store.empty).2 ∧
    (cfg.GenesisDifficulty < 2 ^ 256 →
      initialiseBlockDAG env cfg (initialiseBlockDAG env cfg Store.empty).2
        = initialiseBlockDAG env cfg Store.empty) := by
  obtain ⟨h1, h2, h3⟩ := @initialiseBlockDAG_of_genesis env cfg db h
  refine ⟨h1, h2, h3, ?_, ?_⟩
  · by_cases hd : cfg.GenesisDifficulty < 2 ^ 256
    · obtain ⟨db0, hdb0⟩ := initialiseBlockDAG_empty_ok env cfg hd
      obtain ⟨_, ⟨g, hg, hgh, _⟩, _⟩ := initialiseBlockDAG_empty hdb0
      rw [hdb0]
      exact (@initialiseBlockDAG_of_genesis env cfg db0 ⟨g, by rw [hg]; simp, hgh⟩).1
    · have hp : ∀ d : Store, initialiseBlockDAG env cfg d = (.panic, d) := by
        intro d
        have h0 : BigIntToBytes32 cfg.GenesisDifficulty = none := by
          unfold BigIntToBytes32 fillBytes32
          rw [if_neg hd]
        unfold initialiseBlockDAG
        simp only [h0]
      rw [hp Store.empty, hp Store.empty]
  · intro hd
    obtain ⟨db0, hdb0⟩ := initialiseBlockDAG_empty_ok env cfg hd
    obtain ⟨_, ⟨g, hg, hgh, _⟩, _⟩ := initialiseBlockDAG_empty hdb0
    rw [hdb0]
    exact (@initialiseBlockDAG_of_genesis env cfg db0 ⟨g, by rw [hg]; simp, hgh⟩).2.2 hd

set_option maxRecDepth 100000 in
/-- C14, witness: the database of the S4 chain with three blocks. -/
theorem initialiseBlockDAG_idempotent_witness :
    (∃ r ∈ storeS4b.blocks, r.hash = cfgS4.GenesisBlockHash.val) ∧
    (initialiseBlockDAG testEnv cfgS4 storeS4b).2 = storeS4b ∧
    (∀ e, (initialiseBlockDAG testEnv cfgS4 storeS4b).1 ≠ .error e) ∧
    (cfgS4.GenesisDifficulty < 2 ^ 256 →
      initialiseBlockDAG testEnv cfgS4 storeS4b = (.ok, storeS4b)) ∧
    (initialiseBlockDAG testEnv cfgS4 (initialiseBlockDAG testEnv cfgS4 Store.empty).2).2
      = (initialiseBlockDAG testEnv cfgS4 Store.empty).2 ∧
    (cfgS4.GenesisDifficulty < 2 ^ 256 →
      initialiseBlockDAG testEnv cfgS4 (initialiseBlockDAG testEnv cfgS4 Store.empty).2
        = initialiseBlockDAG testEnv cfgS4 Store.empty) :=
  ⟨by decide!, initialiseBlockDAG_idempotent testEnv cfgS4 storeS4b (by decide!)⟩

/-! ## C11: the cached tip -/

set_option maxRecDepth 100000 in
/-- C11. `BlockDAG.IngestBlock` never assigns the cached `Tip` and never calls `OnNewTip`. On a
node created on an empty database with the S4 configuration, whose cached tip is `Block{}` with
accumulated work 0, the block `blockS4a` is ingested successfully and is stored with an
accumulated work above 0, it is the block `GetCurrentTip` returns afterwards, yet the cached
`Tip` is still `Block{}` and no call of `OnNewTip` was made. -/
theorem BlockDAG_IngestBlock_keeps_Tip :
    (∀ (env : Env) (cfg : ConsensusConfig) (dag : BlockDAG) (raw : RawBlock),
      (BlockDAG.IngestBlock env cfg dag raw).2.1.Tip = dag.Tip ∧
      (BlockDAG.IngestBlock env cfg dag raw).2.2 = []) ∧
    dagS4.Tip = Block.zero ∧
    (BlockDAG.IngestBlock testEnv cfgS4 dagS4 blockS4a).1 = .ok ∧
    (∃ blk, GetCurrentTip (BlockDAG.IngestBlock testEnv cfgS4 dagS4 blockS4a).2.1.db = .ok blk ∧
      blk.Hash = blockS4a.Hash testEnv ∧
      dagS4.Tip.AccumulatedWork < blk.AccumulatedWork) ∧
    (BlockDAG.IngestBlock testEnv cfgS4 dagS4 blockS4a).2.1.Tip = Block.zero ∧
    (BlockDAG.IngestBlock testEnv cfgS4 dagS4 blockS4a).2.1.Tip.Hash ≠ blockS4a.Hash testEnv ∧
    (BlockDAG.IngestBlock testEnv cfgS4 dagS4 blockS4a).2.2 = [] :=
  ⟨fun _ _ _ _ => ⟨rfl, rfl⟩, by decide!, by decide!, ⟨_, rfl, by decide!, by decide!⟩,
    by decide!, by decide!, by decide!⟩


/-! ## C25, C26, C27, C28: the canonical encodings -/

/-- The bytes at offset `a`, `n` of them, of a string that is `pre ++ mid ++ post` with `pre` of
length `a` and `mid` of length `n`. -/
theorem slice_append {pre mid post : ByteSeq} {a n : Nat} (h1 : pre.length = a)
    (h2 : mid.length = n) : ((pre ++ mid ++ post).drop a).take n = mid := by
  rw [List.append_assoc, List.drop_left' h1, List.take_left' h2]

theorem bigEndian_putUint64 (x : U64) : bigEndian (putUint64 x) = x.val := by
  rw [putUint64, bigEndian_fixedBE]
  have h : (256 : Nat) ^ 8 = 2 ^ 64 := by norm_num
  rw [h]
  exact Nat.mod_eq_of_lt x.isLt

theorem RawBlock_Envelope_length (b : RawBlock) : b.Envelope.length = 112 := by
  simp [RawBlock.Envelope, putUint64_length, b.ParentHash.property,
    b.TransactionsMerkleRoot.property, b.Nonce.property]

/-- C25. The envelope of a block has 112 bytes: `ParentHash` at offset 0, the 8 big-endian
bytes of `Timestamp` at offset 32, the 8 big-endian bytes of `NumTransactions` at offset 40,
`TransactionsMerkleRoot` at offset 48 and `Nonce` at offset 80; the hash of the block is the
SHA-256 of the SHA-256 of the envelope, so a block that agrees with `b` on these five fields
has the hash of `b`, whatever its other fields and its transactions. -/
theorem RawBlock_Envelope_layout (env : Env) (b : RawBlock) :
    b.Envelope.length = 112 ∧
    b.Envelope.take 32 = b.ParentHash.val ∧
    (b.Envelope.drop 32).take 8 = putUint64 b.Timestamp ∧
    (b.Envelope.drop 40).take 8 = putUint64 b.NumTransactions ∧
    (b.Envelope.drop 48).take 32 = b.TransactionsMerkleRoot.val ∧
    b.Envelope.drop 80 = b.Nonce.val ∧
    (putUint64 b.Timestamp).length = 8 ∧ bigEndian (putUint64 b.Timestamp) = b.Timestamp.val ∧
    (putUint64 b.NumTransactions).length = 8 ∧
    bigEndian (putUint64 b.NumTransactions) = b.NumTransactions.val ∧
    b.Hash env = env.sha256 (env.sha256 b.Envelope).val ∧
    ∀ b' : RawBlock, b'.ParentHash = b.ParentHash → b'.Timestamp = b.Timestamp →
      b'.NumTransactions = b.NumTransactions →
      b'.TransactionsMerkleRoot = b.TransactionsMerkleRoot → b'.Nonce = b.Nonce →
      b'.Hash env = b.Hash env := by
  have hP := b.ParentHash.property
  have hM := b.TransactionsMerkleRoot.property
  have hT := putUint64_length b.Timestamp
  have hN := putUint64_length b.NumTransactions
  refine ⟨RawBlock_Envelope_length b, ?_, ?_, ?_, ?_, ?_, hT, bigEndian_putUint64 _, hN,
    bigEndian_putUint64 _, rfl, ?_⟩
  · have e : b.Envelope = b.ParentHash.val ++ (putUint64 b.Timestamp ++
        putUint64 b.NumTransactions ++ b.TransactionsMerkleRoot.val ++ b.Nonce.val) := by
      simp only [RawBlock.Envelope, List.append_assoc]
    rw [e, List.take_left' hP]
  · have e : b.Envelope = b.ParentHash.val ++ putUint64 b.Timestamp ++
        (putUint64 b.NumTransactions ++ b.TransactionsMerkleRoot.val ++ b.Nonce.val) := by
      simp only [RawBlock.Envelope, List.append_assoc]
    rw [e]
    exact slice_append hP hT
  · have e : b.Envelope = (b.ParentHash.val ++ putUint64 b.Timestamp) ++
        putUint64 b.NumTransactions ++ (b.TransactionsMerkleRoot.val ++ b.Nonce.val) := by
      simp only [RawBlock.Envelope, List.append_assoc]
    rw [e]
    exact slice_append (by rw [List.length_append, hP, hT]) hN
  · have e : b.Envelope = (b.ParentHash.val ++ putUint64 b.Timestamp
        ++ putUint64 b.NumTransactions) ++ b.TransactionsMerkleRoot.val ++ b.Nonce.val := by
      simp only [RawBlock.Envelope, List.append_assoc]
    rw [e]
    exact slice_append (by simp only [List.length_append, hP, hT, hN]) hM
  · have h : (b.ParentHash.val ++ putUint64 b.Timestamp ++ putUint64 b.NumTransactions
        ++ b.TransactionsMerkleRoot.val).length = 80 := by
      simp only [List.length_append, hP, hT, hN, hM]
    rw [RawBlock.Envelope, List.drop_left' h]
  · intro b' h1 h2 h3 h4 h5
    simp only [RawBlock.Hash, RawBlock.Envelope, h1, h2, h3, h4, h5]

/-- C26, counterexample. For the transaction `txS` (version 1, signature bytes zero) the
serialisation `Bytes()` is not the signature followed by the envelope: it starts with the
version byte 1, the other string with the signature byte 0. -/
theorem RawTransaction.Bytes_counterexample :
    txS.Bytes ≠ txS.Sig.val ++ txS.Envelope ∧
    txS.Bytes.head? = some 1 ∧ (txS.Sig.val ++ txS.Envelope).head? = some 0 := by
  refine ⟨?_, by decide, by decide⟩
  intro h
  have := congrArg List.head? h
  revert this
  decide

/-- C26, amended. `Bytes()` is the version byte, then the 64 signature bytes, then the rest of
the envelope: `Version || Sig || FromPubkey || ToPubkey || Amount || Fee || Nonce`, 219 bytes,
the last three fields on 8 big-endian bytes each; `Hash()` is the SHA-256 of the SHA-256 of
`Bytes()`. -/
theorem RawTransaction.Bytes_layout (env : Env) (tx : RawTransaction) :
    tx.Bytes = [tx.Version] ++ tx.Sig.val ++ tx.Envelope.drop 1 ∧
    tx.Envelope = [tx.Version] ++ tx.Envelope.drop 1 ∧
    tx.Sig.val.length = 64 ∧
    tx.Bytes = [tx.Version] ++ tx.Sig.val ++ tx.FromPubkey.val ++ tx.ToPubkey.val
      ++ putUint64 tx.Amount ++ putUint64 tx.Fee ++ putUint64 tx.Nonce ∧
    tx.Bytes.length = 219 ∧
    tx.Hash env = env.sha256 (env.sha256 tx.Bytes).val := by
  refine ⟨?_, ?_, tx.Sig.property, rfl, RawTransaction.Bytes_length tx, rfl⟩
  · simp [RawTransaction.Bytes, RawTransaction.Envelope, List.append_assoc]
  · simp [RawTransaction.Envelope, List.append_assoc]

/-- C27. The envelope of a transaction has 155 bytes: `Version` at offset 0, `FromPubkey` at
offset 1, `ToPubkey` at offset 66, and `Amount`, `Fee` and `Nonce` on 8 big-endian bytes each
at the offsets 131, 139 and 147; it does not depend on `Sig`. -/
theorem RawTransaction_Envelope_layout (tx : RawTransaction) :
    tx.Envelope.length = 155 ∧
    tx.Envelope.take 1 = [tx.Version] ∧
    (tx.Envelope.drop 1).take 65 = tx.FromPubkey.val ∧
    (tx.Envelope.drop 66).take 65 = tx.ToPubkey.val ∧
    (tx.Envelope.drop 131).take 8 = putUint64 tx.Amount ∧
    (tx.Envelope.drop 139).take 8 = putUint64 tx.Fee ∧
    tx.Envelope.drop 147 = putUint64 tx.Nonce ∧
    bigEndian (putUint64 tx.Amount) = tx.Amount.val ∧
    bigEndian (putUint64 tx.Fee) = tx.Fee.val ∧
    bigEndian (putUint64 tx.Nonce) = tx.Nonce.val ∧
    ∀ tx' : RawTransaction, tx'.Version = tx.Version → tx'.FromPubkey = tx.FromPubkey →
      tx'.ToPubkey = tx.ToPubkey → tx'.Amount = tx.Amount → tx'.Fee = tx.Fee →
      tx'.Nonce = tx.Nonce → tx'.Envelope = tx.Envelope := by
  have hF := tx.FromPubkey.property
  have hT := tx.ToPubkey.property
  have hA := putUint64_length tx.Amount
  have hE := putUint64_length tx.Fee
  refine ⟨RawTransaction.Envelope_length tx, ?_, ?_, ?_, ?_, ?_, ?_, bigEndian_putUint64 _,
    bigEndian_putUint64 _, bigEndian_putUint64 _, ?_⟩
  · have e : tx.Envelope = [tx.Version] ++ (tx.FromPubkey.val ++ tx.ToPubkey.val ++
        putUint64 tx.Amount ++ putUint64 tx.Fee ++ putUint64 tx.Nonce) := by
      simp only [RawTransaction.Envelope, List.append_assoc]
    rw [e]
    rfl
  · have e : tx.Envelope = [tx.Version] ++ tx.FromPubkey.val ++ (tx.ToPubkey.val ++
        putUint64 tx.Amount ++ putUint64 tx.Fee ++ putUint64 tx.Nonce) := by
      simp only [RawTransaction.Envelope, List.append_assoc]
    rw [e]
    exact slice_append rfl hF
  · have e : tx.Envelope = ([tx.Version] ++ tx.FromPubkey.val) ++ tx.ToPubkey.val ++
        (putUint64 tx.Amount ++ putUint64 tx.Fee ++ putUint64 tx.Nonce) := by
      simp only [RawTransaction.Envelope, List.append_assoc]
    rw [e]
    exact slice_append (by simp only [List.length_append, List.length_singleton, hF]) hT
  · have e : tx.Envelope = ([tx.Version] ++ tx.FromPubkey.val ++ tx.ToPubkey.val) ++
        putUint64 tx.Amount ++ (putUint64 tx.Fee ++ putUint64 tx.Nonce) := by
      simp only [RawTransaction.Envelope, List.append_assoc]
    rw [e]
    exact slice_append (by simp only [List.length_append, List.length_singleton, hF, hT]) hA
  · have e : tx.Envelope = ([tx.Version] ++ tx.FromPubkey.val ++ tx.ToPubkey.val
        ++ putUint64 tx.Amount) ++ putUint64 tx.Fee ++ putUint64 tx.Nonce := by
      simp only [RawTransaction.Envelope, List.append_assoc]
    rw [e]
    exact slice_append
      (by simp only [List.length_append, List.length_singleton, hF, hT, hA]) hE
  · have h : ([tx.Version] ++ tx.FromPubkey.val ++ tx.ToPubkey.val ++ putUint64 tx.Amount
        ++ putUint64 tx.Fee).length = 147 := by
      simp only [List.length_append, List.length_singleton, hF, hT, hA, hE]
    rw [RawTransaction.Envelope, List.drop_left' h]
  · intro tx' h1 h2 h3 h4 h5 h6
    simp only [RawTransaction.Envelope, h1, h2, h3, h4, h5, h6]

/-- C28, counterexample. For the transaction `txS` the size `SizeBytes()` reports is 155, not
219, and it is not the length of `Bytes()`, which is 219. -/
theorem RawTransaction.SizeBytes_counterexample :
    txS.SizeBytes.val = 155 ∧ txS.SizeBytes.val ≠ 219 ∧ txS.Bytes.length = 219 ∧
    txS.SizeBytes.val ≠ txS.Bytes.length := by
  refine ⟨by decide, by decide, RawTransaction.Bytes_length txS, ?_⟩
  rw [RawTransaction.Bytes_length]
  decide

/-- C28, amended. `SizeBytes()` reports 155 for every transaction, the length of the envelope,
in which the signature is not counted; the length of `Bytes()` is 219, that is 64 more. -/
theorem RawTransaction.SizeBytes_eq (tx : RawTransaction) :
    tx.SizeBytes.val = 155 ∧ tx.SizeBytes.val = tx.Envelope.length ∧
    tx.Bytes.length = 219 ∧ tx.Bytes.length = tx.SizeBytes.val + 64 := by
  have h : tx.SizeBytes.val = 155 := rfl
  refine ⟨h, ?_, RawTransaction.Bytes_length tx, ?_⟩
  · rw [h, RawTransaction.Envelope_length]
  · rw [h, RawTransaction.Bytes_length]


/-! ## C29: epoch ids -/

theorem digitChar_of_lt_ten (k : Nat) (h : k < 10) :
    Nat.digitChar k ≠ '_' ∧ (Nat.digitChar k).toNat - 48 = k ∧
    Nat.digitChar k ∈ "0123456789".data := by
  interval_cases k <;> decide

/-- The digits `Nat.toDigitsCore` puts before `ds` are decimal digits, and they denote `n`. -/
theorem toDigitsCore_spec : ∀ (fuel n : Nat) (ds : List Char), n < fuel →
    (Nat.toDigitsCore 10 fuel n ds).foldl (fun a c => 10 * a + (c.toNat - 48)) 0
      = ds.foldl (fun a c => 10 * a + (c.toNat - 48)) n ∧
    ∀ c ∈ Nat.toDigitsCore 10 fuel n ds, c ∈ ds ∨ (c ≠ '_' ∧ c ∈ "0123456789".data) := by
  intro fuel
  induction fuel with
  | zero => intro n ds h; omega
  | succ fuel ih =>
    intro n ds h
    obtain ⟨hd1, hd2, hd3⟩ := digitChar_of_lt_ten (n % 10) (Nat.mod_lt _ (by decide))
    simp only [Nat.toDigitsCore]
    split
    · rename_i h0
      have hn : n % 10 = n := by omega
      refine ⟨?_, ?_⟩
      · simp only [List.foldl_cons, hd2]
        rw [hn]
        simp
      · intro c hc
        rcases List.mem_cons.mp hc with hc | hc
        · exact Or.inr (hc ▸ ⟨hd1, hd3⟩)
        · exact Or.inl hc
    · rename_i h0
      obtain ⟨ih1, ih2⟩ := ih (n / 10) (Nat.digitChar (n % 10) :: ds) (by omega)
      refine ⟨?_, ?_⟩
      · rw [ih1]
        simp only [List.foldl_cons, hd2]
        have : 10 * (n / 10) + n % 10 = n := by omega
        rw [this]
      · intro c hc
        rcases ih2 c hc with hc | hc
        · rcases List.mem_cons.mp hc with hc | hc
          · exact Or.inr (hc ▸ ⟨hd1, hd3⟩)
          · exact Or.inl hc
        · exact Or.inr hc

theorem toString_nat_data (n : Nat) : (toString n).data = Nat.toDigits 10 n := rfl

/-- The decimal string of a number consists of decimal digits, none of them an underscore, and
denotes the number. -/
theorem toString_nat_spec (n : Nat) :
    decimalValue (toString n).data = n ∧
    ∀ c ∈ (toString n).data, c ≠ '_' ∧ c ∈ "0123456789".data := by
  obtain ⟨h1, h2⟩ := toDigitsCore_spec (n + 1) n [] (by omega)
  rw [toString_nat_data]
  refine ⟨h1, ?_⟩
  intro c hc
  rcases h2 c hc with h | h
  · simp at h
  · exact h

/-- Two strings with a separator that occurs in neither left part are equal only when the left
parts and the right parts are. -/
theorem append_sep_inj {α : Type} (sep : α) : ∀ (l1 l2 r1 r2 : List α),
    sep ∉ l1 → sep ∉ l2 → l1 ++ sep :: r1 = l2 ++ sep :: r2 → l1 = l2 ∧ r1 = r2
  | [], [], _, _, _, _, h => ⟨rfl, by simpa using h⟩
  | [], y :: l2, _, _, _, h2, h => by
    simp only [List.nil_append, List.cons_append, List.cons.injEq] at h
    exact absurd (h.1 ▸ List.mem_cons_self _ _) h2
  | x :: l1, [], _, _, h1, _, h => by
    simp only [List.nil_append, List.cons_append, List.cons.injEq] at h
    exact absurd (h.1 ▸ List.mem_cons_self _ _) h1
  | x :: l1, y :: l2, r1, r2, h1, h2, h => by
    simp only [List.cons_append, List.cons.injEq] at h
    obtain ⟨hl, hr⟩ := append_sep_inj sep l1 l2 r1 r2
      (fun hm => h1 (List.mem_cons_of_mem _ hm)) (fun hm => h2 (List.mem_cons_of_mem _ hm)) h.2
    exact ⟨by rw [h.1, hl], hr⟩

theorem hexDigit_inj : ∀ a b : Fin 16, hexDigit a.val = hexDigit b.val → a = b := by decide

theorem hexDigit_lower : ∀ a : Fin 16, hexDigit a.val ∈ "0123456789abcdef".data := by decide

theorem hexEncode_data (bs : ByteSeq) :
    (hexEncode bs).data = bs.flatMap fun b => [hexDigit (b.val / 16), hexDigit (b.val % 16)] :=
  rfl

theorem hexEncode_cons (b : Byte) (bs : ByteSeq) : (hexEncode (b :: bs)).data
    = hexDigit (b.val / 16) :: hexDigit (b.val % 16) :: (hexEncode bs).data := by
  simp [hexEncode_data, List.flatMap_cons]

/-- The function `hex.EncodeToString` gives two lower-case hexadecimal digits per byte. -/
theorem hexEncode_spec : ∀ bs : ByteSeq, (hexEncode bs).data.length = 2 * bs.length ∧
    ∀ c ∈ (hexEncode bs).data, c ∈ "0123456789abcdef".data
  | [] => ⟨rfl, by intro c hc; simp [hexEncode_data] at hc⟩
  | b :: bs => by
    obtain ⟨h1, h2⟩ := hexEncode_spec bs
    rw [hexEncode_cons]
    refine ⟨by simp only [List.length_cons, h1]; omega, ?_⟩
    intro c hc
    rcases List.mem_cons.mp hc with hc | hc
    · rw [hc]
      exact hexDigit_lower ⟨b.val / 16, by omega⟩
    · rcases List.mem_cons.mp hc with hc | hc
      · rw [hc]
        exact hexDigit_lower ⟨b.val % 16, by omega⟩
      · exact h2 c hc

theorem hexEncode_inj : ∀ xs ys : ByteSeq, (hexEncode xs).data = (hexEncode ys).data → xs = ys
  | [], [], _ => rfl
  | [], y :: ys, h => by
    rw [hexEncode_cons] at h
    simp [hexEncode_data] at h
  | x :: xs, [], h => by
    rw [hexEncode_cons] at h
    simp [hexEncode_data] at h
  | x :: xs, y :: ys, h => by
    rw [hexEncode_cons, hexEncode_cons] at h
    simp only [List.cons.injEq] at h
    obtain ⟨ha, hb, hrest⟩ := h
    have h1 := congrArg Fin.val
      (hexDigit_inj ⟨x.val / 16, by omega⟩ ⟨y.val / 16, by omega⟩ ha)
    have h2 := congrArg Fin.val
      (hexDigit_inj ⟨x.val % 16, by omega⟩ ⟨y.val % 16, by omega⟩ hb)
    simp only at h1 h2
    have hxy : x = y := Fin.ext (by omega)
    rw [hxy, hexEncode_inj xs ys hrest]

/-- C29. `GetIdForEpoch(hash, height)` is the decimal string of the height (decimal digits
that denote the height), an underscore, and the hexadecimal string of the hash (64 lower-case
hexadecimal digits); two ids are equal exactly when the hashes are equal and the heights are
equal. -/
theorem GetIdForEpoch_injective (h1 h2 : Bytes32) (s1 s2 : U64) :
    GetIdForEpoch h1 s1 = toString s1.val ++ "_" ++ hexEncode h1.val ∧
    decimalValue (toString s1.val).data = s1.val ∧
    (∀ c ∈ (toString s1.val).data, c ∈ "0123456789".data) ∧
    (hexEncode h1.val).length = 64 ∧
    (∀ c ∈ (hexEncode h1.val).data, c ∈ "0123456789abcdef".data) ∧
    (GetIdForEpoch h1 s1 = GetIdForEpoch h2 s2 ↔ h1 = h2 ∧ s1 = s2) := by
  obtain ⟨hd1, hd2⟩ := toString_nat_spec s1.val
  obtain ⟨he1, he2⟩ := hexEncode_spec h1.val
  refine ⟨rfl, hd1, fun c hc => (hd2 c hc).2, ?_, he2, ?_⟩
  · show (hexEncode h1.val).data.length = 64
    rw [he1, h1.property]
  · constructor
    · intro h
      have hdata := congrArg String.data h
      rw [GetIdForEpoch_data, GetIdForEpoch_data] at hdata
      obtain ⟨hl, hr⟩ := append_sep_inj '_' _ _ _ _
        (fun hm => (hd2 _ hm).1 rfl)
        (fun hm => ((toString_nat_spec s2.val).2 _ hm).1 rfl) hdata
      have hs : s1.val = s2.val := by
        rw [← hd1, ← (toString_nat_spec s2.val).1, hl]
      exact ⟨Subtype.ext (hexEncode_inj _ _ hr), Fin.ext hs⟩
    · rintro ⟨rfl, rfl⟩
      rfl


/-! ## C21, C22: the best-tip poll -/

theorem CalculateWork_pos (h : Bytes32) : 1 ≤ CalculateWork (Bytes32ToBigInt h) := by
  have hlt : Bytes32ToBigInt h < 2 ^ 256 := by
    have := bigEndian_lt h.val
    rw [h.property] at this
    rw [Bytes32ToBigInt]
    have h256 : (256 : Nat) ^ 32 = 2 ^ 256 := by norm_num
    rw [h256] at this
    exact this
  unfold CalculateWork
  exact (Nat.one_le_div_iff (by omega)).mpr (by omega)

/-- The selection loop entered with `highestWork = w` and `bestTipHash = h`: either no tip has
more work than `w` and the result is `h`, or the result is the hash of the first tip among
those of maximal work, and that work is above `w`. -/
theorem sync_getBestTipFromPeers.select_spec (Hash : BlockHeader → Bytes32) :
    ∀ (tips : List BlockHeader) (w : Nat) (h : Bytes32),
    (sync_getBestTipFromPeers.select Hash tips w h = h ∧
      ∀ t ∈ tips, CalculateWork (Bytes32ToBigInt (Hash t)) ≤ w) ∨
    ∃ (i : Nat) (tip : BlockHeader), tips[i]? = some tip ∧
      sync_getBestTipFromPeers.select Hash tips w h = Hash tip ∧
      w < CalculateWork (Bytes32ToBigInt (Hash tip)) ∧
      ∀ (j : Nat) (t : BlockHeader), tips[j]? = some t →
        CalculateWork (Bytes32ToBigInt (Hash t)) ≤ CalculateWork (Bytes32ToBigInt (Hash tip)) ∧
        (CalculateWork (Bytes32ToBigInt (Hash t)) = CalculateWork (Bytes32ToBigInt (Hash tip))
          → i ≤ j)
  | [], w, h => Or.inl ⟨rfl, by intro t ht; simp at ht⟩
  | tip :: rest, w, h => by
    by_cases hlt : w < CalculateWork (Bytes32ToBigInt (Hash tip))
    · have hcmp : bigCmp (w : Int) (CalculateWork (Bytes32ToBigInt (Hash tip)) : Nat) = -1 :=
        (bigCmp_eq_neg_one_iff _ _).mpr (by exact_mod_cast hlt)
      have hstep : sync_getBestTipFromPeers.select Hash (tip :: rest) w h
          = sync_getBestTipFromPeers.select Hash rest
              (CalculateWork (Bytes32ToBigInt (Hash tip))) (Hash tip) := by
        simp only [sync_getBestTipFromPeers.select, hcmp, if_true]
      rw [hstep]
      right
      rcases sync_getBestTipFromPeers.select_spec Hash rest
          (CalculateWork (Bytes32ToBigInt (Hash tip))) (Hash tip) with
        ⟨hres, hall⟩ | ⟨i, tip', hi, hres, hw, hmax⟩
      · refine ⟨0, tip, by simp, hres, hlt, ?_⟩
        intro j t hj
        cases j with
        | zero =>
          have : tip = t := by simpa using hj
          subst this
          exact ⟨le_refl _, fun _ => le_refl _⟩
        | succ j =>
          have hmem : t ∈ rest := List.mem_iff_getElem?.mpr ⟨j, by simpa using hj⟩
          exact ⟨hall t hmem, fun _ => Nat.zero_le _⟩
      · refine ⟨i + 1, tip', by simpa using hi, hres, by omega, ?_⟩
        intro j t hj
        cases j with
        | zero =>
          have : tip = t := by simpa using hj
          subst this
          exact ⟨by omega, fun h => by omega⟩
        | succ j =>
          have := hmax j t (by simpa using hj)
          exact ⟨this.1, fun h => by have := this.2 h; omega⟩
    · have hcmp : ¬ bigCmp (w : Int) (CalculateWork (Bytes32ToBigInt (Hash tip)) : Nat) = -1 := by
        rw [bigCmp_eq_neg_one_iff]
        exact_mod_cast hlt
      have hstep : sync_getBestTipFromPeers.select Hash (tip :: rest) w h
          = sync_getBestTipFromPeers.select Hash rest w h := by
        simp only [sync_getBestTipFromPeers.select, hcmp, if_false]
      rw [hstep]
      rcases sync_getBestTipFromPeers.select_spec Hash rest w h with
        ⟨hres, hall⟩ | ⟨i, tip', hi, hres, hw, hmax⟩
      · left
        refine ⟨hres, ?_⟩
        intro t ht
        rcases List.mem_cons.mp ht with ht | ht
        · rw [ht]; omega
        · exact hall t ht
      · right
        refine ⟨i + 1, tip', by simpa using hi, hres, hw, ?_⟩
        intro j t hj
        cases j with
        | zero =>
          have : tip = t := by simpa using hj
          subst this
          exact ⟨by omega, fun h => by omega⟩
        | succ j =>
          have := hmax j t (by simpa using hj)
          exact ⟨this.1, fun h => by have := this.2 h; omega⟩

/-- C21. For a non-empty list of collected tips the selection loop of
`sync_getBestTipFromPeers`, started with `highestWork = 0`, ends with the hash of a collected
tip, at index `i` of the list, whose work `2^256 / (hash + 1)` is at least the work of the hash
of every collected tip, and every tip with the same work stands at an index `j ≥ i`. -/
theorem sync_getBestTipFromPeers_best_max (Hash : BlockHeader → Bytes32)
    (tips : List BlockHeader) (hne : tips ≠ []) :
    ∃ (i : Nat) (tip : BlockHeader), tips[i]? = some tip ∧
      sync_getBestTipFromPeers.best Hash tips = Hash tip ∧
      CalculateWork (Bytes32ToBigInt (Hash tip)) = 2 ^ 256 / (bigEndian (Hash tip).val + 1) ∧
      ∀ (j : Nat) (t : BlockHeader), tips[j]? = some t →
        CalculateWork (Bytes32ToBigInt (Hash t)) ≤ CalculateWork (Bytes32ToBigInt (Hash tip)) ∧
        (CalculateWork (Bytes32ToBigInt (Hash t)) = CalculateWork (Bytes32ToBigInt (Hash tip))
          → i ≤ j) := by
  rcases sync_getBestTipFromPeers.select_spec Hash tips 0 zero32 with
    ⟨_, hall⟩ | ⟨i, tip, hi, hres, _, hmax⟩
  · cases tips with
    | nil => exact absurd rfl hne
    | cons t rest =>
      have h1 := hall t (List.mem_cons_self _ _)
      have h2 := CalculateWork_pos (Hash t)
      omega
  · exact ⟨i, tip, hi, hres, rfl, hmax⟩

set_option maxRecDepth 100000 in
/-- C21, witness: of four tips with work 1, 2, 2 and 1 the second is chosen. -/
theorem sync_getBestTipFromPeers_best_max_witness :
    tipsFour ≠ [] ∧
    sync_getBestTipFromPeers.best nonceAsHash tipsFour = fixedBE 32 (2 ^ 255 - 1) ∧
    tipsFour.map (fun t => CalculateWork (Bytes32ToBigInt (nonceAsHash t))) = [1, 2, 2, 1] ∧
    ∃ (i : Nat) (tip : BlockHeader), tipsFour[i]? = some tip ∧
      sync_getBestTipFromPeers.best nonceAsHash tipsFour = nonceAsHash tip ∧
      CalculateWork (Bytes32ToBigInt (nonceAsHash tip))
        = 2 ^ 256 / (bigEndian (nonceAsHash tip).val + 1) ∧
      ∀ (j : Nat) (t : BlockHeader), tipsFour[j]? = some t →
        CalculateWork (Bytes32ToBigInt (nonceAsHash t))
          ≤ CalculateWork (Bytes32ToBigInt (nonceAsHash tip)) ∧
        (CalculateWork (Bytes32ToBigInt (nonceAsHash t))
          = CalculateWork (Bytes32ToBigInt (nonceAsHash tip)) → i ≤ j) :=
  ⟨by decide, by decide!, by decide!,
    sync_getBestTipFromPeers_best_max nonceAsHash tipsFour (by decide)⟩

/-- The collection loop is still running after any sequence of events. -/
theorem sync_getBestTipFromPeers.collect_eq_none :
    ∀ (events : List TipEvent) (tips : List BlockHeader),
      sync_getBestTipFromPeers.collect events tips = none
  | [], _ => rfl
  | ev :: rest, tips => by
    simp only [sync_getBestTipFromPeers.collect, sync_getBestTipFromPeers.selectStmt]
    exact sync_getBestTipFromPeers.collect_eq_none rest _

/-- C22. The collection loop of `sync_getBestTipFromPeers` has no exit: the `break` of the case
that sees the closed channel ends the `select` statement only, and the case of the deadline
holds no `break` or `return` at all. After every sequence of events the loop is still running;
so it is with no peers, when the first event is the closed channel, after the deadline, and
after a tip, the closed channel and the deadline. -/
theorem sync_getBestTipFromPeers_collect_no_exit :
    (∀ (events : List TipEvent) (tips : List BlockHeader),
      sync_getBestTipFromPeers.collect events tips = none) ∧
    sync_getBestTipFromPeers.collect [.closed] [] = none ∧
    sync_getBestTipFromPeers.collect [.timeout, .closed, .closed] [] = none ∧
    sync_getBestTipFromPeers.collect [.tip (tipWith 5), .closed, .timeout, .closed] [] = none ∧
    (sync_getBestTipFromPeers.selectCase [] .closed).2 = .brk ∧
    (sync_getBestTipFromPeers.selectStmt [] .closed).2 = .normal :=
  ⟨sync_getBestTipFromPeers.collect_eq_none, rfl, rfl, rfl, rfl, rfl⟩

/-! ## C23, C24: the handler `OnGetBlocks` -/

/-- The loop of `OnGetBlocks` appends, in request order, the data of the hashes for which
`GetRawBlockDataByHash` returns no error. -/
theorem OnGetBlocks.loop_eq (hex : String → Bytes32) (get : Bytes32 → Option ByteSeq) :
    ∀ (hashes : List String) (reply : List ByteSeq),
      OnGetBlocks.loop hex get hashes reply = reply ++ hashes.filterMap (fun s => get (hex s))
  | [], reply => by simp [OnGetBlocks.loop]
  | s :: rest, reply => by
    unfold OnGetBlocks.loop
    cases hg : get (hex s) with
    | none => simp [OnGetBlocks.loop_eq hex get rest, List.filterMap_cons, hg]
    | some d => simp [OnGetBlocks.loop_eq hex get rest, List.filterMap_cons, hg]

/-- C23. The handler `OnGetBlocks` builds the reply the claim describes and then returns
`nil, nil`: for every request of at most 10 hashes the slice returned is empty, whatever the
DAG holds. For the request `msgThree`, two of whose three hashes are known to the DAG, the loop
builds the reply of two blocks and the handler returns none of them. -/
theorem OnGetBlocks_reply_dropped :
    (∀ (hex : String → Bytes32) (get : Bytes32 → Option ByteSeq) (msg : GetBlocksMessage),
      msg.BlockHashes.length ≤ 10 → OnGetBlocks hex get msg = ([], none)) ∧
    (∀ (hex : String → Bytes32) (get : Bytes32 → Option ByteSeq) (hashes : List String),
      OnGetBlocks.loop hex get hashes [] = hashes.filterMap (fun s => get (hex s))) ∧
    msgThree.BlockHashes.length ≤ 10 ∧
    OnGetBlocks.loop hexStub dagStub msgThree.BlockHashes [] = [[4], [1, 2, 3]] ∧
    OnGetBlocks hexStub dagStub msgThree = ([], none) := by
  refine ⟨?_, ?_, by decide, by decide, by decide⟩
  · intro hex get msg hlen
    unfold OnGetBlocks
    simp only [Nat.not_lt.mpr hlen, if_false]
  · intro hex get hashes
    rw [OnGetBlocks.loop_eq]
    rfl

/-- C24. The handler `OnGetBlocks` returns an error, together with no block data, exactly when
the request carries more than 10 hashes; the error is "Too many hashes requested. Max is 10".
A request of exactly 10 hashes gets no error, one of 11 hashes gets the error. -/
theorem OnGetBlocks_error_iff (hex : String → Bytes32) (get : Bytes32 → Option ByteSeq)
    (msg : GetBlocksMessage) :
    (((OnGetBlocks hex get msg).2 ≠ none ∧ (OnGetBlocks hex get msg).1 = [])
      ↔ 10 < msg.BlockHashes.length) ∧
    ((OnGetBlocks hex get msg).2 = some .tooManyHashes ↔ 10 < msg.BlockHashes.length) ∧
    ((OnGetBlocks hex get msg).2 = none ↔ msg.BlockHashes.length ≤ 10) ∧
    (msgOf 10).BlockHashes.length = 10 ∧ (OnGetBlocks hex get (msgOf 10)).2 = none ∧
    (msgOf 11).BlockHashes.length = 11 ∧
    (OnGetBlocks hex get (msgOf 11)).2 = some .tooManyHashes := by
  have key : ∀ m : GetBlocksMessage, OnGetBlocks hex get m
      = if 10 < m.BlockHashes.length then ([], some .tooManyHashes) else ([], none) := by
    intro m
    rfl
  refine ⟨?_, ?_, ?_, by decide, ?_, by decide, ?_⟩
  · rw [key]
    split <;> rename_i h <;> simp [h]
  · rw [key]
    split <;> rename_i h <;> simp [h]
  · rw [key]
    split <;> rename_i h <;> simp [h]
    omega
  · rw [key]
    rfl
  · rw [key]
    rfl


/-! ## C30: bit sets -/

/-- Division and remainder of an `int` by 8, truncated toward zero. -/
theorem tdiv_tmod_eight (j : Int) :
    j = 8 * Int.tdiv j 8 + Int.tmod j 8 ∧
    ((0 ≤ j ∧ 0 ≤ Int.tdiv j 8 ∧ 0 ≤ Int.tmod j 8 ∧ Int.tmod j 8 < 8) ∨
      (j < 0 ∧ Int.tdiv j 8 ≤ 0 ∧ -8 < Int.tmod j 8 ∧ Int.tmod j 8 ≤ 0)) := by
  have h1 := (Int.tdiv_add_tmod j 8).symm
  refine ⟨h1, ?_⟩
  cases j with
  | ofNat n =>
    left
    have hd : Int.tdiv (Int.ofNat n) 8 = ((n / 8 : Nat) : Int) := rfl
    have hm : Int.tmod (Int.ofNat n) 8 = ((n % 8 : Nat) : Int) := rfl
    rw [hd, hm]
    refine ⟨Int.ofNat_nonneg n, by omega, by omega, by omega⟩
  | negSucc n =>
    right
    have hd : Int.tdiv (Int.negSucc n) 8 = -(((n + 1) / 8 : Nat) : Int) := rfl
    have hm : Int.tmod (Int.negSucc n) 8 = -(((n + 1) % 8 : Nat) : Int) := rfl
    rw [hd, hm]
    refine ⟨Int.negSucc_lt_zero n, by omega, by omega, by omega⟩

set_option maxRecDepth 100000 in
theorem Byte.and_zero : ∀ x : Byte, x &&& 0 = 0 := by decide!

set_option maxRecDepth 1000000 in
theorem Byte.or_shl1_and : ∀ (x : Byte) (k : Fin 8),
    (x ||| Byte.shl1 k.val) &&& Byte.shl1 k.val ≠ 0 := by decide!

set_option maxRecDepth 1000000 in
theorem Byte.or_shl1_and_ne : ∀ (x : Byte) (k k' : Fin 8), k ≠ k' →
    (x ||| Byte.shl1 k.val) &&& Byte.shl1 k'.val = x &&& Byte.shl1 k'.val := by decide!

set_option maxRecDepth 1000000 in
theorem Byte.andNot_shl1_and : ∀ (x : Byte) (k : Fin 8),
    (Byte.andNot x (Byte.shl1 k.val)) &&& Byte.shl1 k.val = 0 := by decide!

set_option maxRecDepth 1000000 in
theorem Byte.andNot_shl1_and_ne : ∀ (x : Byte) (k k' : Fin 8), k ≠ k' →
    (Byte.andNot x (Byte.shl1 k.val)) &&& Byte.shl1 k'.val = x &&& Byte.shl1 k'.val := by
  decide!

/-- The byte `1 << uint(j%8)` when `j%8` is negative: the shift count is `2^64 + j%8`. -/
theorem Bitset.bit_of_neg {j : Int} (h1 : Int.tmod j 8 < 0) (h2 : -8 < Int.tmod j 8) :
    Bitset.bit j = 0 := by
  have h : 8 ≤ uintOfInt (Int.tmod j 8) := by
    unfold uintOfInt
    omega
  unfold Bitset.bit Byte.shl1
  rw [if_neg (by omega)]

/-- The byte `1 << uint(j%8)` when `j%8` is not negative. -/
theorem Bitset.bit_of_nonneg {j : Int} (h1 : 0 ≤ Int.tmod j 8) (h2 : Int.tmod j 8 < 8) :
    Bitset.bit j = Byte.shl1 (Int.tmod j 8).toNat ∧ (Int.tmod j 8).toNat < 8 := by
  have h : uintOfInt (Int.tmod j 8) = (Int.tmod j 8).toNat := by
    unfold uintOfInt
    omega
  unfold Bitset.bit
  rw [h]
  exact ⟨rfl, by omega⟩

/-- The byte an in-range index selects. -/
theorem Bitset.at_of_lt (b : Bitset) {i : Int} (h0 : 0 ≤ i) (hi : i < b.Size) :
    (Int.tdiv i 8).toNat < b.length ∧ ∃ x, b.at i = some x ∧ b[(Int.tdiv i 8).toNat]? = some x := by
  obtain ⟨hdec, hcase⟩ := tdiv_tmod_eight i
  have hlt : (Int.tdiv i 8).toNat < b.length := by
    unfold Bitset.Size at hi
    omega
  refine ⟨hlt, b[(Int.tdiv i 8).toNat], ?_, List.getElem?_eq_getElem hlt⟩
  unfold Bitset.at
  rw [if_neg (by omega), List.getElem?_eq_getElem hlt]

/-- Writing the byte `y` over the byte of index `i`: `Contains(i)` tests `y`, and `Contains(j)`
is unchanged for every other `j` when `y` and the old byte agree on the bits other than bit
`i%8`. -/
theorem Bitset.Contains_set (b : Bitset) {i : Int} {x : Byte} (y : Byte) (h0 : 0 ≤ i)
    (hi : i < b.Size) (hx : b[(Int.tdiv i 8).toNat]? = some x)
    (hframe : ∀ k : Fin 8, k.val ≠ (Int.tmod i 8).toNat →
      y &&& Byte.shl1 k.val = x &&& Byte.shl1 k.val) :
    Bitset.Contains (b.set (Int.tdiv i 8).toNat y) i = some (decide (y &&& Bitset.bit i ≠ 0)) ∧
    (∀ j : Int, j ≠ i → Bitset.Contains (b.set (Int.tdiv i 8).toNat y) j = Bitset.Contains b j) ∧
    Bitset.Size (b.set (Int.tdiv i 8).toNat y) = Bitset.Size b := by
  obtain ⟨hdec, hcase⟩ := tdiv_tmod_eight i
  obtain ⟨hlt, _⟩ := Bitset.at_of_lt b h0 hi
  refine ⟨?_, ?_, ?_⟩
  · unfold Bitset.Contains Bitset.at
    rw [if_neg (by omega), List.getElem?_set_self hlt]
  · intro j hj
    obtain ⟨hdecj, hcasej⟩ := tdiv_tmod_eight j
    unfold Bitset.Contains Bitset.at
    by_cases hneg : Int.tdiv j 8 < 0
    · simp only [if_pos hneg]
    · simp only [if_neg hneg]
      by_cases hk : (Int.tdiv j 8).toNat = (Int.tdiv i 8).toNat
      · have hq : Int.tdiv j 8 = Int.tdiv i 8 := by omega
        rw [hk, List.getElem?_set_self hlt, hx]
        simp only
        by_cases hr : Int.tmod j 8 < 0
        · rw [Bitset.bit_of_neg hr (by omega), Byte.and_zero, Byte.and_zero]
        · obtain ⟨hb, hb8⟩ := @Bitset.bit_of_nonneg j (by omega) (by omega)
          rw [hb]
          have := hframe ⟨(Int.tmod j 8).toNat, hb8⟩ (by simp only; omega)
          simp only at this
          rw [this]
      · rw [List.getElem?_set_ne (Ne.symm hk)]
  · unfold Bitset.Size
    rw [List.length_set]

/-- C30. For a bit set `b` and an index `0 ≤ i < b.Size()`, `Insert(i)` and `Remove(i)` do not
panic; after `Insert(i)`, `Contains(i)` is true, after `Remove(i)` it is false; in both cases
`Contains(j)` gives what it gave before for every `j` other than `i` (a panic included, for an
index out of range), and `Size()` is unchanged. -/
theorem Bitset_Insert_Remove (b : Bitset) (i : Int) (h0 : 0 ≤ i) (hi : i < b.Size) :
    (∃ b', b.Insert i = some b' ∧ b'.Contains i = some true ∧
      (∀ j : Int, j ≠ i → b'.Contains j = b.Contains j) ∧ b'.Size = b.Size) ∧
    (∃ b', b.Remove i = some b' ∧ b'.Contains i = some false ∧
      (∀ j : Int, j ≠ i → b'.Contains j = b.Contains j) ∧ b'.Size = b.Size) := by
  obtain ⟨hdec, hcase⟩ := tdiv_tmod_eight i
  obtain ⟨hlt, x, hat, hx⟩ := Bitset.at_of_lt b h0 hi
  obtain ⟨hb, hb8⟩ := @Bitset.bit_of_nonneg i (by omega) (by omega)
  constructor
  · obtain ⟨h1, h2, h3⟩ := Bitset.Contains_set b (x ||| Bitset.bit i) h0 hi hx (by
      intro k hk
      rw [hb]
      exact Byte.or_shl1_and_ne x ⟨(Int.tmod i 8).toNat, hb8⟩ k
        (fun h => hk (by rw [← h])))
    refine ⟨_, by rw [Bitset.Insert, hat], ?_, h2, h3⟩
    rw [h1, hb]
    have := Byte.or_shl1_and x ⟨(Int.tmod i 8).toNat, hb8⟩
    simp only at this
    simp [this]
  · obtain ⟨h1, h2, h3⟩ := Bitset.Contains_set b (Byte.andNot x (Bitset.bit i)) h0 hi hx (by
      intro k hk
      rw [hb]
      exact Byte.andNot_shl1_and_ne x ⟨(Int.tmod i 8).toNat, hb8⟩ k
        (fun h => hk (by rw [← h])))
    refine ⟨_, by rw [Bitset.Remove, hat], ?_, h2, h3⟩
    rw [h1, hb]
    have := Byte.andNot_shl1_and x ⟨(Int.tmod i 8).toNat, hb8⟩
    simp only at this
    simp [this]

/-- C30, witness: the bit set `[8, 2]`, which holds 3 and 9, and the index 4. -/
theorem Bitset_Insert_Remove_witness :
    (0 : Int) ≤ 4 ∧ (4 : Int) < bitsetS.Size ∧
    bitsetS.Insert 4 = some [24, 2] ∧ bitsetS.Remove 3 = some [0, 2] ∧
    (∃ b', bitsetS.Insert 4 = some b' ∧ b'.Contains 4 = some true ∧
      (∀ j : Int, j ≠ 4 → b'.Contains j = bitsetS.Contains j) ∧ b'.Size = bitsetS.Size) ∧
    (∃ b', bitsetS.Remove 4 = some b' ∧ b'.Contains 4 = some false ∧
      (∀ j : Int, j ≠ 4 → b'.Contains j = bitsetS.Contains j) ∧ b'.Size = bitsetS.Size) :=
  ⟨by decide, by decide, by decide, by decide,
    Bitset_Insert_Remove bitsetS 4 (by decide) (by decide)⟩


/-! ## C33: accumulated work along parent chains -/

/-- The block `GetBlockByHash` returns carries the height and the accumulated work of a stored
row with that hash. -/
theorem GetBlockByHash_accWork {db : Store} {h : Bytes32} {blk : Block}
    (H : GetBlockByHash db h = some blk) :
    ∃ r ∈ db.blocks, r.hash = h.val ∧ blk.Height = r.height ∧
      blk.AccumulatedWork = r.accWork := by
  unfold GetBlockByHash at H
  split at H
  · exact absurd H (by simp)
  · rename_i r hf
    have hmem := List.mem_of_find?_eq_some hf
    have hp := List.find?_some hf
    have hblk := Option.some.inj H
    refine ⟨r, hmem, by simpa using hp, ?_, ?_⟩
    · rw [← hblk]
    · rw [← hblk]
      rfl

theorem WorkInv_of_committed {env : Env} {cfg : ConsensusConfig} {db : Store}
    (h : WorkInv cfg db) (raw : RawBlock) (parent : Block) (epoch : Epoch) (buf : Bytes32)
    (hparent : GetBlockByHash db raw.ParentHash = some parent)
    (hacc : BigIntToBytes32
      (parent.AccumulatedWork + CalculateWork (Bytes32ToBigInt (raw.Hash env))) = some buf) :
    WorkInv cfg (committed env db raw (U64.wrap (parent.Height.val + 1)) epoch buf) := by
  intro b hb hne
  obtain ⟨r, hr, hrh, hrH, hrA⟩ := GetBlockByHash_accWork hparent
  rcases List.mem_append.mp hb with hb | hb
  · obtain ⟨p, hp, hph, hpA, hpH⟩ := h b hb hne
    exact ⟨p, List.mem_append_left _ hp, hph, hpA, hpH⟩
  · rw [List.mem_singleton.mp hb]
    refine ⟨r, List.mem_append_left _ hr, by simp [blockRow, hrh], ?_, by simp [blockRow, hrH]⟩
    have hnew : (blockRow env raw (U64.wrap (parent.Height.val + 1)) epoch buf).accWork
        = parent.AccumulatedWork + CalculateWork (Bytes32ToBigInt (raw.Hash env)) :=
      BigIntToBytes32_readback hacc
    have hpos := CalculateWork_pos (raw.Hash env)
    rw [hnew, ← hrA]
    omega

/-- Every database a node can hold satisfies the work invariant. -/
theorem Reachable.workInv {env : Env} {cfg : ConsensusConfig} {db : Store}
    (h : Reachable env cfg db) : WorkInv cfg db := by
  induction h with
  | init h =>
    obtain ⟨_, ⟨g, hg, hgh, _⟩, _⟩ := initialiseBlockDAG_empty h
    intro b hb hne
    rw [hg, List.mem_singleton] at hb
    exact absurd (by rw [hb, hgh]) hne
  | @ingest db _ raw ih =>
    have H : IngestBlock env cfg db raw
        = ((IngestBlock env cfg db raw).1, (IngestBlock env cfg db raw).2) := rfl
    rcases IngestBlock_effect H with h | ⟨parent, prev, newD, _, _, _, _, h⟩ |
      ⟨_, parent, prev, epoch, db1, buf, hA, h⟩
    · rw [h]; exact ih
    · rw [h]; exact ih
    · rw [h]
      rcases hA.select with ⟨_, _, hdb1⟩ | ⟨_, _, _, _, _, hdb1⟩
      · rw [hdb1]
        exact WorkInv_of_committed ih raw parent epoch buf hA.parent_known hA.acc
      · rw [hdb1]
        exact @WorkInv_of_committed env cfg { db with epochs := db.epochs ++ [epoch.toRow] }
          ih raw parent epoch buf hA.parent_known hA.acc

/-- C33. The work of a 32-byte hash `h`, `2^256 / (h + 1)`, is at least 1. When `IngestBlock`
succeeds, the block row written in step 8 carries the accumulated work of the parent plus the
work of the block hash, which is strictly more than that of the parent; when the commit took
effect that row is the one row appended to table `blocks` and `GetBlockByHash` returns the new
block with that accumulated work, and when it did not, table `blocks` is as it was and
`GetBlockByHash` finds no block of that hash (`IngestBlock` returns `nil` in both cases). In
every database a node can hold, a block other than the genesis block has strictly more
accumulated work than its parent and stands one height above it (in `uint64` arithmetic); so
along every chain of stored blocks in which each is the parent of the next, accumulated work
strictly increases. -/
theorem accumulated_work_increases (env : Env) (cfg : ConsensusConfig) :
    (∀ h : Bytes32, 1 ≤ CalculateWork (Bytes32ToBigInt h) ∧
      CalculateWork (Bytes32ToBigInt h) = 2 ^ 256 / (bigEndian h.val + 1)) ∧
    (∀ (db : Store) (raw : RawBlock) (db2 : Store),
      IngestBlock env cfg db raw = (.ok, db2) →
      ∃ parent row stored, GetBlockByHash db raw.ParentHash = some parent ∧
        row.hash = (raw.Hash env).val ∧
        row.accWork = parent.AccumulatedWork + CalculateWork (Bytes32ToBigInt (raw.Hash env)) ∧
        parent.AccumulatedWork < row.accWork ∧
        db2.blocks =
          (if env.Commit (pendingStore env db db2 raw row) then db.blocks ++ [row]
            else db.blocks) ∧
        GetBlockByHash db2 (raw.Hash env) =
          (if env.Commit (pendingStore env db db2 raw row) then some stored else none) ∧
        stored.AccumulatedWork
          = parent.AccumulatedWork + CalculateWork (Bytes32ToBigInt (raw.Hash env)) ∧
        parent.AccumulatedWork < stored.AccumulatedWork) ∧
    (∀ db : Store, Reachable env cfg db →
      (∀ p ∈ db.blocks, ∀ c ∈ db.blocks, ChildOf cfg p c →
        p.accWork < c.accWork ∧ c.height = U64.wrap (p.height.val + 1) ∧
        (p.height.val < 2 ^ 64 - 1 → p.height < c.height)) ∧
      (∀ c ∈ db.blocks, c.hash ≠ cfg.GenesisBlockHash.val → ∃ p ∈ db.blocks, ChildOf cfg p c) ∧
      ∀ chain : List BlockRow,
        List.Chain' (fun p c => p ∈ db.blocks ∧ c ∈ db.blocks ∧ ChildOf cfg p c) chain →
        chain.Pairwise (fun p c => p.accWork < c.accWork)) := by
  refine ⟨fun h => ⟨CalculateWork_pos h, rfl⟩, ?_, ?_⟩
  · intro db raw db2 H
    obtain ⟨parent, prev, epoch, db1, buf, hA, _, hblocks, _⟩ := IngestBlock_ok_commit H
    obtain ⟨stored, hget, hwork⟩ := GetBlockByHash_after_commit hA hblocks
    have hpos := CalculateWork_pos (raw.Hash env)
    have hacc : (blockRow env raw (U64.wrap (parent.Height.val + 1)) epoch buf).accWork
        = parent.AccumulatedWork + CalculateWork (Bytes32ToBigInt (raw.Hash env)) :=
      BigIntToBytes32_readback hA.acc
    exact ⟨parent, _, stored, hA.parent_known, rfl, hacc, by omega, hblocks, hget, hwork,
      by omega⟩
  · intro db hR
    have hW := hR.workInv
    have hS := hR.storeInv
    have hlink : ∀ p ∈ db.blocks, ∀ c ∈ db.blocks, ChildOf cfg p c →
        p.accWork < c.accWork ∧ c.height = U64.wrap (p.height.val + 1) := by
      intro p hp c hc hpc
      obtain ⟨q, hq, hqh, hqA, hqH⟩ := hW c hc hpc.1
      have hqp : q = p := eq_of_hash_eq hS hq hp (by rw [hqh, hpc.2])
      rw [hqp] at hqA hqH
      exact ⟨hqA, hqH⟩
    refine ⟨?_, ?_, ?_⟩
    · intro p hp c hc hpc
      obtain ⟨h1, h2⟩ := hlink p hp c hc hpc
      refine ⟨h1, h2, ?_⟩
      intro hlt
      rw [h2]
      show p.height.val < (U64.wrap (p.height.val + 1)).val
      simp only [U64.wrap]
      rw [Nat.mod_eq_of_lt (by omega)]
      omega
    · intro c hc hne
      obtain ⟨q, hq, hqh, _, _⟩ := hW c hc hne
      exact ⟨q, hq, hne, hqh.symm⟩
    · intro chain hchain
      have hch : List.Chain' (fun p c : BlockRow => p.accWork < c.accWork) chain :=
        hchain.imp (fun _ _ h => (hlink _ h.1 _ h.2.1 h.2.2).1)
      haveI : IsTrans BlockRow (fun p c : BlockRow => p.accWork < c.accWork) :=
        ⟨fun _ _ _ h1 h2 => Nat.lt_trans h1 h2⟩
      exact List.chain'_iff_pairwise.mp hch

theorem chain'_of_isChain {α : Type} (R : α → α → Bool) :
    ∀ l : List α, isChain R l = true → List.Chain' (fun a b => R a b = true) l
  | [], _ => List.chain'_nil
  | [_], _ => List.chain'_singleton _
  | a :: b :: l, h => by
    simp only [isChain, Bool.and_eq_true] at h
    exact List.chain'_cons.mpr ⟨h.1, chain'_of_isChain R (b :: l) h.2⟩

set_option maxRecDepth 100000 in
/-- C33, witness: the S4 chain of three blocks, genesis, `blockS4a` and `blockS4b`. -/
theorem accumulated_work_increases_witness :
    Reachable testEnv cfgS4 storeS4b ∧
    IngestBlock testEnv cfgS4 storeS4a blockS4b = (.ok, storeS4b) ∧
    List.Chain' (fun p c => p ∈ storeS4b.blocks ∧ c ∈ storeS4b.blocks ∧ ChildOf cfgS4 p c)
      storeS4b.blocks ∧
    storeS4b.blocks.Pairwise (fun p c => p.accWork < c.accWork) ∧
    ∃ parent row stored, GetBlockByHash storeS4a blockS4b.ParentHash = some parent ∧
      row.hash = (blockS4b.Hash testEnv).val ∧
      row.accWork
        = parent.AccumulatedWork + CalculateWork (Bytes32ToBigInt (blockS4b.Hash testEnv)) ∧
      parent.AccumulatedWork < row.accWork ∧
      storeS4b.blocks =
        (if testEnv.Commit (pendingStore testEnv storeS4a storeS4b blockS4b row) then
          storeS4a.blocks ++ [row]
        else storeS4a.blocks) ∧
      GetBlockByHash storeS4b (blockS4b.Hash testEnv) =
        (if testEnv.Commit (pendingStore testEnv storeS4a storeS4b blockS4b row) then
          some stored
        else none) ∧
      stored.AccumulatedWork
        = parent.AccumulatedWork + CalculateWork (Bytes32ToBigInt (blockS4b.Hash testEnv)) ∧
      parent.AccumulatedWork < stored.AccumulatedWork := by
  have hchain : List.Chain'
      (fun p c => p ∈ storeS4b.blocks ∧ c ∈ storeS4b.blocks ∧ ChildOf cfgS4 p c)
      storeS4b.blocks := by
    have h := chain'_of_isChain (fun p c : BlockRow => decide (p ∈ storeS4b.blocks ∧
      c ∈ storeS4b.blocks ∧ c.hash ≠ cfgS4.GenesisBlockHash.val ∧ c.parent_hash = p.hash))
      storeS4b.blocks (by decide!)
    exact h.imp (fun _ _ hr => by simpa [ChildOf] using hr)
  exact ⟨reachable_storeS4b, ingest_blockS4b, hchain,
    ((accumulated_work_increases testEnv cfgS4).2.2 storeS4b reachable_storeS4b).2.2
      storeS4b.blocks hchain,
    (accumulated_work_increases testEnv cfgS4).2.1 storeS4a blockS4b storeS4b ingest_blockS4b⟩


/-! ## C31: the indices and the count of a bit set -/

/-- The method `Contains` at an index that is not negative. -/
theorem Bitset.Contains_natCast (b : Bitset) (k : Nat) :
    b.Contains (k : Int)
      = (b[k / 8]?).map (fun x => decide (x &&& Byte.shl1 (k % 8) ≠ 0)) := by
  have hd : Int.tdiv (k : Int) 8 = ((k / 8 : Nat) : Int) := rfl
  have hm : Int.tmod (k : Int) 8 = ((k % 8 : Nat) : Int) := rfl
  have hu : uintOfInt ((k % 8 : Nat) : Int) = k % 8 := by
    unfold uintOfInt
    omega
  unfold Bitset.Contains Bitset.at Bitset.bit
  rw [hd, hm, hu, if_neg (by omega), Int.toNat_ofNat]
  cases b[k / 8]? <;> rfl

theorem Bitset.test_eq (b : Bitset) (k : Nat) :
    b.test k = match b[k / 8]? with
      | some x => decide (x &&& Byte.shl1 (k % 8) ≠ 0)
      | none => false := by
  unfold Bitset.test
  rw [Bitset.Contains_natCast]
  cases b[k / 8]? <;> simp

/-- In range `Contains` does not panic, and it returns `test`. -/
theorem Bitset.Contains_of_lt (b : Bitset) {k : Nat} (h : k < 8 * b.length) :
    b.Contains (k : Int) = some (b.test k) := by
  have hlt : k / 8 < b.length := by omega
  rw [Bitset.test_eq, Bitset.Contains_natCast, List.getElem?_eq_getElem hlt]
  rfl

/-- A set bit has an index in range. -/
theorem Bitset.Contains_true {b : Bitset} {j : Int} (h : b.Contains j = some true) :
    ∃ k : Nat, (k : Int) = j ∧ k < 8 * b.length ∧ b.test k = true := by
  obtain ⟨hdec, hcase⟩ := tdiv_tmod_eight j
  have hnn : 0 ≤ j := by
    by_contra hneg
    have hj : j < 0 := by omega
    unfold Bitset.Contains Bitset.at at h
    by_cases hq : Int.tdiv j 8 < 0
    · rw [if_pos hq] at h
      exact absurd h (by simp)
    · rw [if_neg hq] at h
      have hr : Int.tmod j 8 < 0 := by omega
      rw [Bitset.bit_of_neg hr (by omega)] at h
      cases hx : b[(Int.tdiv j 8).toNat]? with
      | none => rw [hx] at h; exact absurd h (by simp)
      | some x =>
        rw [hx] at h
        simp only [Byte.and_zero, ne_eq, not_true_eq_false, decide_False, Option.some.injEq]
          at h
        exact absurd h (by decide)
  refine ⟨j.toNat, Int.toNat_of_nonneg hnn, ?_, ?_⟩
  · by_contra hge
    have hk : (j.toNat : Int) = j := Int.toNat_of_nonneg hnn
    rw [← hk, Bitset.Contains_natCast, List.getElem?_eq_none (by omega)] at h
    exact absurd h (by simp)
  · unfold Bitset.test
    rw [Int.toNat_of_nonneg hnn, h]
    simp

/-- The loop of `Indices` appends the indices of the set bits among `i .. i+n-1`. -/
theorem Bitset.Indices_loop_eq (b : Bitset) : ∀ (n i : Nat) (indices : List Int),
    i + n ≤ 8 * b.length →
    Bitset.Indices.loop b n (i : Int) indices
      = some (indices ++ ((List.range' i n).filter b.test).map (fun k : Nat => (k : Int)))
  | 0, i, indices, _ => by simp [Bitset.Indices.loop]
  | n + 1, i, indices, h => by
    have hc := Bitset.Contains_of_lt b (show i < 8 * b.length by omega)
    have hi : ((i : Nat) : Int) + 1 = ((i + 1 : Nat) : Int) := by push_cast; rfl
    unfold Bitset.Indices.loop
    rw [hc, hi]
    cases ht : b.test i with
    | true =>
      simp only []
      rw [Bitset.Indices_loop_eq b n (i + 1) _ (by omega), List.range'_succ,
        List.filter_cons_of_pos (by simpa using ht)]
      simp
    | false =>
      simp only []
      rw [Bitset.Indices_loop_eq b n (i + 1) _ (by omega), List.range'_succ,
        List.filter_cons_of_neg (by simp [ht])]

theorem Bitset.Indices_eq (b : Bitset) :
    b.Indices = some ((b.setBelow (8 * b.length)).map (fun k : Nat => (k : Int))) := by
  have h := Bitset.Indices_loop_eq b (b.length * 8) 0 [] (by omega)
  unfold Bitset.Indices
  rw [Nat.cast_zero] at h
  rw [h, List.nil_append, ← List.range_eq_range', Bitset.setBelow, Nat.mul_comm]

set_option maxRecDepth 1000000 in
theorem bits.OnesCount8_eq : ∀ x : Byte,
    ((List.range 8).filter (fun k => decide (x &&& Byte.shl1 (k % 8) ≠ 0))).length
      = bits.OnesCount8 x := by decide!

/-- The set bits below `8 * len` of a bit set with a first byte `x`: the set bits of `x`, then
those of the rest, shifted by 8. -/
theorem Bitset.setBelow_cons (x : Byte) (bs : Bitset) :
    Bitset.setBelow (x :: bs) (8 * (x :: bs).length)
      = (List.range 8).filter (fun k => decide (x &&& Byte.shl1 (k % 8) ≠ 0))
        ++ (Bitset.setBelow bs (8 * bs.length)).map (fun k => 8 + k) := by
  have hlen : 8 * (x :: bs).length = 8 + 8 * bs.length := by
    rw [List.length_cons]; omega
  unfold Bitset.setBelow
  rw [hlen, List.range_add, List.filter_append, List.filter_map]
  congr 1
  · apply List.filter_congr
    intro k hk
    have hk8 : k < 8 := List.mem_range.mp hk
    have h0 : k / 8 = 0 := by omega
    rw [Bitset.test_eq, h0]
    simp
  · congr 1
    apply List.filter_congr
    intro k _
    have h1 : (8 + k) / 8 = k / 8 + 1 := by omega
    have h2 : (8 + k) % 8 = k % 8 := by omega
    simp only [Function.comp]
    rw [Bitset.test_eq, Bitset.test_eq, h1, h2, List.getElem?_cons_succ]

theorem Bitset.setBelow_length : ∀ b : Bitset,
    (Bitset.setBelow b (8 * b.length)).length = (b.map bits.OnesCount8).sum
  | [] => rfl
  | x :: bs => by
    rw [Bitset.setBelow_cons, List.length_append, List.length_map, bits.OnesCount8_eq,
      Bitset.setBelow_length bs, List.map_cons, List.sum_cons]

theorem Bitset.Count_eq (b : Bitset) : b.Count = ((b.map bits.OnesCount8).sum : Nat) := by
  have h : ∀ (l : Bitset) (acc : Int),
      l.foldl (fun count x => count + (bits.OnesCount8 x : Int)) acc
        = acc + ((l.map bits.OnesCount8).sum : Nat) := by
    intro l
    induction l with
    | nil => intro acc; simp
    | cons x l ih =>
      intro acc
      rw [List.foldl_cons, ih, List.map_cons, List.sum_cons]
      push_cast
      omega
  unfold Bitset.Count
  rw [h, Int.zero_add]

/-- C31. `Indices()` does not panic and returns a strictly increasing list; an integer `i` is
in the list exactly when `0 ≤ i < b.Size()` and `Contains(i)` is true; and `Count()` is the
length of the list. -/
theorem Bitset_Indices_Count (b : Bitset) :
    ∃ l : List Int, b.Indices = some l ∧
      l.Pairwise (fun i j => i < j) ∧
      (∀ i : Int, i ∈ l ↔ 0 ≤ i ∧ i < b.Size ∧ b.Contains i = some true) ∧
      b.Count = (l.length : Int) := by
  refine ⟨_, Bitset.Indices_eq b, ?_, ?_, ?_⟩
  · apply List.Pairwise.map (fun k : Nat => (k : Int)) (R := fun a b => a < b)
    · intro a c hac
      exact_mod_cast hac
    · exact List.Pairwise.filter _ (List.pairwise_lt_range _)
  · intro i
    simp only [List.mem_map, Bitset.setBelow, List.mem_filter, List.mem_range]
    constructor
    · rintro ⟨k, ⟨hk, ht⟩, rfl⟩
      refine ⟨Int.ofNat_nonneg k, ?_, ?_⟩
      · unfold Bitset.Size
        omega
      · rw [Bitset.Contains_of_lt b hk, ht]
    · rintro ⟨_, _, hc⟩
      obtain ⟨k, hk, hlt, ht⟩ := Bitset.Contains_true hc
      exact ⟨k, ⟨hlt, ht⟩, hk⟩
  · rw [List.length_map, Bitset.setBelow_length, Bitset.Count_eq]

/-- The bit set `bitsetRuns`, for comparison: its indices and its count. -/
theorem Bitset_Indices_Count_example :
    bitsetRuns.Indices = some [0, 1, 2, 7, 8, 9, 23] ∧ bitsetRuns.Count = 7 ∧
    bitsetRuns.Size = 24 := by decide


/-! ## C32: the ranges of a bit set -/

/-- One pass of the loop of `findOnesRanges`, in range. -/
theorem findOnesRanges_loop_step (b : Bitset) (n : Nat) {i : Nat} (hi : i < 8 * b.length)
    (start : Int) (ranges : List (Int × Int)) :
    findOnesRanges.loop b (n + 1) (i : Int) start ranges =
      if b.test i = true then
        if start = -1 then findOnesRanges.loop b n ((i + 1 : Nat) : Int) i ranges
        else findOnesRanges.loop b n ((i + 1 : Nat) : Int) start ranges
      else
        if start ≠ -1 then
          findOnesRanges.loop b n ((i + 1 : Nat) : Int) (-1) (ranges ++ [(start, (i : Int) - 1)])
        else findOnesRanges.loop b n ((i + 1 : Nat) : Int) start ranges := by
  obtain ⟨_, x, hat, _⟩ := Bitset.at_of_lt b (Int.ofNat_nonneg i)
    (show (i : Int) < b.Size by unfold Bitset.Size; omega)
  have hc := Bitset.Contains_of_lt b hi
  have hbit : decide (x &&& Bitset.bit (i : Int) ≠ 0) = b.test i := by
    unfold Bitset.Contains at hc
    rw [hat] at hc
    exact Option.some.inj hc
  have hcast : ((i : Nat) : Int) + 1 = ((i + 1 : Nat) : Int) := by push_cast; rfl
  conv_lhs => unfold findOnesRanges.loop
  simp only [hat, hbit, hcast]

theorem Bitset.setBelow_succ (b : Bitset) (i : Nat) :
    ((b.setBelow (i + 1)).length : Int)
      = ((b.setBelow i).length : Int) + (if b.test i = true then 1 else 0) := by
  unfold Bitset.setBelow
  rw [List.range_succ, List.filter_append, List.length_append]
  by_cases h : b.test i = true
  · rw [List.filter_cons_of_pos h, if_pos h]
    simp
  · rw [List.filter_cons_of_neg h, if_neg h]
    simp

theorem RunsInv.init (b : Bitset) : RunsInv b 0 (-1) [] where
  start_range := Or.inl rfl
  open_set := fun h => absurd rfl h
  open_max := fun h => absurd rfl h
  closed_prev := fun _ => Or.inl rfl
  wf := by intro r hr; simp at hr
  sorted := List.Pairwise.nil
  cover := by intro k hk; omega
  count := by simp [Bitset.setBelow]

/-- A set bit at `i` with no open run: a run opens at `i`. -/
theorem RunsInv.step_open {b : Bitset} {i : Nat} {ranges : List (Int × Int)}
    (h : RunsInv b i (-1) ranges) (ht : b.test i = true) :
    RunsInv b (i + 1) (i : Int) ranges where
  start_range := Or.inr ⟨by omega, by omega⟩
  open_set := by
    intro _ k hk1 hk2
    have : k = i := by omega
    rw [this]; exact ht
  open_max := by
    intro _
    rcases h.closed_prev rfl with h0 | ⟨k, hk, hkt⟩
    · left; omega
    · right; exact ⟨k, by omega, hkt⟩
  closed_prev := by intro hs; omega
  wf := by
    intro r hr
    obtain ⟨h1, h2, h3, h4, h5, h6, _⟩ := h.wf r hr
    exact ⟨h1, h2, by omega, h4, h5, h6, fun _ => h3⟩
  sorted := h.sorted
  cover := by
    intro k hk hkt
    by_cases hki : k < i
    · rcases h.cover k hki hkt with hc | ⟨hne, _⟩
      · exact Or.inl hc
      · exact absurd rfl hne
    · exact Or.inr ⟨by omega, by omega⟩
  count := by
    have hc := h.count
    rw [if_pos rfl] at hc
    rw [Bitset.setBelow_succ, if_pos ht, if_neg (by omega), ← hc]
    push_cast
    omega

/-- A set bit at `i` inside an open run. -/
theorem RunsInv.step_extend {b : Bitset} {i : Nat} {start : Int} {ranges : List (Int × Int)}
    (h : RunsInv b i start ranges) (hs : start ≠ -1) (ht : b.test i = true) :
    RunsInv b (i + 1) start ranges where
  start_range := by
    rcases h.start_range with h0 | ⟨h1, h2⟩
    · exact absurd h0 hs
    · exact Or.inr ⟨h1, by omega⟩
  open_set := by
    intro _ k hk1 hk2
    by_cases hki : k < i
    · exact h.open_set hs k hk1 hki
    · have : k = i := by omega
      rw [this]; exact ht
  open_max := h.open_max
  closed_prev := fun h0 => absurd h0 hs
  wf := by
    intro r hr
    obtain ⟨h1, h2, h3, h4, h5, h6, h7⟩ := h.wf r hr
    exact ⟨h1, h2, by omega, h4, h5, h6, h7⟩
  sorted := h.sorted
  cover := by
    intro k hk hkt
    by_cases hki : k < i
    · exact h.cover k hki hkt
    · refine Or.inr ⟨hs, ?_⟩
      rcases h.start_range with h0 | ⟨_, h2⟩
      · exact absurd h0 hs
      · omega
  count := by
    have hc := h.count
    rw [if_neg hs] at hc
    rw [Bitset.setBelow_succ, if_pos ht, if_neg hs, ← hc]
    push_cast
    omega

/-- An unset bit at `i` after an open run: the run is closed as `[start, i-1]`. -/
theorem RunsInv.step_close {b : Bitset} {i : Nat} {start : Int} {ranges : List (Int × Int)}
    (h : RunsInv b i start ranges) (hs : start ≠ -1) (ht : ¬ b.test i = true) :
    RunsInv b (i + 1) (-1) (ranges ++ [(start, (i : Int) - 1)]) where
  start_range := Or.inl rfl
  open_set := fun h0 => absurd rfl h0
  open_max := fun h0 => absurd rfl h0
  closed_prev := fun _ => Or.inr ⟨i, rfl, by simpa using ht⟩
  wf := by
    have hsr : 0 ≤ start ∧ start < (i : Int) := by
      rcases h.start_range with h0 | h1
      · exact absurd h0 hs
      · exact h1
    intro r hr
    rcases List.mem_append.mp hr with hr | hr
    · obtain ⟨h1, h2, h3, h4, h5, h6, _⟩ := h.wf r hr
      exact ⟨h1, h2, by omega, h4, h5, h6, fun h0 => absurd rfl h0⟩
    · rw [List.mem_singleton.mp hr]
      refine ⟨hsr.1, by simp only; omega, by simp only; omega, ?_, h.open_max hs, ?_,
        fun h0 => absurd rfl h0⟩
      · intro k hk1 hk2
        simp only at hk1 hk2
        exact h.open_set hs k hk1 (by omega)
      · exact ⟨i, by simp only; omega, by simpa using ht⟩
  sorted := by
    rw [List.pairwise_append]
    refine ⟨h.sorted, List.pairwise_singleton _ _, ?_⟩
    intro r hr r' hr'
    rw [List.mem_singleton.mp hr']
    exact (h.wf r hr).2.2.2.2.2.2 hs
  cover := by
    intro k hk hkt
    have hki : k < i := by
      by_contra hge
      have : k = i := by omega
      rw [this] at hkt
      exact ht hkt
    left
    rcases h.cover k hki hkt with ⟨r, hr, hr1, hr2⟩ | ⟨_, hsk⟩
    · exact ⟨r, List.mem_append_left _ hr, hr1, hr2⟩
    · exact ⟨(start, (i : Int) - 1), List.mem_append_right _ (List.mem_singleton.mpr rfl),
        hsk, by simp only; omega⟩
  count := by
    have hc := h.count
    rw [if_neg hs] at hc
    rw [Bitset.setBelow_succ, if_neg ht, if_pos rfl, ← hc, List.map_append, List.sum_append]
    simp only [List.map_cons, List.map_nil, List.sum_cons, List.sum_nil]
    omega

/-- An unset bit at `i` with no open run. -/
theorem RunsInv.step_skip {b : Bitset} {i : Nat} {ranges : List (Int × Int)}
    (h : RunsInv b i (-1) ranges) (ht : ¬ b.test i = true) :
    RunsInv b (i + 1) (-1) ranges where
  start_range := Or.inl rfl
  open_set := fun h0 => absurd rfl h0
  open_max := fun h0 => absurd rfl h0
  closed_prev := fun _ => Or.inr ⟨i, rfl, by simpa using ht⟩
  wf := by
    intro r hr
    obtain ⟨h1, h2, h3, h4, h5, h6, h7⟩ := h.wf r hr
    exact ⟨h1, h2, by omega, h4, h5, h6, h7⟩
  sorted := h.sorted
  cover := by
    intro k hk hkt
    have hki : k < i := by
      by_contra hge
      have : k = i := by omega
      rw [this] at hkt
      exact ht hkt
    exact h.cover k hki hkt
  count := by
    have hc := h.count
    rw [if_pos rfl] at hc
    rw [Bitset.setBelow_succ, if_neg ht, if_pos rfl, ← hc]
    omega

/-- The loop of `findOnesRanges` does not panic in range and keeps the invariant. -/
theorem findOnesRanges.loop_inv (b : Bitset) : ∀ (n i : Nat) (start : Int)
    (ranges : List (Int × Int)), i + n ≤ 8 * b.length → RunsInv b i start ranges →
    ∃ start' ranges', findOnesRanges.loop b n (i : Int) start ranges = some (start', ranges') ∧
      RunsInv b (i + n) start' ranges'
  | 0, i, start, ranges, _, h => ⟨start, ranges, rfl, h⟩
  | n + 1, i, start, ranges, hn, h => by
    have hi : i < 8 * b.length := by omega
    have hadd : i + (n + 1) = i + 1 + n := by omega
    rw [findOnesRanges_loop_step b n hi, hadd]
    by_cases ht : b.test i = true
    · rw [if_pos ht]
      by_cases hs : start = -1
      · rw [if_pos hs]
        subst hs
        exact findOnesRanges.loop_inv b n (i + 1) _ _ (by omega) (h.step_open ht)
      · rw [if_neg hs]
        exact findOnesRanges.loop_inv b n (i + 1) _ _ (by omega) (h.step_extend hs ht)
    · rw [if_neg ht]
      by_cases hs : start = -1
      · rw [if_neg (by simpa using hs)]
        subst hs
        exact findOnesRanges.loop_inv b n (i + 1) _ _ (by omega) (h.step_skip ht)
      · rw [if_pos hs]
        exact findOnesRanges.loop_inv b n (i + 1) _ _ (by omega) (h.step_close hs ht)


/-- The result of `findOnesRanges`, in terms of the bits: no panic, every range is a maximal
run of set bits, the ranges are in increasing order and apart, every set bit is in a range, and
the lengths add up to the number of set bits. -/
theorem findOnesRanges_spec (b : Bitset) :
    ∃ rs : List (Int × Int), findOnesRanges b = some rs ∧
      (∀ r ∈ rs, 0 ≤ r.1 ∧ r.1 ≤ r.2 ∧ r.2 < ((8 * b.length : Nat) : Int) ∧
        (∀ k : Nat, r.1 ≤ (k : Int) → (k : Int) ≤ r.2 → b.test k = true) ∧
        (r.1 = 0 ∨ ∃ k : Nat, (k : Int) + 1 = r.1 ∧ b.test k = false) ∧
        (r.2 + 1 = ((8 * b.length : Nat) : Int) ∨
          ∃ k : Nat, (k : Int) = r.2 + 1 ∧ k < 8 * b.length ∧ b.test k = false)) ∧
      rs.Pairwise (fun r1 r2 => r1.2 + 1 < r2.1) ∧
      (∀ k : Nat, k < 8 * b.length → b.test k = true →
        ∃ r ∈ rs, r.1 ≤ (k : Int) ∧ (k : Int) ≤ r.2) ∧
      (rs.map (fun r => r.2 - r.1 + 1)).sum = ((b.setBelow (8 * b.length)).length : Int) := by
  obtain ⟨start, ranges, hloop, hinv⟩ :=
    findOnesRanges.loop_inv b (b.length * 8) 0 (-1) [] (by omega) (RunsInv.init b)
  have hN : 0 + b.length * 8 = 8 * b.length := by omega
  rw [hN] at hinv
  rw [Nat.cast_zero] at hloop
  have hold : ∀ r ∈ ranges, 0 ≤ r.1 ∧ r.1 ≤ r.2 ∧ r.2 < ((8 * b.length : Nat) : Int) ∧
      (∀ k : Nat, r.1 ≤ (k : Int) → (k : Int) ≤ r.2 → b.test k = true) ∧
      (r.1 = 0 ∨ ∃ k : Nat, (k : Int) + 1 = r.1 ∧ b.test k = false) ∧
      (r.2 + 1 = ((8 * b.length : Nat) : Int) ∨
        ∃ k : Nat, (k : Int) = r.2 + 1 ∧ k < 8 * b.length ∧ b.test k = false) := by
    intro r hr
    obtain ⟨h1, h2, h3, h4, h5, ⟨k, hk, hkt⟩, _⟩ := hinv.wf r hr
    exact ⟨h1, h2, by omega, h4, h5, Or.inr ⟨k, hk, by omega, hkt⟩⟩
  by_cases hs : start = -1
  · refine ⟨ranges, ?_, hold, hinv.sorted, ?_, ?_⟩
    · unfold findOnesRanges
      rw [hloop]
      simp only [hs, ne_eq, not_true_eq_false, if_false]
    · intro k hk hkt
      rcases hinv.cover k hk hkt with hc | ⟨hne, _⟩
      · exact hc
      · exact absurd hs hne
    · have hc := hinv.count
      rw [if_pos hs] at hc
      rw [← hc]
      omega
  · have hsr : 0 ≤ start ∧ start < ((8 * b.length : Nat) : Int) := by
      rcases hinv.start_range with h0 | h1
      · exact absurd h0 hs
      · exact h1
    have hlast : ((b.length : Int) * 8 - 1) = ((8 * b.length : Nat) : Int) - 1 := by
      push_cast; omega
    refine ⟨ranges ++ [(start, (b.length : Int) * 8 - 1)], ?_, ?_, ?_, ?_, ?_⟩
    · unfold findOnesRanges
      rw [hloop]
      simp only [ne_eq, hs, not_false_eq_true, if_true]
    · intro r hr
      rcases List.mem_append.mp hr with hr | hr
      · exact hold r hr
      · rw [List.mem_singleton.mp hr, hlast]
        refine ⟨hsr.1, by simp only; omega, by simp only; omega, ?_, hinv.open_max hs,
          Or.inl (by simp only; omega)⟩
        intro k hk1 hk2
        simp only at hk1 hk2
        exact hinv.open_set hs k hk1 (by omega)
    · rw [List.pairwise_append]
      refine ⟨hinv.sorted, List.pairwise_singleton _ _, ?_⟩
      intro r hr r' hr'
      rw [List.mem_singleton.mp hr']
      exact (hinv.wf r hr).2.2.2.2.2.2 hs
    · intro k hk hkt
      rcases hinv.cover k hk hkt with ⟨r, hr, hr1, hr2⟩ | ⟨_, hsk⟩
      · exact ⟨r, List.mem_append_left _ hr, hr1, hr2⟩
      · exact ⟨_, List.mem_append_right _ (List.mem_singleton.mpr rfl), hsk,
          by simp only; omega⟩
    · have hc := hinv.count
      rw [if_neg hs] at hc
      rw [← hc, List.map_append, List.sum_append]
      simp only [List.map_cons, List.map_nil, List.sum_cons, List.sum_nil]
      push_cast
      omega

/-- C32. `Ranges()` does not panic. Every range `[start, end]` it returns has
`0 ≤ start ≤ end < b.Size()`, holds set bits only, and is maximal: the bit before `start` and
the bit after `end` are unset or out of the bit set. Every set index lies in a range, and in
one only. The ranges are in increasing order, and between two of them the index after the end
of the first is unset. The lengths `end - start + 1` add up to `b.Count()`. -/
theorem Bitset_Ranges_runs (b : Bitset) :
    ∃ rs : List (Int × Int), b.Ranges = some rs ∧
      (∀ r ∈ rs, 0 ≤ r.1 ∧ r.1 ≤ r.2 ∧ r.2 < b.Size ∧
        (∀ j : Int, r.1 ≤ j → j ≤ r.2 → b.Contains j = some true) ∧
        (r.1 = 0 ∨ b.Contains (r.1 - 1) = some false) ∧
        (r.2 = b.Size - 1 ∨ b.Contains (r.2 + 1) = some false)) ∧
      (∀ j : Int, b.Contains j = some true →
        ∃ r ∈ rs, r.1 ≤ j ∧ j ≤ r.2 ∧ ∀ r' ∈ rs, r'.1 ≤ j → j ≤ r'.2 → r' = r) ∧
      rs.Pairwise (fun r1 r2 => r1.2 + 1 < r2.1 ∧ b.Contains (r1.2 + 1) = some false) ∧
      (rs.map (fun r => r.2 - r.1 + 1)).sum = b.Count := by
  obtain ⟨rs, hrs, hwf, hsorted, hcover, hsum⟩ := findOnesRanges_spec b
  have hsize : b.Size = ((8 * b.length : Nat) : Int) := by
    unfold Bitset.Size; push_cast; omega
  have hcont : ∀ (k : Nat) (j : Int), (k : Int) = j → k < 8 * b.length →
      b.Contains j = some (b.test k) := by
    intro k j hkj hk
    rw [← hkj]
    exact Bitset.Contains_of_lt b hk
  have hright : ∀ r ∈ rs, r.2 + 1 < ((8 * b.length : Nat) : Int) →
      b.Contains (r.2 + 1) = some false := by
    intro r hr hlt
    rcases (hwf r hr).2.2.2.2.2 with hN | ⟨k, hk, hkN, hkt⟩
    · omega
    · rw [hcont k _ hk hkN, hkt]
  refine ⟨rs, hrs, ?_, ?_, ?_, ?_⟩
  · intro r hr
    obtain ⟨h1, h2, h3, h4, h5, h6⟩ := hwf r hr
    refine ⟨h1, h2, by rw [hsize]; exact h3, ?_, ?_, ?_⟩
    · intro j hj1 hj2
      rw [hcont j.toNat j (Int.toNat_of_nonneg (by omega)) (by omega),
        h4 j.toNat (by omega) (by omega)]
    · rcases h5 with h0 | ⟨k, hk, hkt⟩
      · exact Or.inl h0
      · right
        rw [hcont k _ (by omega) (by omega), hkt]
    · by_cases hN : r.2 + 1 = ((8 * b.length : Nat) : Int)
      · left
        rw [hsize]
        omega
      · right
        exact hright r hr (by omega)
  · intro j hj
    obtain ⟨k, hkj, hk, hkt⟩ := Bitset.Contains_true hj
    obtain ⟨r, hr, hr1, hr2⟩ := hcover k hk hkt
    refine ⟨r, hr, by omega, by omega, ?_⟩
    intro r' hr' hr1' hr2'
    by_contra hne
    have hsym : rs.Pairwise (fun r1 r2 : Int × Int => r1.2 + 1 < r2.1 ∨ r2.2 + 1 < r1.1) :=
      hsorted.imp (fun h => Or.inl h)
    have := hsym.forall (fun _ _ h => h.symm) hr' hr hne
    omega
  · apply hsorted.imp_of_mem
    intro r1 r2 h1 h2 hlt
    have := (hwf r2 h2)
    exact ⟨hlt, hright r1 h1 (by omega)⟩
  · rw [hsum, Bitset.setBelow_length, Bitset.Count_eq]

/-- The bit set `bitsetRuns`, for comparison: its three ranges, of 3 + 3 + 1 = 7 set bits. -/
theorem Bitset_Ranges_runs_example :
    bitsetRuns.Ranges = some [(0, 2), (7, 9), (23, 23)] ∧ bitsetRuns.Count = 7 ∧
    Bitset.Ranges [] = some [] ∧ Bitset.Ranges [255] = some [(0, 7)] := by decide

end Tinychain
